import Mathlib

/-!
# sduration: text, JSON and SQL codecs of a nanosecond duration

A shallow embedding of the Go package `sduration` (`sduration.go`, `text.go`,
`json.go`, `sql.go`).  The package wraps `time.Duration` and delegates to the Go
standard library (`time.ParseDuration`, `time.Duration.String`, `encoding/json`,
`fmt.Errorf`); the library functions the package calls are embedded here as well,
function by function, so that the behaviour of the wrappers is determined.

Conventions.
* A Go `string` / `[]byte` is a list of bytes; a byte is a natural number below 256.
* `int64` is an `Int` in `[-2^63, 2^63)`, `uint64` a `Nat` below `2^64`; every
  operation that can wrap is written with an explicit `% 2^64`.
* `float64` is modelled by its exact value (a dyadic rational) with explicit
  round-to-nearest-even after each operation.
* A pointer receiver is modelled by state passing: a decoder takes the prior
  receiver value and returns the error result together with the receiver after
  the call.
-/

namespace SDurationModel

/-- A Go string or byte slice. -/
abbrev Bytes := List Nat

/-- The bytes of an ASCII string literal. -/
def ascii (s : String) : Bytes := s.toList.map Char.toNat

/-! ## Machine integers -/

/-- Conversion to `int64` (two's complement wrap-around). -/
def toInt64 (n : Int) : Int := (n + 2^63) % 2^64 - 2^63

/-- Conversion to `uint64` (wrap-around). -/
def toUint64 (n : Int) : Nat := (n % 2^64).toNat

/-- The predicate "is a value of type `int64`". -/
def IsInt64 (n : Int) : Prop := -2^63 ≤ n ∧ n < 2^63

instance (n : Int) : Decidable (IsInt64 n) := by unfold IsInt64; infer_instance

instance instDecidableEqExcept {ε α : Type} [DecidableEq ε] [DecidableEq α] :
    DecidableEq (Except ε α)
  | .ok a, .ok b => if h : a = b then isTrue (by rw [h]) else isFalse (by intro g; cases g; exact h rfl)
  | .error a, .error b =>
    if h : a = b then isTrue (by rw [h]) else isFalse (by intro g; cases g; exact h rfl)
  | .ok _, .error _ => isFalse (by intro g; cases g)
  | .error _, .ok _ => isFalse (by intro g; cases g)

/-! ## float64 -/

/-- A `float64` value: a finite value `± m * 2^e`, an infinity, or NaN. -/
inductive F64 where
  | fin (neg : Bool) (m : Nat) (e : Int)
  | inf (neg : Bool)
  | nan
  deriving DecidableEq, Repr

namespace F64

/-- The loop of `ilog2`; the first argument bounds the iterations. -/
def ilog2Loop : Nat → Nat → Nat
  | 0, _ => 0
  | fuel + 1, n => if 2 ≤ n then ilog2Loop fuel (n / 2) + 1 else 0

/-- The position of the highest set bit of `n` (`0` for `n ≤ 1`). -/
def ilog2 (n : Nat) : Nat := ilog2Loop n n

/-- The exponent of the unit in the last place of the `float64` nearest to the
positive rational `num / den`: `floor (log2 (num / den)) - 52`, and at least `-1074`
(subnormal numbers). -/
def ulpExp (num den : Nat) : Int :=
  let l : Int := (ilog2 num : Int) - (ilog2 den : Int)
  let ge : Bool :=
    if 0 ≤ l then decide (den * 2 ^ l.toNat ≤ num) else decide (den ≤ num * 2 ^ (-l).toNat)
  let E : Int := if ge then l else l - 1
  max (E - 52) (-1074)

/-- Round the rational `± num / den` to a multiple of `2^ue`, to the nearest one and
to the even one in a tie; overflow to infinity from `2^1024 = 2^53 * 2^971`. -/
def roundAt (neg : Bool) (num den : Nat) (ue : Int) : F64 :=
  let N := num * 2 ^ (-ue).toNat
  let D := den * 2 ^ ue.toNat
  let k := N / D
  let r := N % D
  let k := if 2 * r < D then k else if D < 2 * r then k + 1 else if k % 2 = 0 then k else k + 1
  if 971 < ue ∨ (ue = 971 ∧ 2 ^ 53 ≤ k) then inf neg else fin neg k ue

/-- Round the rational `± num / den` (`den > 0`) to the nearest `float64`, ties to
even: 53 significant bits, exponent of the last place at least `-1074`. -/
def round (neg : Bool) (num den : Nat) : F64 :=
  if num = 0 then fin neg 0 0 else roundAt neg num den (ulpExp num den)

/-- The conversion `float64(x)` of a `uint64`. -/
def ofNat (x : Nat) : F64 := round false x 1

/-- The numerator and denominator of a finite value `m * 2^e`. -/
def numDen (m : Nat) (e : Int) : Nat × Nat := (m * 2 ^ e.toNat, 2 ^ (-e).toNat)

/-- The float64 product. -/
def mul : F64 → F64 → F64
  | nan, _ => nan
  | _, nan => nan
  | inf n1, inf n2 => inf (xor n1 n2)
  | inf n1, fin n2 m _ => if m = 0 then nan else inf (xor n1 n2)
  | fin n1 m _, inf n2 => if m = 0 then nan else inf (xor n1 n2)
  | fin n1 m1 e1, fin n2 m2 e2 =>
    let a := numDen m1 e1
    let b := numDen m2 e2
    round (xor n1 n2) (a.1 * b.1) (a.2 * b.2)

/-- The float64 quotient. -/
def div : F64 → F64 → F64
  | nan, _ => nan
  | _, nan => nan
  | inf _, inf _ => nan
  | inf n1, fin n2 _ _ => inf (xor n1 n2)
  | fin n1 _ _, inf n2 => fin (xor n1 n2) 0 0
  | fin n1 m1 e1, fin n2 m2 e2 =>
    if m2 = 0 then (if m1 = 0 then nan else inf (xor n1 n2)) else
    let a := numDen m1 e1
    let b := numDen m2 e2
    round (xor n1 n2) (a.1 * b.2) (a.2 * b.1)

/-- The conversion `uint64(f)`: truncation toward zero.  For a value outside the
range of `uint64` the Go specification leaves the result to the implementation; the
amd64 result `2^63` is used. -/
def toUint64 : F64 → Nat
  | fin neg m e =>
    let a := numDen m e
    let t := a.1 / a.2
    if neg then (if t = 0 then 0 else 2 ^ 63)
    else if t < 2 ^ 64 then t else 2 ^ 63
  | _ => 2 ^ 63

/-- The conversion `int64(f)`: truncation toward zero.  For a value outside the
range of `int64` (and for NaN) the Go specification leaves the result to the
implementation; the amd64 result `-2^63` is used. -/
def toInt64 : F64 → Int
  | fin neg m e =>
    let a := numDen m e
    let t : Int := ((a.1 / a.2 : Nat) : Int)
    let v : Int := if neg then -t else t
    if -2 ^ 63 ≤ v ∧ v < 2 ^ 63 then v else -2 ^ 63
  | _ => -2 ^ 63

/-- The float `x` is the natural number `n`, exactly. -/
def Represents (x : F64) (n : Nat) : Prop :=
  ∃ m e, x = fin false m e ∧ (numDen m e).1 = n * (numDen m e).2 ∧ 0 < (numDen m e).2

end F64

/-! ## Package `time`: constants -/

def Nanosecond : Nat := 1
def Microsecond : Nat := 1000 * Nanosecond
def Millisecond : Nat := 1000 * Microsecond
def Second : Nat := 1000 * Millisecond
def Minute : Nat := 60 * Second
def Hour : Nat := 60 * Minute

/-! ## Package `time`: `Duration.String` -/

/-- The loop of `fmtFrac`: `n` iterations remain; returns the buffer, the value and
the `print` flag. -/
def fmtFracLoop : Nat → Bool → Nat → Bytes → Bytes × Nat × Bool
  | 0, pr, v, buf => (buf, v, pr)
  | n + 1, pr, v, buf =>
    let digit := v % 10
    let pr := pr || decide (digit ≠ 0)
    let buf := if pr then (digit + 48) :: buf else buf
    fmtFracLoop n pr (v / 10) buf

/-- Function `fmtFrac` formats the fraction of `v / 10^prec` in front of `buf`, omitting
trailing zeros (and the decimal point when the fraction is 0); it returns the new
buffer and `v / 10^prec`. -/
def fmtFrac (buf : Bytes) (v prec : Nat) : Bytes × Nat :=
  let r := fmtFracLoop prec false v buf
  (if r.2.2 then 46 :: r.1 else r.1, r.2.1)

/-- The loop `for v > 0` of `fmtInt`; the first argument bounds the iterations. -/
def fmtIntLoop : Nat → Nat → Bytes → Bytes
  | 0, _, buf => buf
  | fuel + 1, v, buf =>
    if 0 < v then fmtIntLoop fuel (v / 10) ((v % 10 + 48) :: buf) else buf

/-- Function `fmtInt` formats `v` in decimal in front of `buf`. -/
def fmtInt (buf : Bytes) (v : Nat) : Bytes :=
  if v = 0 then 48 :: buf else fmtIntLoop v v buf

/-- The method `Duration.format`: the text of the duration `d`, written from the end of the
buffer towards its start. -/
def format (d : Int) : Bytes :=
  let u0 := toUint64 d
  let neg := decide (d < 0)
  let u := if neg then (2 ^ 64 - u0) % 2 ^ 64 else u0
  if u < Second then
    -- smaller than a second: use smaller units, like 1.2ms
    let buf : Bytes := [115]
    if u = 0 then 48 :: buf
    else
      let pb : Nat × Bytes :=
        if u < Microsecond then (0, 110 :: buf)
        else if u < Millisecond then (3, 194 :: 181 :: buf)
        else (6, 109 :: buf)
      let r := fmtFrac pb.2 u pb.1
      let buf := fmtInt r.1 r.2
      if neg then 45 :: buf else buf
  else
    let buf : Bytes := [115]
    let r := fmtFrac buf u 9
    -- r.2 is now integer seconds
    let buf := fmtInt r.1 (r.2 % 60)
    let u := r.2 / 60
    -- u is now integer minutes
    let buf :=
      if 0 < u then
        let buf := fmtInt (109 :: buf) (u % 60)
        let u := u / 60
        -- u is now integer hours
        if 0 < u then fmtInt (104 :: buf) u else buf
      else buf
    if neg then 45 :: buf else buf

/-- The method `Duration.String`. -/
def Duration.String (d : Int) : Bytes := format d

/-! ## Package `time`: `ParseDuration` -/

/-- An error value created by package `time` with `errors.New`: its message. -/
structure TimeError where
  msg : Bytes
  deriving DecidableEq, Repr

/-- One digit of `lowerhex = "0123456789abcdef"`. -/
def lowerhex (n : Nat) : Nat := if n < 10 then 48 + n else 87 + n

/-- The body of the loop of `quote` for the bytes of one rune.  The Go loop ranges
over the runes of `s`; a rune `>= runeSelf` is written as `\x` and two hex digits for
each of its bytes, and every byte of such a rune is itself `>= 0x80`, so the loop acts
on each byte separately as written here. -/
def quoteByte (c : Nat) : Bytes :=
  if 128 ≤ c ∨ c < 32 then [92, 120, lowerhex (c / 16), lowerhex (c % 16)]
  else if c = 34 ∨ c = 92 then [92, c]
  else [c]

/-- Function `quote` of package `time`: the string in double quotes, with escapes. -/
def quote (s : Bytes) : Bytes := 34 :: (s.flatMap quoteByte ++ [34])

/-- The error `errors.New("time: invalid duration " + quote(orig))`. -/
def errInvalid (orig : Bytes) : TimeError := ⟨ascii "time: invalid duration " ++ quote orig⟩

/-- The error `errors.New("time: missing unit in duration " + quote(orig))`. -/
def errMissingUnit (orig : Bytes) : TimeError :=
  ⟨ascii "time: missing unit in duration " ++ quote orig⟩

/-- The error `errors.New("time: unknown unit " + quote(u) + " in duration " + quote(orig))`. -/
def errUnknownUnit (u orig : Bytes) : TimeError :=
  ⟨ascii "time: unknown unit " ++ quote u ++ ascii " in duration " ++ quote orig⟩

/-- The loop of `leadingInt` with the value `x` accumulated so far; `none` is
`errLeadingInt` (overflow). -/
def leadingIntLoop : Nat → Bytes → Option (Nat × Bytes)
  | x, [] => some (x, [])
  | x, c :: s =>
    if c < 48 ∨ 57 < c then some (x, c :: s)
    else if 2 ^ 63 / 10 < x then none
    else
      let x1 := (x * 10 + c - 48) % 2 ^ 64
      if 2 ^ 63 < x1 then none else leadingIntLoop x1 s

/-- Function `leadingInt` consumes the leading `[0-9]*` from `s`. -/
def leadingInt (s : Bytes) : Option (Nat × Bytes) := leadingIntLoop 0 s

/-- The loop of `leadingFraction` with the state `x`, `scale`, `overflow`. -/
def leadingFractionLoop : Nat → F64 → Bool → Bytes → Nat × F64 × Bytes
  | x, scale, _, [] => (x, scale, [])
  | x, scale, overflow, c :: s =>
    if c < 48 ∨ 57 < c then (x, scale, c :: s)
    else if overflow then leadingFractionLoop x scale overflow s
    else if (2 ^ 63 - 1) / 10 < x then leadingFractionLoop x scale true s
    else
      let y := (x * 10 + c - 48) % 2 ^ 64
      if 2 ^ 63 < y then leadingFractionLoop x scale true s
      else leadingFractionLoop y (F64.mul scale (F64.ofNat 10)) false s

/-- Function `leadingFraction` consumes the leading `[0-9]*` from `s`; it does not fail on
overflow, it just stops accumulating precision. -/
def leadingFraction (s : Bytes) : Nat × F64 × Bytes :=
  leadingFractionLoop 0 (F64.ofNat 1) false s

/-- The table `unitMap`. -/
def unitMap (u : Bytes) : Option Nat :=
  if u = [110, 115] then some Nanosecond
  else if u = [117, 115] then some Microsecond
  else if u = [194, 181, 115] then some Microsecond -- U+00B5 = micro symbol
  else if u = [206, 188, 115] then some Microsecond -- U+03BC = Greek letter mu
  else if u = [109, 115] then some Millisecond
  else if u = [115] then some Second
  else if u = [109] then some Minute
  else if u = [104] then some Hour
  else none

/-- The length of the unit at the start of `s`: the bytes up to the first `.` or
digit. -/
def unitLen : Bytes → Nat
  | [] => 0
  | c :: s => if c = 46 ∨ (48 ≤ c ∧ c ≤ 57) then 0 else unitLen s + 1

/-- The loop `for s != ""` of `ParseDuration`, with the sum `d` so far.  Every
iteration consumes at least one byte of `s`; the first argument bounds the number of
iterations and `ParseDuration` passes the length of the text, a bound that is never
reached (`parseLoop_fuel`). -/
def parseLoop : Nat → Bytes → Nat → Bytes → Except TimeError Nat
  | _, _, d, [] => .ok d
  | 0, orig, _, _ :: _ => .error (errInvalid orig)
  | fuel + 1, orig, d, c :: t =>
    let s := c :: t
    -- the next character must be [0-9.]
    if ¬ (c = 46 ∨ (48 ≤ c ∧ c ≤ 57)) then .error (errInvalid orig)
    else
      -- consume [0-9]*
      match leadingInt s with
      | none => .error (errInvalid orig)
      | some (v, s1) =>
        let pre := decide (s.length ≠ s1.length)
        -- consume (\.[0-9]*)?
        let fr : Nat × F64 × Bytes × Bool :=
          match s1 with
          | 46 :: s2 =>
            let r := leadingFraction s2
            (r.1, r.2.1, r.2.2, decide (s2.length ≠ r.2.2.length))
          | _ => (0, F64.ofNat 1, s1, false)
        let f := fr.1
        let scale := fr.2.1
        let s3 := fr.2.2.1
        let post := fr.2.2.2
        if !pre && !post then .error (errInvalid orig)
        else
          -- consume unit
          let i := unitLen s3
          if i = 0 then .error (errMissingUnit orig)
          else
            let u := s3.take i
            let s4 := s3.drop i
            match unitMap u with
            | none => .error (errUnknownUnit u orig)
            | some unit =>
              if 2 ^ 63 / unit < v then .error (errInvalid orig)
              else
                let v1 := (v * unit) % 2 ^ 64
                let v2 :=
                  if 0 < f then
                    (v1 + F64.toUint64 (F64.mul (F64.ofNat f) (F64.div (F64.ofNat unit) scale)))
                      % 2 ^ 64
                  else v1
                if 0 < f ∧ 2 ^ 63 < v2 then .error (errInvalid orig)
                else
                  let d1 := (d + v2) % 2 ^ 64
                  if 2 ^ 63 < d1 then .error (errInvalid orig)
                  else parseLoop fuel orig d1 s4

/-- Function `time.ParseDuration`: parses `[-+]?([0-9]*(\.[0-9]*)?[a-z]+)+`. -/
def ParseDuration (orig : Bytes) : Except TimeError Int :=
  -- consume [-+]?
  let ns : Bool × Bytes :=
    match orig with
    | c :: t => if c = 45 ∨ c = 43 then (decide (c = 45), t) else (false, orig)
    | [] => (false, orig)
  let neg := ns.1
  let s := ns.2
  -- special case: if all that is left is "0", this is zero
  if s = [48] then .ok 0
  else if s = [] then .error (errInvalid orig)
  else
    match parseLoop s.length orig 0 s with
    | .error e => .error e
    | .ok d =>
      if neg then .ok (toInt64 (-(toInt64 d)))
      else if 2 ^ 63 - 1 < d then .error (errInvalid orig)
      else .ok (toInt64 d)

/-! ## Package `unicode/utf8` -/

/-- The value `utf8.RuneError` (U+FFFD). -/
def RuneError : Nat := 65533

/-- The tables `first` and `acceptRanges`: for a leading byte, `none` when the byte
is ASCII or invalid, otherwise the size of the sequence and the accepted range of the
second byte. -/
def first (s0 : Nat) : Option (Nat × Nat × Nat) :=
  if s0 < 194 then none
  else if s0 ≤ 223 then some (2, 128, 191)
  else if s0 = 224 then some (3, 160, 191)
  else if s0 ≤ 236 then some (3, 128, 191)
  else if s0 = 237 then some (3, 128, 159)
  else if s0 ≤ 239 then some (3, 128, 191)
  else if s0 = 240 then some (4, 144, 191)
  else if s0 ≤ 243 then some (4, 128, 191)
  else if s0 = 244 then some (4, 128, 143)
  else none

/-- Function `utf8.DecodeRune`: the first rune of `p` and its width in bytes; `(RuneError, 1)`
for an invalid encoding and `(RuneError, 0)` for the empty input. -/
def DecodeRune (p : Bytes) : Nat × Nat :=
  match p with
  | [] => (RuneError, 0)
  | s0 :: rest =>
    match first s0 with
    | none => if s0 < 128 then (s0, 1) else (RuneError, 1)
    | some (sz, lo, hi) =>
      if p.length < sz then (RuneError, 1)
      else
        match rest with
        | [] => (RuneError, 1)
        | s1 :: rest1 =>
          if s1 < lo ∨ hi < s1 then (RuneError, 1)
          else if sz ≤ 2 then ((s0 % 32) * 64 + s1 % 64, 2)
          else
            match rest1 with
            | [] => (RuneError, 1)
            | s2 :: rest2 =>
              if s2 < 128 ∨ 191 < s2 then (RuneError, 1)
              else if sz ≤ 3 then ((s0 % 16) * 4096 + (s1 % 64) * 64 + s2 % 64, 3)
              else
                match rest2 with
                | [] => (RuneError, 1)
                | s3 :: _ =>
                  if s3 < 128 ∨ 191 < s3 then (RuneError, 1)
                  else ((s0 % 8) * 262144 + (s1 % 64) * 4096 + (s2 % 64) * 64 + s3 % 64, 4)

/-- Function `utf8.EncodeRune`: the UTF-8 encoding of the rune `r` (a negative or out of range
rune and a surrogate are encoded as `RuneError`). -/
def EncodeRune (r : Int) : Bytes :=
  let i := (r % 2 ^ 32).toNat
  if i ≤ 127 then [i]
  else if i ≤ 2047 then [192 + i / 64, 128 + i % 64]
  else
    let i := if 1114111 < i ∨ (55296 ≤ i ∧ i ≤ 57343) then RuneError else i
    if i ≤ 65535 then [224 + i / 4096, 128 + (i / 64) % 64, 128 + i % 64]
    else [240 + i / 262144, 128 + (i / 4096) % 64, 128 + (i / 64) % 64, 128 + i % 64]

/-! ## Package `encoding/json`: encoding a string -/

/-- One digit of `hex = "0123456789abcdef"`. -/
def hex (n : Nat) : Nat := if n < 10 then 48 + n else 87 + n

/-- The table `htmlSafeSet`: the ASCII bytes that are written without escaping (all
of `0x20 .. 0x7f` except the double quote, `&`, `<`, `>` and the backslash). -/
def htmlSafeSet (b : Nat) : Bool :=
  decide (32 ≤ b ∧ b < 128 ∧ b ≠ 34 ∧ b ≠ 38 ∧ b ≠ 60 ∧ b ≠ 62 ∧ b ≠ 92)

/-- The loop of `appendString` (with `escapeHTML` set, as `json.Marshal` does) over
the rest of the source; the first argument bounds the iterations.  The short escapes
of the backspace and the form feed are those of Go 1.22 and later. -/
def appendStringLoop : Nat → Bytes → Bytes
  | _, [] => []
  | 0, _ :: _ => []
  | fuel + 1, b :: rest =>
    if b < 128 then
      if htmlSafeSet b then b :: appendStringLoop fuel rest
      else
        let esc : Bytes :=
          if b = 92 ∨ b = 34 then [92, b]
          else if b = 8 then [92, 98]
          else if b = 12 then [92, 102]
          else if b = 10 then [92, 110]
          else if b = 13 then [92, 114]
          else if b = 9 then [92, 116]
          else [92, 117, 48, 48, hex (b / 16), hex (b % 16)]
        esc ++ appendStringLoop fuel rest
    else
      let src := b :: rest
      let r := DecodeRune (src.take 4)
      if r.1 = RuneError ∧ r.2 = 1 then
        ascii "\\ufffd" ++ appendStringLoop fuel rest
      else if r.1 = 8232 ∨ r.1 = 8233 then
        ascii "\\u202" ++ [hex (r.1 % 16)] ++ appendStringLoop fuel (src.drop r.2)
      else src.take r.2 ++ appendStringLoop fuel (src.drop r.2)

/-- Function `appendString`: the JSON string literal of `src`. -/
def appendString (src : Bytes) : Bytes := 34 :: (appendStringLoop src.length src ++ [34])

/-- Function `json.Marshal` of a Go string; it cannot fail. -/
def jsonMarshalString (src : Bytes) : Bytes := appendString src

/-! ## Package `encoding/json`: the scanner -/

/-- A `*json.SyntaxError`.  Its message is `"invalid character " + quoteChar(c) + " " +
context` when `char = some c`, and `context` alone otherwise; `Offset` is the number
of bytes read before the error. -/
structure SyntaxError where
  char : Option Nat
  context : Bytes
  Offset : Nat
  deriving DecidableEq, Repr

/-- The values of the field `step` of the scanner. -/
inductive Step where
  | stateBeginValueOrEmpty | stateBeginValue | stateBeginStringOrEmpty | stateBeginString
  | stateEndValue | stateEndTop
  | stateInString | stateInStringEsc
  | stateInStringEscU | stateInStringEscU1 | stateInStringEscU12 | stateInStringEscU123
  | stateNeg | state1 | state0 | stateDot | stateDot0 | stateE | stateESign | stateE0
  | stateT | stateTr | stateTru | stateF | stateFa | stateFal | stateFals
  | stateN | stateNu | stateNul
  | stateError
  deriving DecidableEq, Repr

/-- The result codes of a scanner step. -/
inductive Op where
  | scanContinue | scanBeginLiteral | scanBeginObject | scanObjectKey | scanObjectValue
  | scanEndObject | scanBeginArray | scanArrayValue | scanEndArray | scanSkipSpace
  | scanEnd | scanError
  deriving DecidableEq, Repr

/-- The entries of the stack `parseState`. -/
inductive ParseState where
  | parseObjectKey | parseObjectValue | parseArrayValue
  deriving DecidableEq, Repr

/-- The JSON scanner; `parseState` has its top at the head. -/
structure Scanner where
  step : Step
  endTop : Bool
  parseState : List ParseState
  err : Option SyntaxError
  bytes : Nat
  deriving DecidableEq, Repr

def maxNestingDepth : Nat := 10000

open Op ParseState

namespace Scanner

/-- The scanner after `reset` (with the byte counter at zero). -/
def reset : Scanner := ⟨Step.stateBeginValue, false, [], none, 0⟩

/-- The method `error`: records the error and moves to `stateError`. -/
def error (s : Scanner) (c : Nat) (context : Bytes) : Scanner × Op :=
  ({ s with step := Step.stateError, err := some ⟨some c, context, s.bytes⟩ }, Op.scanError)

/-- Moves to the state `st` and returns `op`. -/
def goto (s : Scanner) (st : Step) (op : Op) : Scanner × Op := ({ s with step := st }, op)

/-- The method `pushParseState`, after `step` has been set to `st`. -/
def pushParseState (s : Scanner) (c : Nat) (st : Step) (newParseState : ParseState)
    (successState : Op) : Scanner × Op :=
  let s1 := { s with step := st, parseState := newParseState :: s.parseState }
  if s1.parseState.length ≤ maxNestingDepth then (s1, successState)
  else error s1 c (ascii "exceeded max depth")

/-- The method `popParseState`. -/
def popParseState (s : Scanner) : Scanner :=
  let ps := s.parseState.tail
  if ps.length = 0 then { s with parseState := ps, step := Step.stateEndTop, endTop := true }
  else { s with parseState := ps, step := Step.stateEndValue }

end Scanner

def isSpace (c : Nat) : Bool := decide (c ≤ 32 ∧ (c = 32 ∨ c = 9 ∨ c = 13 ∨ c = 10))

def isDigit (c : Nat) : Bool := decide (48 ≤ c ∧ c ≤ 57)

def isHexDigit (c : Nat) : Bool :=
  decide ((48 ≤ c ∧ c ≤ 57) ∨ (97 ≤ c ∧ c ≤ 102) ∨ (65 ≤ c ∧ c ≤ 70))

/-- Function `stateEndTop`: a non-space byte after the top-level value records an error, yet
the step still returns `scanEnd`. -/
def stateEndTop (s : Scanner) (c : Nat) : Scanner × Op :=
  if !isSpace c then ((s.error c (ascii "after top-level value")).1, scanEnd)
  else (s, scanEnd)

/-- Function `stateEndValue`: the state after completing a value. -/
def stateEndValue (s : Scanner) (c : Nat) : Scanner × Op :=
  match s.parseState with
  | [] => stateEndTop { s with step := Step.stateEndTop, endTop := true } c
  | ps :: rest =>
    if isSpace c then s.goto Step.stateEndValue scanSkipSpace
    else
      match ps with
      | parseObjectKey =>
        if c = 58 then
          ({ s with parseState := parseObjectValue :: rest, step := Step.stateBeginValue },
            scanObjectKey)
        else s.error c (ascii "after object key")
      | parseObjectValue =>
        if c = 44 then
          ({ s with parseState := parseObjectKey :: rest, step := Step.stateBeginString },
            scanObjectValue)
        else if c = 125 then (s.popParseState, scanEndObject)
        else s.error c (ascii "after object key:value pair")
      | parseArrayValue =>
        if c = 44 then s.goto Step.stateBeginValue scanArrayValue
        else if c = 93 then (s.popParseState, scanEndArray)
        else s.error c (ascii "after array element")

/-- Function `stateBeginValue`: the state at the beginning of the input. -/
def stateBeginValue (s : Scanner) (c : Nat) : Scanner × Op :=
  if isSpace c then (s, scanSkipSpace)
  else if c = 123 then s.pushParseState c Step.stateBeginStringOrEmpty parseObjectKey scanBeginObject
  else if c = 91 then s.pushParseState c Step.stateBeginValueOrEmpty parseArrayValue scanBeginArray
  else if c = 34 then s.goto Step.stateInString scanBeginLiteral
  else if c = 45 then s.goto Step.stateNeg scanBeginLiteral
  else if c = 48 then s.goto Step.state0 scanBeginLiteral
  else if c = 116 then s.goto Step.stateT scanBeginLiteral
  else if c = 102 then s.goto Step.stateF scanBeginLiteral
  else if c = 110 then s.goto Step.stateN scanBeginLiteral
  else if 49 ≤ c ∧ c ≤ 57 then s.goto Step.state1 scanBeginLiteral
  else s.error c (ascii "looking for beginning of value")

/-- Function `stateBeginString`: the state after reading `{"key": value,`. -/
def stateBeginString (s : Scanner) (c : Nat) : Scanner × Op :=
  if isSpace c then (s, scanSkipSpace)
  else if c = 34 then s.goto Step.stateInString scanBeginLiteral
  else s.error c (ascii "looking for beginning of object key string")

/-- Function `state0`: the state after reading `0` during a number. -/
def state0 (s : Scanner) (c : Nat) : Scanner × Op :=
  if c = 46 then s.goto Step.stateDot scanContinue
  else if c = 101 ∨ c = 69 then s.goto Step.stateE scanContinue
  else stateEndValue s c

/-- Function `stateESign`: the state after reading the mantissa, `e` and a sign. -/
def stateESign (s : Scanner) (c : Nat) : Scanner × Op :=
  if isDigit c then s.goto Step.stateE0 scanContinue
  else s.error c (ascii "in exponent of numeric literal")

/-- A state inside a literal `true`, `false` or `null`: the byte `want` leads to
`next`, any other byte is an error with the message `context`. -/
def stateLit (s : Scanner) (c want : Nat) (next : Step) (context : String) : Scanner × Op :=
  if c = want then s.goto next Op.scanContinue else s.error c (ascii context)

/-- A state inside a literal `true`, `false` or `null` before its last byte `want`,
which completes the value. -/
def stateLitEnd (s : Scanner) (c want : Nat) (context : String) : Scanner × Op :=
  if c = want then s.goto Step.stateEndValue Op.scanContinue else s.error c (ascii context)

/-- A state inside a `\u` escape: a hexadecimal digit leads to `next`. -/
def stateHex (s : Scanner) (c : Nat) (next : Step) : Scanner × Op :=
  if isHexDigit c then s.goto next Op.scanContinue
  else s.error c (ascii "in \\u hexadecimal character escape")

/-- The call `s.step(s, c)`: the state function that the field `step` holds, applied
to the byte `c`. -/
def Scanner.doStep (s : Scanner) (c : Nat) : Scanner × Op :=
  match s.step with
  | Step.stateBeginValueOrEmpty =>
    if isSpace c then (s, scanSkipSpace)
    else if c = 93 then stateEndValue s c
    else stateBeginValue s c
  | Step.stateBeginValue => stateBeginValue s c
  | Step.stateBeginStringOrEmpty =>
    if isSpace c then (s, scanSkipSpace)
    else if c = 125 then
      stateEndValue { s with parseState := parseObjectValue :: s.parseState.tail } c
    else stateBeginString s c
  | Step.stateBeginString => stateBeginString s c
  | Step.stateEndValue => stateEndValue s c
  | Step.stateEndTop => stateEndTop s c
  | Step.stateInString =>
    if c = 34 then s.goto Step.stateEndValue scanContinue
    else if c = 92 then s.goto Step.stateInStringEsc scanContinue
    else if c < 32 then s.error c (ascii "in string literal")
    else (s, scanContinue)
  | Step.stateInStringEsc =>
    if c = 98 ∨ c = 102 ∨ c = 110 ∨ c = 114 ∨ c = 116 ∨ c = 92 ∨ c = 47 ∨ c = 34 then
      s.goto Step.stateInString scanContinue
    else if c = 117 then s.goto Step.stateInStringEscU scanContinue
    else s.error c (ascii "in string escape code")
  | Step.stateInStringEscU => stateHex s c Step.stateInStringEscU1
  | Step.stateInStringEscU1 => stateHex s c Step.stateInStringEscU12
  | Step.stateInStringEscU12 => stateHex s c Step.stateInStringEscU123
  | Step.stateInStringEscU123 => stateHex s c Step.stateInString
  | Step.stateNeg =>
    if c = 48 then s.goto Step.state0 scanContinue
    else if 49 ≤ c ∧ c ≤ 57 then s.goto Step.state1 scanContinue
    else s.error c (ascii "in numeric literal")
  | Step.state1 =>
    if isDigit c then s.goto Step.state1 scanContinue else state0 s c
  | Step.state0 => state0 s c
  | Step.stateDot =>
    if isDigit c then s.goto Step.stateDot0 scanContinue
    else s.error c (ascii "after decimal point in numeric literal")
  | Step.stateDot0 =>
    if isDigit c then (s, scanContinue)
    else if c = 101 ∨ c = 69 then s.goto Step.stateE scanContinue
    else stateEndValue s c
  | Step.stateE =>
    if c = 43 ∨ c = 45 then s.goto Step.stateESign scanContinue else stateESign s c
  | Step.stateESign => stateESign s c
  | Step.stateE0 => if isDigit c then (s, scanContinue) else stateEndValue s c
  | Step.stateT => stateLit s c 114 Step.stateTr "in literal true (expecting \x27r\x27)"
  | Step.stateTr => stateLit s c 117 Step.stateTru "in literal true (expecting \x27u\x27)"
  | Step.stateTru => stateLitEnd s c 101 "in literal true (expecting \x27e\x27)"
  | Step.stateF => stateLit s c 97 Step.stateFa "in literal false (expecting \x27a\x27)"
  | Step.stateFa => stateLit s c 108 Step.stateFal "in literal false (expecting \x27l\x27)"
  | Step.stateFal => stateLit s c 115 Step.stateFals "in literal false (expecting \x27s\x27)"
  | Step.stateFals => stateLitEnd s c 101 "in literal false (expecting \x27e\x27)"
  | Step.stateN => stateLit s c 117 Step.stateNu "in literal null (expecting \x27u\x27)"
  | Step.stateNu => stateLit s c 108 Step.stateNul "in literal null (expecting \x27l\x27)"
  | Step.stateNul => stateLitEnd s c 108 "in literal null (expecting \x27l\x27)"
  | Step.stateError => (s, scanError)

/-- The method `eof`: tells the scanner that the end of input has been reached. -/
def Scanner.eof (s : Scanner) : Scanner × Op :=
  if s.err.isSome then (s, scanError)
  else if s.endTop then (s, scanEnd)
  else
    let s1 := (s.doStep 32).1
    if s1.endTop then (s1, scanEnd)
    else if s1.err.isNone then
      ({ s1 with err := some ⟨none, ascii "unexpected end of JSON input", s1.bytes⟩ }, scanError)
    else (s1, scanError)

/-- The loop of `checkValid` over the bytes of the input. -/
def checkValidLoop : Scanner → Bytes → Except SyntaxError Unit
  | s, [] =>
    let r := s.eof
    if r.2 = Op.scanError then .error (r.1.err.getD ⟨none, [], 0⟩) else .ok ()
  | s, c :: rest =>
    let r := Scanner.doStep { s with bytes := s.bytes + 1 } c
    if r.2 = Op.scanError then .error (r.1.err.getD ⟨none, [], 0⟩) else checkValidLoop r.1 rest

/-- Function `checkValid` verifies that `data` is valid JSON-encoded data. -/
def checkValid (data : Bytes) : Except SyntaxError Unit := checkValidLoop Scanner.reset data

/-! ## Package `encoding/json`: decoding into a Go string -/

/-- A value of one `\u` hexadecimal digit, `none` when `c` is not one. -/
def hexVal (c : Nat) : Option Nat :=
  if 48 ≤ c ∧ c ≤ 57 then some (c - 48)
  else if 97 ≤ c ∧ c ≤ 102 then some (c - 97 + 10)
  else if 65 ≤ c ∧ c ≤ 70 then some (c - 65 + 10)
  else none

/-- Function `getu4` decodes `\uXXXX` from the beginning of `s`, returning the hex value, or
`-1` when `s` does not begin with such an escape. -/
def getu4 (s : Bytes) : Int :=
  match s with
  | 92 :: 117 :: a :: b :: c :: d :: _ =>
    match hexVal a, hexVal b, hexVal c, hexVal d with
    | some x, some y, some z, some w => (((x * 16 + y) * 16 + z) * 16 + w : Nat)
    | _, _, _, _ => -1
  | _ => -1

/-- Function `utf16.IsSurrogate`. -/
def IsSurrogate (r : Int) : Bool := decide (55296 ≤ r ∧ r < 57344)

/-- Function `utf16.DecodeRune`: the rune of a surrogate pair, U+FFFD when the pair is not
valid. -/
def utf16DecodeRune (r1 r2 : Int) : Int :=
  if 55296 ≤ r1 ∧ r1 < 56320 ∧ 56320 ≤ r2 ∧ r2 < 57344 then
    (r1 - 55296) * 1024 + (r2 - 56320) + 65536
  else 65533

/-- The first loop of `unquoteBytes`: the number `r` of leading bytes that need no
unquoting (it stops at a backslash, a quote, a control character or an invalid UTF-8
byte); the first argument bounds the iterations. -/
def unquoteScan : Nat → Bytes → Nat
  | _, [] => 0
  | 0, _ :: _ => 0
  | fuel + 1, c :: rest =>
    if c = 92 ∨ c = 34 ∨ c < 32 then 0
    else if c < 128 then 1 + unquoteScan fuel rest
    else
      let r := DecodeRune (c :: rest)
      if r.1 = RuneError ∧ r.2 = 1 then 0
      else r.2 + unquoteScan fuel ((c :: rest).drop r.2)

/-- The second loop of `unquoteBytes`, over the rest of the literal: the bytes it
writes, or `none` when the literal is malformed; the first argument bounds the
iterations. -/
def unquoteLoop : Nat → Bytes → Option Bytes
  | _, [] => some []
  | 0, _ :: _ => none
  | fuel + 1, c :: rest =>
    if c = 92 then
      match rest with
      | [] => none
      | e :: rest1 =>
        if e = 34 ∨ e = 92 ∨ e = 47 ∨ e = 39 then (unquoteLoop fuel rest1).map (e :: ·)
        else if e = 98 then (unquoteLoop fuel rest1).map (8 :: ·)
        else if e = 102 then (unquoteLoop fuel rest1).map (12 :: ·)
        else if e = 110 then (unquoteLoop fuel rest1).map (10 :: ·)
        else if e = 114 then (unquoteLoop fuel rest1).map (13 :: ·)
        else if e = 116 then (unquoteLoop fuel rest1).map (9 :: ·)
        else if e = 117 then
          let rr := getu4 (c :: rest)
          if rr < 0 then none
          else
            let after := (c :: rest).drop 6
            if IsSurrogate rr then
              let dec := utf16DecodeRune rr (getu4 after)
              if dec ≠ 65533 then
                -- a valid pair; consume
                (unquoteLoop fuel (after.drop 6)).map (EncodeRune dec ++ ·)
              else
                -- invalid surrogate; fall back to the replacement rune
                (unquoteLoop fuel after).map (EncodeRune 65533 ++ ·)
            else (unquoteLoop fuel after).map (EncodeRune rr ++ ·)
        else none
    else if c = 34 ∨ c < 32 then none
    else if c < 128 then (unquoteLoop fuel rest).map (c :: ·)
    else
      let r := DecodeRune (c :: rest)
      (unquoteLoop fuel ((c :: rest).drop r.2)).map (EncodeRune r.1 ++ ·)

/-- Function `unquoteBytes`: the text of the quoted JSON string literal `s`, `none` when `s`
is not one. -/
def unquoteBytes (s : Bytes) : Option Bytes :=
  if s.length < 2 ∨ s.head? ≠ some 34 ∨ s.getLast? ≠ some 34 then none
  else
    let t := (s.drop 1).take (s.length - 2)
    let r := unquoteScan t.length t
    if r = t.length then some t
    else (unquoteLoop t.length (t.drop r)).map (t.take r ++ ·)

/-- The loop of `rescanLiteral` for a string literal, started after the opening
quote: the number of bytes up to and including the closing quote. -/
def stringLitLen : Bytes → Nat
  | [] => 0
  | 92 :: [] => 1
  | 92 :: _ :: rest => 2 + stringLitLen rest
  | c :: rest => if c = 34 then 1 else 1 + stringLitLen rest

/-- The errors that `json.Unmarshal` returns for a `*string` target: a
`*json.SyntaxError`, a `*json.UnmarshalTypeError` with its field `Value` (the fields
`Type` - here always `string` - and `Offset` are left out), or the error of the
decoder finding what the scanner had accepted to be malformed (a panic in Go). -/
inductive JsonError where
  | syntaxError (e : SyntaxError)
  | unmarshalTypeError (Value : Bytes)
  | phase
  deriving DecidableEq, Repr

/-- The call `json.Unmarshal(data, &s)` for a `string` variable holding `s0`: the error, or
the value of the variable after the call.  The data is first checked by the scanner;
then the kind of the value is read off its first byte after the white space, just as
the scanner's result code for that byte (`scanBeginArray`, `scanBeginObject`,
`scanBeginLiteral`) and the first byte of the literal select the case in
`decodeState.value` and `literalStore`. -/
def jsonUnmarshalString (data : Bytes) (s0 : Bytes) : Except JsonError Bytes :=
  match checkValid data with
  | .error e => .error (JsonError.syntaxError e)
  | .ok _ =>
    match data.dropWhile isSpace with
    | [] => .error JsonError.phase
    | c :: rest =>
      if c = 91 then .error (JsonError.unmarshalTypeError (ascii "array"))
      else if c = 123 then .error (JsonError.unmarshalTypeError (ascii "object"))
      else if c = 110 then .ok s0 -- null: the variable is left as it is
      else if c = 116 ∨ c = 102 then .error (JsonError.unmarshalTypeError (ascii "bool"))
      else if c = 34 then
        match unquoteBytes (c :: rest.take (stringLitLen rest)) with
        | none => .error JsonError.phase
        | some t => .ok t
      else .error (JsonError.unmarshalTypeError (ascii "number"))

/-! ## Package `sduration` -/

/-- The type `SDuration`: a `time.Duration`, an `int64` count of nanoseconds. -/
abbrev SDuration := Int

/-- The Go error values the package returns. -/
inductive Error where
  /-- An error of `time.ParseDuration`, returned as it is. -/
  | time (e : TimeError)
  /-- An error of `json.Unmarshal`, returned as it is. -/
  | json (e : JsonError)
  /-- The result of `fmt.Errorf` with a `%w` verb: the message and the wrapped
  error. -/
  | wrapError (msg : Bytes) (err : TimeError)
  /-- The result of `fmt.Errorf` without a `%w` verb: the message. -/
  | errorString (msg : Bytes)
  deriving DecidableEq, Repr

/-- The method `Error()` of an error of package `time` or `fmt`. -/
def Error.msg? : Error → Option Bytes
  | .time e => some e.msg
  | .json _ => none
  | .wrapError msg _ => some msg
  | .errorString msg => some msg

/-- The method `Unwrap()`: the wrapped error. -/
def Error.Unwrap : Error → Option Error
  | .wrapError _ err => some (.time err)
  | _ => none

/-- A value of type `interface{}`, as `Scan` receives it and `Value` returns it: nil,
a `string`, a `[]byte`, an `int64`, a `float64`, or a value of any other dynamic type,
given by the name of its type as the verb `%T` prints it. -/
inductive GoValue where
  | nil
  | string (v : Bytes)
  | bytes (v : Bytes)
  | int64 (v : Int)
  | float64 (v : F64)
  | other (typeName : Bytes)
  deriving DecidableEq, Repr

/-- The method `Duration` (sduration.go): the `time.Duration` value. -/
def Duration (d : SDuration) : Int := d

/-- The method `UnmarshalText` (text.go); the receiver before the call is `d`, the
result is the error and the receiver after the call. -/
def UnmarshalText (d : SDuration) (text : Bytes) : Option Error × SDuration :=
  match ParseDuration text with
  | .error err => (some (Error.time err), d)
  | .ok duration => (none, duration)

/-- The method `MarshalText` (text.go). -/
def MarshalText (d : SDuration) : Bytes × Option Error :=
  (Duration.String (Duration d), none)

/-- The method `MarshalJSON` (json.go). -/
def MarshalJSON (d : SDuration) : Bytes × Option Error :=
  (jsonMarshalString (Duration.String (Duration d)), none)

/-- The method `UnmarshalJSON` (json.go); the receiver before the call is `d`. -/
def UnmarshalJSON (d : SDuration) (bytes : Bytes) : Option Error × SDuration :=
  match jsonUnmarshalString bytes [] with
  | .error err => (some (Error.json err), d)
  | .ok s =>
    match ParseDuration s with
    | .error err => (some (Error.time err), d)
    | .ok duration => (none, duration)

/-- The method `Value` (sql.go). -/
def Value (d : SDuration) : GoValue × Option Error :=
  (GoValue.string (Duration.String (Duration d)), none)

/-- The method `Scan` (sql.go); the receiver before the call is `d`. -/
def Scan (d : SDuration) (src : GoValue) : Option Error × SDuration :=
  match src with
  | .nil => (none, 0)
  | .string v =>
    match ParseDuration v with
    | .error err =>
      (some (Error.wrapError
        (ascii "failed to parse duration from string \x27" ++ v ++ ascii "\x27: " ++ err.msg)
        err), d)
    | .ok duration => (none, duration)
  | .bytes v =>
    match ParseDuration v with
    | .error err =>
      (some (Error.wrapError
        (ascii "failed to parse duration from bytes \x27" ++ v ++ ascii "\x27: " ++ err.msg)
        err), d)
    | .ok duration => (none, duration)
  | .int64 v => (none, v)
  | .float64 v => (none, F64.toInt64 v)
  | .other typeName =>
    (some (Error.errorString
      (ascii "cannot scan type " ++ typeName ++ ascii " into SDuration")), d)

/-! ## Auxiliary predicates used in the proofs -/

/-- The text starts with a decimal digit. -/
def DigitHead (l : Bytes) : Prop := ∃ c t, l = c :: t ∧ 48 ≤ c ∧ c ≤ 57

/-- The text does not start with a decimal digit. -/
def NoDigitHead (l : Bytes) : Prop := ∀ c t, l = c :: t → c < 48 ∨ 57 < c

/-- The step "consume `(\\.[0-9]*)?`" of the loop of `ParseDuration`, on the text `s1`
that follows the integer: the fraction, its scale, the rest of the text and the flag
`post`. -/
def fracPart (s1 : Bytes) : Nat × F64 × Bytes × Bool :=
  match s1 with
  | 46 :: s2 =>
    let r := leadingFraction s2
    (r.1, r.2.1, r.2.2, decide (s2.length ≠ r.2.2.length))
  | _ => (0, F64.ofNat 1, s1, false)

/-- The steps of the loop of `ParseDuration` that follow the number (the integer `v`,
the flag `pre` and the result `fr` of `fracPart`), with the next iteration of the loop
as the parameter `next`. -/
def afterNumber (next : Nat → Bytes → Except TimeError Nat) (orig : Bytes) (d : Nat)
    (pre : Bool) (v : Nat) (fr : Nat × F64 × Bytes × Bool) : Except TimeError Nat :=
  let f := fr.1
  let scale := fr.2.1
  let s3 := fr.2.2.1
  let post := fr.2.2.2
  if !pre && !post then .error (errInvalid orig)
  else
    let i := unitLen s3
    if i = 0 then .error (errMissingUnit orig)
    else
      let u := s3.take i
      let s4 := s3.drop i
      match unitMap u with
      | none => .error (errUnknownUnit u orig)
      | some unit =>
        if 2 ^ 63 / unit < v then .error (errInvalid orig)
        else
          let v1 := (v * unit) % 2 ^ 64
          let v2 :=
            if 0 < f then
              (v1 + F64.toUint64 (F64.mul (F64.ofNat f) (F64.div (F64.ofNat unit) scale)))
                % 2 ^ 64
            else v1
          if 0 < f ∧ 2 ^ 63 < v2 then .error (errInvalid orig)
          else
            let d1 := (d + v2) % 2 ^ 64
            if 2 ^ 63 < d1 then .error (errInvalid orig)
            else next d1 s4

/-- The text that `Duration.format` writes for a magnitude `u > 0`, before the
sign. -/
def magnitude (u : Nat) : Bytes :=
  if u < Second then
    let buf : Bytes := [115]
    let pb : Nat × Bytes :=
      if u < Microsecond then (0, 110 :: buf)
      else if u < Millisecond then (3, 194 :: 181 :: buf)
      else (6, 109 :: buf)
    let r := fmtFrac pb.2 u pb.1
    fmtInt r.1 r.2
  else
    let buf : Bytes := [115]
    let r := fmtFrac buf u 9
    let buf := fmtInt r.1 (r.2 % 60)
    let u := r.2 / 60
    if 0 < u then
      let buf := fmtInt (109 :: buf) (u % 60)
      let u := u / 60
      if 0 < u then fmtInt (104 :: buf) u else buf
    else buf

/-- A text that needs no escaping in a JSON string literal: ASCII bytes of
`htmlSafeSet` and the two bytes of the micro sign U+00B5. -/
inductive Plain : Bytes → Prop where
  | nil : Plain []
  | ascii (c : Nat) (t : Bytes) (h : htmlSafeSet c = true) (ht : Plain t) : Plain (c :: t)
  | micro (t : Bytes) (ht : Plain t) : Plain (194 :: 181 :: t)

/-- A byte that the scanner accepts inside a string literal, and that is not its
end. -/
def StrByte (c : Nat) : Prop := 32 ≤ c ∧ c ≠ 34 ∧ c ≠ 92

/-- A JSON text whose value is a string literal: valid JSON, with a double quote as
the first byte after the leading white space. -/
def IsJSONStringLiteral (data : Bytes) : Prop :=
  checkValid data = .ok () ∧ (data.dropWhile isSpace).head? = some 34

instance (data : Bytes) : Decidable (IsJSONStringLiteral data) := by
  unfold IsJSONStringLiteral; infer_instance

/-- The decimal numeral of `n`, the `{n}` of a text written as `{h}h{m}m{s}s`. -/
def decimal (n : Nat) : Bytes := (Nat.toDigits 10 n).map Char.toNat

/-- The exact value of a `float64` that is finite (zero for the others). -/
def F64.toRat : F64 → ℚ
  | .fin neg m e => (if neg then -1 else 1) * ((m : ℚ) * (2 : ℚ) ^ e)
  | _ => 0

/-- Truncation of a rational number toward zero: the fraction is discarded. -/
def truncate (q : ℚ) : Int := if 0 ≤ q then ⌊q⌋ else ⌈q⌉

/-- The loop of `toValidUTF8`; the first argument bounds the iterations. -/
def toValidLoop : Nat → Bytes → Bytes
  | _, [] => []
  | 0, _ :: _ => []
  | fuel + 1, c :: rest =>
    if c < 128 then c :: toValidLoop fuel rest
    else
      let r := DecodeRune (c :: rest)
      if r.1 = RuneError ∧ r.2 = 1 then [239, 191, 189] ++ toValidLoop fuel rest
      else (c :: rest).take r.2 ++ toValidLoop fuel ((c :: rest).drop r.2)

/-- The text `s` with every byte that is not part of a valid UTF-8 sequence replaced
by the three bytes of U+FFFD. -/
def toValidUTF8 (s : Bytes) : Bytes := toValidLoop s.length s

/-- The loop of `validUTF8`; the first argument bounds the iterations. -/
def validLoop : Nat → Bytes → Bool
  | _, [] => true
  | 0, _ :: _ => false
  | fuel + 1, c :: rest =>
    if c < 128 then validLoop fuel rest
    else
      let r := DecodeRune (c :: rest)
      if r.1 = RuneError ∧ r.2 = 1 then false
      else validLoop fuel ((c :: rest).drop r.2)

/-- The text `s` is valid UTF-8: it is a sequence of runes that `DecodeRune` accepts. -/
def validUTF8 (s : Bytes) : Bool := validLoop s.length s

/-- The value of four hexadecimal digits, `none` when one of the bytes is not a
hexadecimal digit. -/
def hex4 (a b c d : Nat) : Option Nat :=
  match hexVal a, hexVal b, hexVal c, hexVal d with
  | some x, some y, some z, some w => some (((x * 16 + y) * 16 + z) * 16 + w)
  | _, _, _, _ => none

/-- A body of a JSON string literal (the bytes between the double quotes) and the text
it stands for: plain bytes, the two-byte escapes, the `\\u` escapes of a rune outside
the surrogates, of a surrogate pair and of a surrogate without its pair (which stands
for U+FFFD), valid UTF-8 sequences of two to four bytes, and bytes that start no valid
UTF-8 sequence, which stand for U+FFFD. -/
inductive Encodes : Bytes → Bytes → Prop where
  | nil : Encodes [] []
  | plain (c : Nat) (b t : Bytes) (h : 32 ≤ c ∧ c < 128 ∧ c ≠ 34 ∧ c ≠ 92)
      (hb : Encodes b t) : Encodes (c :: b) (c :: t)
  | esc (e v : Nat) (b t : Bytes)
      (h : (e = 34 ∧ v = 34) ∨ (e = 92 ∧ v = 92) ∨ (e = 47 ∧ v = 47) ∨ (e = 98 ∧ v = 8) ∨
        (e = 102 ∧ v = 12) ∨ (e = 110 ∧ v = 10) ∨ (e = 114 ∧ v = 13) ∨ (e = 116 ∧ v = 9))
      (hb : Encodes b t) : Encodes (92 :: e :: b) (v :: t)
  | escU (x1 x2 x3 x4 v : Nat) (b t : Bytes) (h : hex4 x1 x2 x3 x4 = some v)
      (hs : ¬ (55296 ≤ v ∧ v < 57344)) (hb : Encodes b t) :
      Encodes (92 :: 117 :: x1 :: x2 :: x3 :: x4 :: b) (EncodeRune (v : Int) ++ t)
  | escPair (x1 x2 x3 x4 y1 y2 y3 y4 v w : Nat) (b t : Bytes)
      (hv : hex4 x1 x2 x3 x4 = some v) (hw : hex4 y1 y2 y3 y4 = some w)
      (hhi : 55296 ≤ v ∧ v < 56320) (hlo : 56320 ≤ w ∧ w < 57344) (hb : Encodes b t) :
      Encodes (92 :: 117 :: x1 :: x2 :: x3 :: x4 :: 92 :: 117 :: y1 :: y2 :: y3 :: y4 :: b)
        (EncodeRune (((v - 55296) * 1024 + (w - 56320) + 65536 : Nat) : Int) ++ t)
  | escLone (x1 x2 x3 x4 v : Nat) (b t : Bytes) (h : hex4 x1 x2 x3 x4 = some v)
      (hs : 55296 ≤ v ∧ v < 57344)
      (hnp : v < 56320 → ∀ y1 y2 y3 y4 w rest, b = 92 :: 117 :: y1 :: y2 :: y3 :: y4 :: rest →
        hex4 y1 y2 y3 y4 = some w → ¬ (56320 ≤ w ∧ w < 57344))
      (hb : Encodes b t) :
      Encodes (92 :: 117 :: x1 :: x2 :: x3 :: x4 :: b) ([239, 191, 189] ++ t)
  | rune (p : Bytes) (r : Nat) (b t : Bytes) (hlen : 2 ≤ p.length)
      (hp : ∀ x ∈ p, 128 ≤ x) (hd : ∀ tail, DecodeRune (p ++ tail) = (r, p.length))
      (he : EncodeRune (r : Int) = p) (hb : Encodes b t) : Encodes (p ++ b) (p ++ t)
  | bad (c : Nat) (b t : Bytes) (hc : 128 ≤ c) (hd : DecodeRune (c :: b) = (RuneError, 1))
      (hb : Encodes b t) : Encodes (c :: b) ([239, 191, 189] ++ t)

/-- A text of ASCII bytes and of the two-byte sequences of U+00B5 and U+03BC, the only
bytes of the units that `unitMap` knows. -/
inductive UnitText : Bytes → Prop where
  | nil : UnitText []
  | ascii (c : Nat) (t : Bytes) (h : c < 128) (ht : UnitText t) : UnitText (c :: t)
  | micro (t : Bytes) (ht : UnitText t) : UnitText (194 :: 181 :: t)
  | mu (t : Bytes) (ht : UnitText t) : UnitText (206 :: 188 :: t)

/-- The outcome of `DecodeRune` at a byte that is not ASCII: no valid sequence starts
there, or a sequence `p` of two to four bytes, none of them ASCII, is the encoding of
a rune `r`. -/
def RuneAt (s : Bytes) : Prop :=
  DecodeRune s = (RuneError, 1) ∨
  ∃ p tail r, s = p ++ tail ∧ 2 ≤ p.length ∧ p.length ≤ 4 ∧ (∀ x ∈ p, 128 ≤ x) ∧
    (∀ tail1, DecodeRune (p ++ tail1) = (r, p.length)) ∧ EncodeRune (r : Int) = p

/-! ## Lemmas on float64 rounding -/

namespace F64

theorem ilog2Loop_spec (fuel : Nat) : ∀ n, n ≤ fuel → 1 ≤ n →
    2 ^ ilog2Loop fuel n ≤ n ∧ n < 2 ^ (ilog2Loop fuel n + 1) := by
  induction fuel with
  | zero => intro n h1 h2; omega
  | succ fuel ih =>
    intro n h1 h2
    unfold ilog2Loop
    by_cases h : 2 ≤ n
    · rw [if_pos h]
      have := ih (n / 2) (by omega) (by omega)
      obtain ⟨a, b⟩ := this
      rw [pow_succ] at b
      constructor
      · rw [pow_succ]; omega
      · rw [pow_succ, pow_succ]; omega
    · rw [if_neg h]
      have : n = 1 := by omega
      subst this
      simp

theorem ilog2_spec (n : Nat) (h : 1 ≤ n) : 2 ^ ilog2 n ≤ n ∧ n < 2 ^ (ilog2 n + 1) :=
  ilog2Loop_spec n n (le_refl n) h

/-- The unit in the last place of an integer below `2^53` is at most one. -/
theorem ulpExp_nonpos (n den : Nat) (hden : 0 < den) (hn1 : 1 ≤ n) (hn : n < 2 ^ 53) :
    ulpExp (n * den) den ≤ 0 := by
  have hnum : 1 ≤ n * den := Nat.mul_pos hn1 hden
  obtain ⟨a1, a2⟩ := ilog2_spec (n * den) hnum
  obtain ⟨b1, b2⟩ := ilog2_spec den hden
  -- the logarithm of the numerator exceeds that of the denominator by at most 53
  have hle : ilog2 (n * den) ≤ ilog2 den + 53 := by
    by_contra hc
    have h1 : 2 ^ (ilog2 den + 54) ≤ 2 ^ ilog2 (n * den) :=
      Nat.pow_le_pow_right (by norm_num) (by omega)
    have h2 : n * den < 2 ^ 53 * 2 ^ (ilog2 den + 1) :=
      Nat.mul_lt_mul'' hn b2
    have h3 : 2 ^ 53 * 2 ^ (ilog2 den + 1) = 2 ^ (ilog2 den + 54) := by
      rw [← pow_add]; congr 1; omega
    omega
  unfold ulpExp
  simp only []
  generalize hl : (ilog2 (n * den) : Int) - (ilog2 den : Int) = l
  have hl53 : l ≤ 53 := by omega
  by_cases hl52 : l ≤ 52
  · have : (if (if 0 ≤ l then decide (den * 2 ^ l.toNat ≤ n * den)
        else decide (den ≤ n * den * 2 ^ (-l).toNat)) = true then l else l - 1) ≤ 52 := by
      split <;> omega
    omega
  · have h53 : l = 53 := by omega
    subst h53
    have hnot : ¬ (den * 2 ^ 53 ≤ n * den) := by
      intro hc
      have : den * 2 ^ 53 ≤ den * n := by rw [Nat.mul_comm den n]; exact hc
      have := Nat.le_of_mul_le_mul_left this hden
      omega
    have h0 : (0:Int) ≤ 53 := by norm_num
    have ht : (53 : Int).toNat = 53 := rfl
    rw [if_pos h0, ht, decide_eq_false hnot]
    simp

theorem numDen_snd_pos (m : Nat) (e : Int) : 0 < (numDen m e).2 := by
  unfold numDen; positivity

/-- Rounding a quotient that is an integer below `2^53` is exact. -/
theorem round_exact (n den : Nat) (hden : 0 < den) (hn : n < 2 ^ 53) :
    Represents (round false (n * den) den) n := by
  unfold round
  by_cases h0 : n * den = 0
  · rw [if_pos h0]
    have : n = 0 := by
      rcases Nat.mul_eq_zero.mp h0 with h | h
      · exact h
      · omega
    subst this
    exact ⟨0, 0, rfl, by simp [numDen], numDen_snd_pos _ _⟩
  · rw [if_neg h0]
    have hn1 : 1 ≤ n := by
      rcases Nat.eq_zero_or_pos n with h | h
      · subst h; simp at h0
      · exact h
    have hue := ulpExp_nonpos n den hden hn1 hn
    generalize ulpExp (n * den) den = ue at hue
    have hue0 : ue.toNat = 0 := by omega
    unfold roundAt
    simp only [hue0, pow_zero, Nat.mul_one]
    have hdiv : n * den * 2 ^ (-ue).toNat / den = n * 2 ^ (-ue).toNat := by
      rw [Nat.mul_right_comm, Nat.mul_div_cancel _ hden]
    have hmod : n * den * 2 ^ (-ue).toNat % den = 0 := by
      rw [Nat.mul_right_comm]; exact Nat.mul_mod_left _ _
    rw [hdiv, hmod]
    have hlt : 2 * 0 < den := by omega
    rw [if_pos hlt]
    have hno : ¬ (971 < ue ∨ (ue = 971 ∧ 2 ^ 53 ≤ n * 2 ^ (-ue).toNat)) := by omega
    rw [if_neg hno]
    refine ⟨n * 2 ^ (-ue).toNat, ue, rfl, ?_, numDen_snd_pos _ _⟩
    simp [numDen, hue0]

theorem represents_ofNat (n : Nat) (hn : n < 2 ^ 53) : Represents (ofNat n) n := by
  have := round_exact n 1 (by norm_num) hn
  simpa [ofNat] using this

theorem represents_mul (a b : F64) (n m : Nat) (ha : Represents a n) (hb : Represents b m)
    (h : n * m < 2 ^ 53) : Represents (mul a b) (n * m) := by
  obtain ⟨m1, e1, rfl, h1, p1⟩ := ha
  obtain ⟨m2, e2, rfl, h2, p2⟩ := hb
  simp only [mul, Bool.xor_false]
  rw [h1, h2]
  have : n * (numDen m1 e1).2 * (m * (numDen m2 e2).2)
      = (n * m) * ((numDen m1 e1).2 * (numDen m2 e2).2) := by ring
  rw [this]
  exact round_exact _ _ (Nat.mul_pos p1 p2) h

theorem represents_div (a b : F64) (n m : Nat) (ha : Represents a n) (hb : Represents b m)
    (hm : 0 < m) (hdvd : m ∣ n) (h : n / m < 2 ^ 53) : Represents (div a b) (n / m) := by
  obtain ⟨m1, e1, rfl, h1, p1⟩ := ha
  obtain ⟨m2, e2, rfl, h2, p2⟩ := hb
  have hm2 : m2 ≠ 0 := by
    intro hz
    subst hz
    simp only [numDen, Nat.zero_mul] at h2
    have : 0 < m * 2 ^ (-e2).toNat := Nat.mul_pos hm (by positivity)
    omega
  simp only [div, Bool.xor_false, if_neg hm2]
  rw [h1, h2]
  obtain ⟨q, rfl⟩ := hdvd
  rw [Nat.mul_div_cancel_left _ hm]
  have : m * q * (numDen m1 e1).2 * (numDen m2 e2).2
      = q * ((numDen m1 e1).2 * (m * (numDen m2 e2).2)) := by ring
  rw [this]
  rw [Nat.mul_div_cancel_left _ hm] at h
  exact round_exact _ _ (Nat.mul_pos p1 (Nat.mul_pos hm p2)) h

theorem toUint64_represents (a : F64) (n : Nat) (ha : Represents a n) (hn : n < 2 ^ 64) :
    toUint64 a = n := by
  obtain ⟨m1, e1, rfl, h1, p1⟩ := ha
  simp only [toUint64, Bool.false_eq_true, if_false]
  rw [h1, Nat.mul_div_cancel _ p1, if_pos hn]

end F64

/-! ## Lemmas on `fmtInt` and `leadingInt` -/

theorem fmtIntLoop_zero (fuel : Nat) (buf : Bytes) : fmtIntLoop fuel 0 buf = buf := by
  cases fuel <;> simp [fmtIntLoop]

theorem digitHead_fmtIntLoop (fuel : Nat) : ∀ v buf, DigitHead buf →
    DigitHead (fmtIntLoop fuel v buf) := by
  induction fuel with
  | zero => intro v buf h; simpa [fmtIntLoop] using h
  | succ fuel ih =>
    intro v buf h
    unfold fmtIntLoop
    split
    · exact ih _ _ ⟨v % 10 + 48, buf, rfl, by omega, by omega⟩
    · exact h

theorem digitHead_fmtInt (buf : Bytes) (v : Nat) : DigitHead (fmtInt buf v) := by
  unfold fmtInt
  split
  · exact ⟨48, buf, rfl, by omega, by omega⟩
  · rename_i h
    obtain ⟨n, rfl⟩ : ∃ n, v = n + 1 := ⟨v - 1, by omega⟩
    unfold fmtIntLoop
    rw [if_pos (by omega)]
    exact digitHead_fmtIntLoop _ _ _ ⟨(n + 1) % 10 + 48, buf, rfl, by omega, by omega⟩

theorem length_fmtIntLoop (fuel : Nat) : ∀ v buf,
    buf.length ≤ (fmtIntLoop fuel v buf).length := by
  induction fuel with
  | zero => intro v buf; simp [fmtIntLoop]
  | succ fuel ih =>
    intro v buf
    unfold fmtIntLoop
    split
    · have := ih (v / 10) ((v % 10 + 48) :: buf)
      simp only [List.length_cons] at this
      omega
    · exact le_refl _

theorem length_fmtInt (buf : Bytes) (v : Nat) : buf.length + 1 ≤ (fmtInt buf v).length := by
  unfold fmtInt
  split
  · simp
  · rename_i h
    obtain ⟨n, rfl⟩ : ∃ n, v = n + 1 := ⟨v - 1, by omega⟩
    unfold fmtIntLoop
    rw [if_pos (by omega)]
    have := length_fmtIntLoop n ((n + 1) / 10) (((n + 1) % 10 + 48) :: buf)
    simp only [List.length_cons] at this
    exact this

theorem leadingIntLoop_step (x d : Nat) (buf : Bytes) (hd : d < 10) (hx : x * 10 + d ≤ 2 ^ 63) :
    leadingIntLoop x ((d + 48) :: buf) = leadingIntLoop (x * 10 + d) buf := by
  conv_lhs => rw [leadingIntLoop]
  have h1 : ¬ (d + 48 < 48 ∨ 57 < d + 48) := by omega
  have h2 : ¬ (2 ^ 63 / 10 < x) := by omega
  have h3 : (x * 10 + (d + 48) - 48) % 2 ^ 64 = x * 10 + d := by omega
  rw [if_neg h1, if_neg h2]
  simp only [h3]
  rw [if_neg (by omega)]

theorem leadingIntLoop_fmtIntLoop (fuel : Nat) : ∀ v buf, v ≤ fuel → 0 < v → v ≤ 2 ^ 63 →
    leadingIntLoop 0 (fmtIntLoop fuel v buf) = leadingIntLoop v buf := by
  induction fuel with
  | zero => intro v buf h1 h2; omega
  | succ fuel ih =>
    intro v buf h1 h2 h3
    unfold fmtIntLoop
    rw [if_pos h2]
    by_cases hz : v / 10 = 0
    · rw [hz, fmtIntLoop_zero, leadingIntLoop_step 0 (v % 10) buf (by omega) (by omega)]
      congr 1
      omega
    · rw [ih (v / 10) _ (by omega) (by omega) (by omega),
        leadingIntLoop_step (v / 10) (v % 10) buf (by omega) (by omega)]
      congr 1
      omega

theorem leadingIntLoop_stop (x : Nat) (buf : Bytes) (h : NoDigitHead buf) :
    leadingIntLoop x buf = some (x, buf) := by
  cases buf with
  | nil => rfl
  | cons c t =>
    unfold leadingIntLoop
    rw [if_pos (h c t rfl)]

/-- Reading back the integer that `fmtInt` wrote. -/
theorem leadingInt_fmtInt (buf : Bytes) (a : Nat) (ha : a ≤ 2 ^ 63) (h : NoDigitHead buf) :
    leadingInt (fmtInt buf a) = some (a, buf) := by
  unfold leadingInt fmtInt
  split
  · rename_i h0
    subst h0
    rw [show (48 : Nat) = 0 + 48 from rfl, leadingIntLoop_step 0 0 buf (by omega) (by omega)]
    exact leadingIntLoop_stop _ _ h
  · rw [leadingIntLoop_fmtIntLoop a a buf (le_refl a) (by omega) ha]
    exact leadingIntLoop_stop _ _ h

/-! ## Lemmas on `fmtFrac` and `leadingFraction` -/

theorem leadingFractionLoop_step (x d : Nat) (sc : F64) (buf : Bytes) (hd : d < 10)
    (hx : x * 10 + d < 10 ^ 18) :
    leadingFractionLoop x sc false ((d + 48) :: buf)
      = leadingFractionLoop (x * 10 + d) (F64.mul sc (F64.ofNat 10)) false buf := by
  conv_lhs => rw [leadingFractionLoop]
  have h1 : ¬ (d + 48 < 48 ∨ 57 < d + 48) := by omega
  have h2 : ¬ ((2 ^ 63 - 1) / 10 < x) := by omega
  have h3 : (x * 10 + (d + 48) - 48) % 2 ^ 64 = x * 10 + d := by omega
  rw [if_neg h1, if_neg h2]
  simp only [h3, Bool.false_eq_true, if_false]
  rw [if_neg (by omega)]

theorem leadingFractionLoop_stop (x : Nat) (sc : F64) (ov : Bool) (buf : Bytes)
    (h : NoDigitHead buf) : leadingFractionLoop x sc ov buf = (x, sc, buf) := by
  cases buf with
  | nil => rfl
  | cons c t =>
    unfold leadingFractionLoop
    rw [if_pos (h c t rfl)]

theorem pow10_le (k n : Nat) (h : k ≤ n) (hn : n ≤ 9) : 10 ^ k ≤ 1000000000 := by
  calc 10 ^ k ≤ 10 ^ 9 := Nat.pow_le_pow_right (by norm_num) (by omega)
    _ = 1000000000 := by norm_num

/-- Reading back the fraction digits that `fmtFracLoop` wrote: `k` digits with the
value `f`, which leave the scale at `10^k`. -/
theorem leadingFractionLoop_fmtFracLoop (n : Nat) : ∀ (pr : Bool) (v : Nat) (buf : Bytes),
    n ≤ 9 → ∃ k f sc, k ≤ n ∧ f < 10 ^ k ∧ F64.Represents sc (10 ^ k) ∧
      leadingFractionLoop 0 (F64.ofNat 1) false (fmtFracLoop n pr v buf).1
        = leadingFractionLoop f sc false buf ∧
      (fmtFracLoop n pr v buf).2.1 = v / 10 ^ n ∧
      f * 10 ^ (n - k) = v % 10 ^ n ∧
      (fmtFracLoop n pr v buf).2.2 = (pr || decide (0 < k)) ∧
      (pr = true → k = n) ∧
      (fmtFracLoop n pr v buf).1.length = buf.length + k ∧
      ((fmtFracLoop n pr v buf).2.2 = false → (fmtFracLoop n pr v buf).1 = buf) := by
  induction n with
  | zero =>
    intro pr v buf _
    refine ⟨0, 0, F64.ofNat 1, le_refl _, by norm_num, ?_, rfl, by simp [fmtFracLoop],
      by simp [Nat.mod_one], by simp [fmtFracLoop], by simp, by simp [fmtFracLoop],
      by simp [fmtFracLoop]⟩
    simpa using F64.represents_ofNat 1 (by norm_num)
  | succ n ih =>
    intro pr v buf hn
    unfold fmtFracLoop
    simp only []
    by_cases hpr : (pr || decide (v % 10 ≠ 0)) = true
    · obtain ⟨k, f, sc, hk, hf, hsc, hparse, hv, hval, hflag, hkn, hlen, hbuf⟩ :=
        ih (pr || decide (v % 10 ≠ 0)) (v / 10)
          (if (pr || decide (v % 10 ≠ 0)) = true then (v % 10 + 48) :: buf else buf) (by omega)
      rw [if_pos hpr] at hparse hv hflag hlen hbuf
      rw [if_pos hpr]
      have hkn' := hkn hpr
      subst hkn'
      have hp10 := pow10_le k (k + 1) (by omega) hn
      have hp10' : 10 ^ (k + 1) ≤ 1000000000 := pow10_le (k + 1) (k + 1) (le_refl _) hn
      rw [pow_succ] at hp10'
      refine ⟨k + 1, f * 10 + v % 10, F64.mul sc (F64.ofNat 10), le_refl _, ?_, ?_, ?_, ?_, ?_,
        ?_, ?_, ?_, ?_⟩
      · rw [pow_succ]; omega
      · rw [pow_succ]
        exact F64.represents_mul _ _ _ _ hsc (F64.represents_ofNat 10 (by norm_num))
          (by omega)
      · rw [hparse, leadingFractionLoop_step f (v % 10) sc buf (by omega) (by omega)]
      · rw [hv, Nat.div_div_eq_div_mul, pow_succ, Nat.mul_comm]
      · rw [Nat.sub_self, pow_zero, Nat.mul_one] at hval ⊢
        rw [pow_succ, Nat.mul_comm (10 ^ k) 10, Nat.mod_mul, ← hval]
        omega
      · rw [hflag, hpr]; simp
      · intro _; rfl
      · rw [hlen]; simp; omega
      · intro h; rw [hflag, hpr] at h; simp at h
    · have hpr' : (pr || decide (v % 10 ≠ 0)) = false := by simpa using hpr
      obtain ⟨k, f, sc, hk, hf, hsc, hparse, hv, hval, hflag, hkn, hlen, hbuf⟩ :=
        ih (pr || decide (v % 10 ≠ 0)) (v / 10)
          (if (pr || decide (v % 10 ≠ 0)) = true then (v % 10 + 48) :: buf else buf) (by omega)
      rw [if_neg hpr] at hparse hv hflag hlen hbuf
      rw [if_neg hpr]
      have hprf : pr = false := by
        cases pr
        · rfl
        · simp at hpr'
      have hd0 : v % 10 = 0 := by
        subst hprf
        simpa using hpr'
      refine ⟨k, f, sc, by omega, hf, hsc, hparse, ?_, ?_, ?_, ?_, hlen, hbuf⟩
      · rw [hv, Nat.div_div_eq_div_mul, pow_succ, Nat.mul_comm]
      · have : n + 1 - k = (n - k) + 1 := by omega
        rw [this, pow_succ, ← Nat.mul_assoc, hval, pow_succ, Nat.mul_comm (10 ^ n) 10,
          Nat.mod_mul, hd0]
        ring
      · rw [hflag, hpr', hprf]
      · intro h; rw [hprf] at h; simp at h

/-! ## Lemmas on the loop of `ParseDuration` -/

theorem unitLen_append (unitB rest : Bytes) (h : unitLen unitB = unitB.length)
    (hrest : rest = [] ∨ DigitHead rest) : unitLen (unitB ++ rest) = unitB.length := by
  induction unitB with
  | nil =>
    rcases hrest with h | ⟨c, t, rfl, h1, h2⟩
    · subst h; rfl
    · simp only [List.nil_append, unitLen, List.length_nil]
      rw [if_pos (Or.inr ⟨h1, h2⟩)]
  | cons c t ih =>
    simp only [List.cons_append, unitLen, List.length_cons] at h ⊢
    split
    · rename_i hc
      rw [if_pos hc] at h
      omega
    · rename_i hc
      rw [if_neg hc] at h
      have := ih (by omega)
      simp only [List.append_eq] at this ⊢
      omega

theorem unitLen_head (c : Nat) (t : Bytes) (h : unitLen (c :: t) = (c :: t).length) :
    c ≠ 46 ∧ (c < 48 ∨ 57 < c) := by
  simp only [unitLen, List.length_cons] at h
  split at h
  · omega
  · omega

/-- One iteration of the loop of `ParseDuration`, in terms of `fracPart` and
`afterNumber`. -/
theorem parseLoop_succ (fuel : Nat) (orig : Bytes) (d c : Nat) (t : Bytes) :
    parseLoop (fuel + 1) orig d (c :: t) =
      if ¬ (c = 46 ∨ (48 ≤ c ∧ c ≤ 57)) then .error (errInvalid orig)
      else
        match leadingInt (c :: t) with
        | none => .error (errInvalid orig)
        | some (v, s1) =>
          afterNumber (parseLoop fuel orig) orig d (decide ((c :: t).length ≠ s1.length)) v
            (fracPart s1) := by
  rw [parseLoop]
  split
  · rfl
  · cases h : leadingInt (c :: t) with
    | none => rfl
    | some p =>
      obtain ⟨v, s1⟩ := p
      simp only [afterNumber, fracPart]

theorem fracPart_of_unit (u0 : Nat) (ut : Bytes) (h : u0 ≠ 46) :
    fracPart (u0 :: ut) = (0, F64.ofNat 1, u0 :: ut, false) := by
  unfold fracPart
  split
  · rename_i s2 heq
    simp only [List.cons.injEq] at heq
    exact absurd heq.1.symm (by omega)
  · rfl

/-- The steps after the number when the text goes on with the unit `unitB`, which
`unitMap` knows: the loop goes on after the unit with the sum increased by `add`, the
value of the component. -/
theorem afterNumber_ok (next : Nat → Bytes → Except TimeError Nat) (orig : Bytes)
    (d v f unit add : Nat) (sc : F64) (unitB rest : Bytes) (post : Bool)
    (hmap : unitMap unitB = some unit) (hU : unitLen unitB = unitB.length)
    (hU0 : unitB ≠ []) (hrest : rest = [] ∨ DigitHead rest) (hunit : 0 < unit)
    (hadd : add = v * unit +
      (if 0 < f then F64.toUint64 (F64.mul (F64.ofNat f) (F64.div (F64.ofNat unit) sc)) else 0))
    (hbound : d + add ≤ 2 ^ 63) :
    afterNumber next orig d true v (f, sc, unitB ++ rest, post) = next (d + add) rest := by
  have hlen := unitLen_append unitB rest hU hrest
  have hpos : 0 < unitB.length := List.length_pos.mpr hU0
  unfold afterNumber
  simp only [Bool.not_true, Bool.false_and, Bool.false_eq_true, if_false, hlen]
  rw [if_neg (by omega), List.take_left' rfl, List.drop_left' rfl]
  simp only [hmap]
  have hvu : v * unit ≤ 2 ^ 63 := by
    have : v * unit ≤ add := by rw [hadd]; exact Nat.le_add_right _ _
    omega
  have hv : ¬ (2 ^ 63 / unit < v) := by
    intro hc
    have h1 : 2 ^ 63 / unit + 1 ≤ v := hc
    have h2 : (2 ^ 63 / unit + 1) * unit ≤ v * unit := Nat.mul_le_mul_right unit h1
    have h3 : 2 ^ 63 < (2 ^ 63 / unit + 1) * unit := by
      have := Nat.lt_div_mul_add hunit (a := 2 ^ 63)
      rw [Nat.add_mul, Nat.one_mul]
      exact this
    omega
  rw [if_neg hv]
  have hv1 : v * unit % 2 ^ 64 = v * unit := Nat.mod_eq_of_lt (by omega)
  by_cases hf : 0 < f
  · rw [if_pos hf] at hadd
    simp only [if_pos hf, hv1]
    rw [← hadd]
    have h1 : add % 2 ^ 64 = add := Nat.mod_eq_of_lt (by omega)
    rw [h1, if_neg (by omega)]
    have h2 : (d + add) % 2 ^ 64 = d + add := Nat.mod_eq_of_lt (by omega)
    rw [h2, if_neg (by omega)]
  · rw [if_neg hf] at hadd
    simp only [if_neg hf, hv1]
    have h2 : (d + v * unit) % 2 ^ 64 = d + v * unit := Nat.mod_eq_of_lt (by omega)
    rw [if_neg (by omega), h2, if_neg (by omega), hadd]
    rfl

/-- One component without a fraction. -/
theorem parseLoop_mid (fuel : Nat) (orig : Bytes) (d a unit : Nat) (unitB rest : Bytes)
    (hmap : unitMap unitB = some unit) (hU : unitLen unitB = unitB.length)
    (hU0 : unitB ≠ []) (hrest : rest = [] ∨ DigitHead rest) (hunit : 0 < unit)
    (hbound : d + a * unit ≤ 2 ^ 63) :
    parseLoop (fuel + 1) orig d (fmtInt (unitB ++ rest) a)
      = parseLoop fuel orig (d + a * unit) rest := by
  obtain ⟨u0, ut, rfl⟩ : ∃ u0 ut, unitB = u0 :: ut := by
    cases unitB with
    | nil => exact absurd rfl hU0
    | cons u0 ut => exact ⟨u0, ut, rfl⟩
  obtain ⟨hu46, hudig⟩ := unitLen_head u0 ut hU
  have hno : NoDigitHead ((u0 :: ut) ++ rest) := by
    intro c t h
    simp only [List.cons_append, List.cons.injEq] at h
    rw [← h.1]; exact hudig
  have ha : a ≤ 2 ^ 63 := by
    have : a * 1 ≤ a * unit := Nat.mul_le_mul_left a hunit
    omega
  have hint := leadingInt_fmtInt _ a ha hno
  have hlen := length_fmtInt ((u0 :: ut) ++ rest) a
  obtain ⟨c, t, hs, hc1, hc2⟩ := digitHead_fmtInt ((u0 :: ut) ++ rest) a
  rw [hs] at hint hlen ⊢
  rw [parseLoop_succ, if_neg (by omega)]
  simp only [hint]
  have hpre : decide ((c :: t).length ≠ ((u0 :: ut) ++ rest).length) = true := by
    apply decide_eq_true; omega
  rw [hpre]
  have hfp : fracPart ((u0 :: ut) ++ rest) = (0, F64.ofNat 1, (u0 :: ut) ++ rest, false) :=
    fracPart_of_unit u0 (ut ++ rest) hu46
  rw [hfp]
  exact afterNumber_ok _ orig d a 0 unit (a * unit) _ (u0 :: ut) rest false hmap hU hU0 hrest
    hunit (by simp) hbound

theorem parseLoop_nil (fuel : Nat) (orig : Bytes) (d : Nat) :
    parseLoop fuel orig d [] = .ok d := by
  cases fuel <;> rfl

/-- The float64 computation of `ParseDuration` for a fraction of `k` digits with the
value `f` and a unit `10^prec`, `k ≤ prec ≤ 9`, is exact. -/
theorem fraction_value (f k prec : Nat) (sc : F64) (hk : k ≤ prec) (hprec : prec ≤ 9)
    (hf : f < 10 ^ k) (hsc : F64.Represents sc (10 ^ k)) :
    F64.toUint64 (F64.mul (F64.ofNat f) (F64.div (F64.ofNat (10 ^ prec)) sc))
      = f * 10 ^ (prec - k) := by
  have hp : 10 ^ prec ≤ 1000000000 := pow10_le prec prec (le_refl _) hprec
  have hk10 : 10 ^ k ≤ 1000000000 := pow10_le k prec hk hprec
  have hkpos : 0 < 10 ^ k := by positivity
  have hdiv : 10 ^ prec / 10 ^ k = 10 ^ (prec - k) := Nat.pow_div hk (by norm_num)
  have hd10 : 10 ^ (prec - k) ≤ 1000000000 := pow10_le (prec - k) prec (by omega) hprec
  have h1 : F64.Represents (F64.ofNat (10 ^ prec)) (10 ^ prec) :=
    F64.represents_ofNat _ (by omega)
  have h2 : F64.Represents (F64.div (F64.ofNat (10 ^ prec)) sc) (10 ^ prec / 10 ^ k) :=
    F64.represents_div _ _ _ _ h1 hsc hkpos (pow_dvd_pow 10 hk) (by rw [hdiv]; omega)
  rw [hdiv] at h2
  have h3 : F64.Represents (F64.ofNat f) f := F64.represents_ofNat _ (by omega)
  have hprod : f * 10 ^ (prec - k) < 10 ^ prec := by
    calc f * 10 ^ (prec - k) < 10 ^ k * 10 ^ (prec - k) :=
          Nat.mul_lt_mul_of_pos_right hf (by positivity)
      _ = 10 ^ prec := by rw [← pow_add]; congr 1; omega
  have h4 := F64.represents_mul _ _ _ _ h3 h2 (by omega)
  exact F64.toUint64_represents _ _ h4 (by omega)

/-- The last component of a text: an integer, the fraction that `fmtFrac` wrote and
the unit. -/
theorem parseLoop_last (fuel : Nat) (orig : Bytes) (d a w prec : Nat) (unitB : Bytes)
    (hprec : prec ≤ 9) (hmap : unitMap unitB = some (10 ^ prec))
    (hU : unitLen unitB = unitB.length) (hU0 : unitB ≠ [])
    (hbound : d + a * 10 ^ prec + w % 10 ^ prec ≤ 2 ^ 63) :
    parseLoop (fuel + 1) orig d (fmtInt (fmtFrac unitB w prec).1 a)
      = .ok (d + a * 10 ^ prec + w % 10 ^ prec) := by
  obtain ⟨k, f, sc, hk, hf, hsc, hparse, -, hval, hflag, -, hlen, hbuf⟩ :=
    leadingFractionLoop_fmtFracLoop prec false w unitB hprec
  have hunit : 0 < 10 ^ prec := by positivity
  obtain ⟨u0, ut, hu⟩ : ∃ u0 ut, unitB = u0 :: ut := by
    cases unitB with
    | nil => exact absurd rfl hU0
    | cons u0 ut => exact ⟨u0, ut, rfl⟩
  have hhead := unitLen_head u0 ut (hu ▸ hU)
  have hnoU : NoDigitHead unitB := by
    intro c t h
    rw [hu] at h
    simp only [List.cons.injEq] at h
    rw [← h.1]; exact hhead.2
  unfold fmtFrac
  simp only []
  cases hfl : (fmtFracLoop prec false w unitB).2.2 with
  | false =>
    have hb := hbuf hfl
    simp only [Bool.false_eq_true, if_false, hb]
    have hk0 : k = 0 := by
      rw [hfl] at hflag
      by_contra hc
      have : 0 < k := by omega
      simp [this] at hflag
    subst hk0
    have hf0 : f = 0 := by simpa using hf
    subst hf0
    have hw : w % 10 ^ prec = 0 := by rw [← hval]; simp
    have := parseLoop_mid fuel orig d a (10 ^ prec) unitB [] hmap hU hU0 (Or.inl rfl) hunit
      (by omega)
    rw [List.append_nil] at this
    rw [this, parseLoop_nil, hw]
    rfl
  | true =>
    simp only [if_true]
    have hno : NoDigitHead (46 :: (fmtFracLoop prec false w unitB).1) := by
      intro c t h
      simp only [List.cons.injEq] at h
      omega
    have hprod : f * 10 ^ (prec - k) < 10 ^ prec := by
      calc f * 10 ^ (prec - k) < 10 ^ k * 10 ^ (prec - k) :=
            Nat.mul_lt_mul_of_pos_right hf (by positivity)
        _ = 10 ^ prec := by rw [← pow_add]; congr 1; omega
    have ha : a ≤ 2 ^ 63 := by
      have : a * 1 ≤ a * 10 ^ prec := Nat.mul_le_mul_left a hunit
      omega
    have hint := leadingInt_fmtInt _ a ha hno
    have hlen2 := length_fmtInt (46 :: (fmtFracLoop prec false w unitB).1) a
    obtain ⟨c, t, hs, hc1, hc2⟩ := digitHead_fmtInt (46 :: (fmtFracLoop prec false w unitB).1) a
    rw [hs] at hint hlen2 ⊢
    rw [parseLoop_succ, if_neg (by omega)]
    simp only [hint]
    have hpre : decide ((c :: t).length ≠ (46 :: (fmtFracLoop prec false w unitB).1).length)
        = true := by
      apply decide_eq_true; omega
    rw [hpre]
    have hlf : leadingFraction (fmtFracLoop prec false w unitB).1 = (f, sc, unitB) := by
      unfold leadingFraction
      rw [hparse]
      exact leadingFractionLoop_stop _ _ _ _ hnoU
    have hfp : fracPart (46 :: (fmtFracLoop prec false w unitB).1)
        = (f, sc, unitB ++ [], decide ((fmtFracLoop prec false w unitB).1.length ≠ unitB.length)) := by
      simp only [fracPart, hlf, List.append_nil]
    rw [hfp]
    have hfv := fraction_value f k prec sc hk hprec hf hsc
    rw [afterNumber_ok _ orig d a f (10 ^ prec) (a * 10 ^ prec + w % 10 ^ prec) sc unitB [] _
      hmap hU hU0 (Or.inl rfl) hunit ?_ (by omega)]
    · rw [parseLoop_nil, Nat.add_assoc]
    · rw [hfv, ← hval]
      by_cases hf0 : 0 < f
      · rw [if_pos hf0]
      · rw [if_neg hf0]
        have : f = 0 := by omega
        subst this
        simp

/-! ## `ParseDuration` reads back what `Duration.String` wrote -/

theorem format_eq (d : Int) (h : IsInt64 d) :
    format d = if d = 0 then [48, 115]
      else if d < 0 then 45 :: magnitude d.natAbs else magnitude d.natAbs := by
  obtain ⟨h1, h2⟩ := h
  have hu : (if decide (d < 0) = true then (2 ^ 64 - toUint64 d) % 2 ^ 64 else toUint64 d)
      = d.natAbs := by
    unfold toUint64
    by_cases hd : d < 0
    · rw [if_pos (by simpa using hd)]
      omega
    · rw [if_neg (by simpa using hd)]
      omega
  unfold format
  simp only [hu]
  by_cases hd0 : d = 0
  · subst hd0
    rw [if_pos rfl]
    decide
  · rw [if_neg hd0]
    have hne : d.natAbs ≠ 0 := by omega
    unfold magnitude
    by_cases hs : d.natAbs < Second
    · simp only [if_pos hs, if_neg hne]
      by_cases hneg : d < 0
      · simp [hneg]
      · simp [hneg]
    · simp only [if_neg hs]
      by_cases hneg : d < 0
      · simp only [hneg, decide_True, if_true]
      · simp only [hneg, decide_False, Bool.false_eq_true, if_false]

theorem fmtFrac_snd (buf : Bytes) (v prec : Nat) (h : prec ≤ 9) :
    (fmtFrac buf v prec).2 = v / 10 ^ prec := by
  obtain ⟨k, f, sc, -, -, -, -, hv, -⟩ := leadingFractionLoop_fmtFracLoop prec false v buf h
  unfold fmtFrac
  exact hv

theorem length_fmtFrac (buf : Bytes) (v prec : Nat) :
    buf.length ≤ (fmtFrac buf v prec).1.length := by
  have key : ∀ n pr v buf, buf.length ≤ (fmtFracLoop n pr v buf).1.length := by
    intro n
    induction n with
    | zero => intro pr v buf; simp [fmtFracLoop]
    | succ n ih =>
      intro pr v buf
      unfold fmtFracLoop
      simp only []
      have := ih (pr || decide (v % 10 ≠ 0)) (v / 10)
        (if (pr || decide (v % 10 ≠ 0)) = true then (v % 10 + 48) :: buf else buf)
      by_cases hc : (pr || decide (v % 10 ≠ 0)) = true
      · rw [if_pos hc] at this ⊢
        simp only [List.length_cons] at this; omega
      · rw [if_neg hc] at this ⊢
        exact this
  unfold fmtFrac
  simp only []
  have := key prec false v buf
  split
  · simp only [List.length_cons]; omega
  · exact this

/-- The text of a magnitude starts with a digit, has at least two bytes, and the loop
of `ParseDuration` reads the magnitude back. -/
theorem parseLoop_magnitude (orig : Bytes) (u : Nat) (h0 : 0 < u) (h : u ≤ 2 ^ 63) :
    DigitHead (magnitude u) ∧ 2 ≤ (magnitude u).length ∧
      parseLoop (magnitude u).length orig 0 (magnitude u) = .ok u := by
  unfold magnitude
  by_cases hs : u < Second
  · simp only [if_pos hs]
    have key : ∀ (prec : Nat) (unitB : Bytes), prec ≤ 9 → unitMap unitB = some (10 ^ prec) →
        unitLen unitB = unitB.length → unitB ≠ [] →
        DigitHead (fmtInt (fmtFrac unitB u prec).1 (fmtFrac unitB u prec).2) ∧
        2 ≤ (fmtInt (fmtFrac unitB u prec).1 (fmtFrac unitB u prec).2).length ∧
        parseLoop (fmtInt (fmtFrac unitB u prec).1 (fmtFrac unitB u prec).2).length orig 0
          (fmtInt (fmtFrac unitB u prec).1 (fmtFrac unitB u prec).2) = .ok u := by
      intro prec unitB hp hmap hU hU0
      have hl1 := length_fmtInt (fmtFrac unitB u prec).1 (fmtFrac unitB u prec).2
      have hl2 := length_fmtFrac unitB u prec
      have hl3 : 0 < unitB.length := List.length_pos.mpr hU0
      refine ⟨digitHead_fmtInt _ _, by omega, ?_⟩
      obtain ⟨n, hn⟩ : ∃ n, (fmtInt (fmtFrac unitB u prec).1 (fmtFrac unitB u prec).2).length
          = n + 1 := ⟨_, (Nat.sub_add_cancel (by omega)).symm⟩
      rw [hn, fmtFrac_snd _ _ _ hp]
      have hdm : u / 10 ^ prec * 10 ^ prec + u % 10 ^ prec = u := by
        rw [Nat.mul_comm]; exact Nat.div_add_mod u (10 ^ prec)
      rw [parseLoop_last n orig 0 (u / 10 ^ prec) u prec unitB hp hmap hU hU0 (by omega)]
      congr 1
      omega
    by_cases h1 : u < Microsecond
    · simp only [if_pos h1]
      exact key 0 [110, 115] (by omega) (by decide) (by decide) (by decide)
    · by_cases h2 : u < Millisecond
      · simp only [if_neg h1, if_pos h2]
        exact key 3 [194, 181, 115] (by omega) (by decide) (by decide) (by decide)
      · simp only [if_neg h1, if_neg h2]
        exact key 6 [109, 115] (by omega) (by decide) (by decide) (by decide)
  · simp only [if_neg hs]
    have hS : Second = 1000000000 := by decide
    rw [hS] at hs
    rw [fmtFrac_snd _ _ _ (le_refl 9)]
    have hp9 : (10 : Nat) ^ 9 = 1000000000 := by norm_num
    have hsm : unitMap [115] = some (10 ^ 9) := by decide
    have hlenS := length_fmtInt (fmtFrac [115] u 9).1 (u / 10 ^ 9 % 60)
    have hlenF := length_fmtFrac [115] u 9
    simp only [List.length_singleton] at hlenF
    have hdS := digitHead_fmtInt (fmtFrac [115] u 9).1 (u / 10 ^ 9 % 60)
    have hlast : ∀ n d, d + (u / 10 ^ 9 % 60) * 10 ^ 9 + u % 10 ^ 9 ≤ 2 ^ 63 →
        parseLoop (n + 1) orig d (fmtInt (fmtFrac [115] u 9).1 (u / 10 ^ 9 % 60))
          = .ok (d + (u / 10 ^ 9 % 60) * 10 ^ 9 + u % 10 ^ 9) :=
      fun n d hb => parseLoop_last n orig d _ u 9 [115] (le_refl 9) hsm (by decide) (by decide) hb
    by_cases hm : 0 < u / 10 ^ 9 / 60
    · simp only [if_pos hm]
      have hlenM := length_fmtInt (109 :: fmtInt (fmtFrac [115] u 9).1 (u / 10 ^ 9 % 60))
        (u / 10 ^ 9 / 60 % 60)
      simp only [List.length_cons] at hlenM
      have hdM := digitHead_fmtInt (109 :: fmtInt (fmtFrac [115] u 9).1 (u / 10 ^ 9 % 60))
        (u / 10 ^ 9 / 60 % 60)
      have hmid : ∀ n d, d + (u / 10 ^ 9 / 60 % 60) * Minute ≤ 2 ^ 63 →
          parseLoop (n + 1) orig d
            (fmtInt (109 :: fmtInt (fmtFrac [115] u 9).1 (u / 10 ^ 9 % 60)) (u / 10 ^ 9 / 60 % 60))
          = parseLoop n orig (d + (u / 10 ^ 9 / 60 % 60) * Minute)
              (fmtInt (fmtFrac [115] u 9).1 (u / 10 ^ 9 % 60)) :=
        fun n d hb => parseLoop_mid n orig d _ Minute [109] _ (by decide) (by decide)
          (by decide) (Or.inr hdS) (by decide) hb
      have hMin : Minute = 60000000000 := by decide
      have hHour : Hour = 3600000000000 := by decide
      by_cases hh : 0 < u / 10 ^ 9 / 60 / 60
      · simp only [if_pos hh]
        have hlenH := length_fmtInt
          (104 :: fmtInt (109 :: fmtInt (fmtFrac [115] u 9).1 (u / 10 ^ 9 % 60))
            (u / 10 ^ 9 / 60 % 60)) (u / 10 ^ 9 / 60 / 60)
        simp only [List.length_cons] at hlenH
        refine ⟨digitHead_fmtInt _ _, by omega, ?_⟩
        obtain ⟨n, hn⟩ : ∃ n, (fmtInt
            (104 :: fmtInt (109 :: fmtInt (fmtFrac [115] u 9).1 (u / 10 ^ 9 % 60))
              (u / 10 ^ 9 / 60 % 60)) (u / 10 ^ 9 / 60 / 60)).length = n + 3 :=
          ⟨_, (Nat.sub_add_cancel (by omega)).symm⟩
        rw [hn]
        have := parseLoop_mid (n + 2) orig 0 (u / 10 ^ 9 / 60 / 60) Hour [104]
          (fmtInt (109 :: fmtInt (fmtFrac [115] u 9).1 (u / 10 ^ 9 % 60)) (u / 10 ^ 9 / 60 % 60))
          (by decide) (by decide) (by decide) (Or.inr hdM) (by decide)
          (by rw [hHour]; rw [hp9] at *; omega)
        simp only [List.singleton_append] at this
        rw [this, hmid (n + 1) _ (by rw [hHour, hMin]; rw [hp9] at *; omega),
          hlast n _ (by rw [hHour, hMin]; rw [hp9] at *; omega)]
        congr 1
        rw [hHour, hMin]; rw [hp9] at *; omega
      · simp only [if_neg hh]
        refine ⟨hdM, by omega, ?_⟩
        obtain ⟨n, hn⟩ : ∃ n, (fmtInt (109 :: fmtInt (fmtFrac [115] u 9).1 (u / 10 ^ 9 % 60))
              (u / 10 ^ 9 / 60 % 60)).length = n + 2 :=
          ⟨_, (Nat.sub_add_cancel (by omega)).symm⟩
        rw [hn, hmid (n + 1) _ (by rw [hMin]; rw [hp9] at *; omega),
          hlast n _ (by rw [hMin]; rw [hp9] at *; omega)]
        congr 1
        rw [hMin]; rw [hp9] at *; omega
    · simp only [if_neg hm]
      refine ⟨hdS, by omega, ?_⟩
      obtain ⟨n, hn⟩ : ∃ n, (fmtInt (fmtFrac [115] u 9).1 (u / 10 ^ 9 % 60)).length = n + 1 :=
        ⟨_, (Nat.sub_add_cancel (by omega)).symm⟩
      rw [hn, hlast n _ (by rw [hp9] at *; omega)]
      congr 1
      rw [hp9] at *; omega

theorem ParseDuration_minus (s : Bytes) (d : Nat) (h1 : s ≠ [48]) (h2 : s ≠ [])
    (hp : parseLoop s.length (45 :: s) 0 s = .ok d) :
    ParseDuration (45 :: s) = .ok (toInt64 (-(toInt64 d))) := by
  unfold ParseDuration
  simp only [true_or, if_true, decide_True]
  rw [if_neg h1, if_neg h2, hp]

theorem ParseDuration_nosign (c : Nat) (t : Bytes) (d : Nat) (hc : ¬ (c = 45 ∨ c = 43))
    (h1 : c :: t ≠ [48]) (hd : d ≤ 2 ^ 63 - 1)
    (hp : parseLoop (c :: t).length (c :: t) 0 (c :: t) = .ok d) :
    ParseDuration (c :: t) = .ok (toInt64 d) := by
  unfold ParseDuration
  simp only [if_neg hc]
  rw [if_neg h1, if_neg (by simp), hp]
  simp only [Bool.false_eq_true, if_false]
  rw [if_neg (by omega)]

/-- Function `ParseDuration` reads back the text that `Duration.String` wrote, for every
`int64` value. -/
theorem ParseDuration_format (d : Int) (h : IsInt64 d) : ParseDuration (format d) = .ok d := by
  rw [format_eq d h]
  by_cases hd0 : d = 0
  · subst hd0
    rw [if_pos rfl]
    decide
  · rw [if_neg hd0]
    obtain ⟨h1, h2⟩ := h
    have hu0 : 0 < d.natAbs := by omega
    have hu : d.natAbs ≤ 2 ^ 63 := by omega
    by_cases hneg : d < 0
    · rw [if_pos hneg]
      obtain ⟨hdig, hlen, hparse⟩ := parseLoop_magnitude (45 :: magnitude d.natAbs) d.natAbs hu0 hu
      have hne1 : magnitude d.natAbs ≠ [48] := by
        intro hc; rw [hc] at hlen; simp at hlen
      have hne2 : magnitude d.natAbs ≠ [] := by
        intro hc; rw [hc] at hlen; simp at hlen
      rw [ParseDuration_minus _ _ hne1 hne2 hparse]
      have hv : toInt64 (-(toInt64 (d.natAbs : Int))) = d := by
        unfold toInt64
        omega
      rw [hv]
    · rw [if_neg hneg]
      obtain ⟨hdig, hlen, hparse⟩ := parseLoop_magnitude (magnitude d.natAbs) d.natAbs hu0 hu
      have hne1 : magnitude d.natAbs ≠ [48] := by
        intro hc; rw [hc] at hlen; simp at hlen
      obtain ⟨c, t, hct, hc1, hc2⟩ := hdig
      rw [hct] at hne1 hparse ⊢
      rw [ParseDuration_nosign c t _ (by omega) hne1 (by omega) hparse]
      have hv : toInt64 (d.natAbs : Int) = d := by
        unfold toInt64
        omega
      rw [hv]

/-! ## The text of a duration needs no escaping -/

theorem plain_digit (d : Nat) (hd : d < 10) (buf : Bytes) (h : Plain buf) :
    Plain ((d + 48) :: buf) := by
  apply Plain.ascii _ _ _ h
  unfold htmlSafeSet
  apply decide_eq_true
  omega

theorem plain_fmtIntLoop (fuel : Nat) : ∀ v buf, Plain buf → Plain (fmtIntLoop fuel v buf) := by
  induction fuel with
  | zero => intro v buf h; simpa [fmtIntLoop] using h
  | succ fuel ih =>
    intro v buf h
    unfold fmtIntLoop
    split
    · exact ih _ _ (plain_digit _ (by omega) _ h)
    · exact h

theorem plain_fmtInt (buf : Bytes) (v : Nat) (h : Plain buf) : Plain (fmtInt buf v) := by
  unfold fmtInt
  split
  · exact plain_digit 0 (by omega) _ h
  · exact plain_fmtIntLoop _ _ _ h

theorem plain_fmtFracLoop (n : Nat) : ∀ pr v buf, Plain buf →
    Plain (fmtFracLoop n pr v buf).1 := by
  induction n with
  | zero => intro pr v buf h; simpa [fmtFracLoop] using h
  | succ n ih =>
    intro pr v buf h
    unfold fmtFracLoop
    simp only []
    apply ih
    split
    · exact plain_digit _ (by omega) _ h
    · exact h

theorem plain_fmtFrac (buf : Bytes) (v prec : Nat) (h : Plain buf) :
    Plain (fmtFrac buf v prec).1 := by
  unfold fmtFrac
  simp only []
  split
  · exact Plain.ascii _ _ (by decide) (plain_fmtFracLoop _ _ _ _ h)
  · exact plain_fmtFracLoop _ _ _ _ h

theorem plain_s : Plain [115] := Plain.ascii _ _ (by decide) Plain.nil

theorem plain_magnitude (u : Nat) : Plain (magnitude u) := by
  unfold magnitude
  simp only []
  by_cases hs : u < Second
  · rw [if_pos hs]
    apply plain_fmtInt
    apply plain_fmtFrac
    split
    · exact Plain.ascii _ _ (by decide) plain_s
    · split
      · exact Plain.micro _ plain_s
      · exact Plain.ascii _ _ (by decide) plain_s
  · rw [if_neg hs]
    have hS := plain_fmtInt _ ((fmtFrac [115] u 9).2 % 60) (plain_fmtFrac [115] u 9 plain_s)
    split
    · have hM := plain_fmtInt _ ((fmtFrac [115] u 9).2 / 60 % 60)
        (Plain.ascii 109 _ (by decide) hS)
      split
      · exact plain_fmtInt _ _ (Plain.ascii 104 _ (by decide) hM)
      · exact hM
    · exact hS

/-- The text of a duration: `0s`, or the magnitude after the sign. -/
theorem format_magnitude (d : Int) :
    ∃ u, format d = if u = 0 then [48, 115]
      else if d < 0 then 45 :: magnitude u else magnitude u := by
  refine ⟨if decide (d < 0) = true then (2 ^ 64 - toUint64 d) % 2 ^ 64 else toUint64 d, ?_⟩
  unfold format magnitude
  simp only []
  generalize (if decide (d < 0) = true then (2 ^ 64 - toUint64 d) % 2 ^ 64 else toUint64 d) = u
  have hS : Second = 1000000000 := by decide
  by_cases hs : u < Second
  · simp only [if_pos hs]
    by_cases hu : u = 0
    · simp only [if_pos hu]
    · simp only [if_neg hu]
      by_cases hneg : d < 0
      · simp [hneg]
      · simp [hneg]
  · simp only [if_neg hs]
    have hu : u ≠ 0 := by omega
    simp only [if_neg hu]
    by_cases hneg : d < 0
    · simp only [hneg, decide_True, if_true]
    · simp only [hneg, decide_False, Bool.false_eq_true, if_false]

/-- The text of every duration is plain. -/
theorem plain_format (d : Int) : Plain (format d) := by
  obtain ⟨u, hu⟩ := format_magnitude d
  rw [hu]
  split
  · exact Plain.ascii _ _ (by decide) plain_s
  · split
    · exact Plain.ascii _ _ (by decide) (plain_magnitude u)
    · exact plain_magnitude u

theorem plain_strByte (t : Bytes) (h : Plain t) : ∀ c ∈ t, StrByte c := by
  induction h with
  | nil => intro c hc; simp at hc
  | ascii c t hsafe _ ih =>
    intro x hx
    rcases List.mem_cons.mp hx with rfl | hx
    · unfold htmlSafeSet at hsafe
      have := of_decide_eq_true hsafe
      unfold StrByte
      omega
    · exact ih x hx
  | micro t _ ih =>
    intro x hx
    rcases List.mem_cons.mp hx with rfl | hx
    · unfold StrByte; omega
    · rcases List.mem_cons.mp hx with rfl | hx
      · unfold StrByte; omega
      · exact ih x hx

/-! ## A plain text in a JSON string literal -/

theorem DecodeRune_micro (rest : Bytes) : DecodeRune (194 :: 181 :: rest) = (181, 2) := by
  simp [DecodeRune, first]

theorem appendStringLoop_plain (t : Bytes) (h : Plain t) :
    ∀ fuel, t.length ≤ fuel → appendStringLoop fuel t = t := by
  induction h with
  | nil => intro fuel _; cases fuel <;> rfl
  | ascii c t hsafe _ ih =>
    intro fuel hf
    obtain ⟨n, rfl⟩ : ∃ n, fuel = n + 1 := ⟨fuel - 1, by simp at hf; omega⟩
    have hc : c < 128 := by
      unfold htmlSafeSet at hsafe
      have := of_decide_eq_true hsafe
      omega
    rw [appendStringLoop, if_pos hc, if_pos hsafe, ih n (by simp at hf; omega)]
  | micro t _ ih =>
    intro fuel hf
    obtain ⟨n, rfl⟩ : ∃ n, fuel = n + 1 := ⟨fuel - 1, by simp at hf; omega⟩
    rw [appendStringLoop, if_neg (by omega)]
    have hd : DecodeRune (List.take 4 (194 :: 181 :: t)) = (181, 2) := by
      simp only [List.take_succ_cons]
      exact DecodeRune_micro _
    simp only [hd]
    rw [if_neg (by simp [RuneError]), if_neg (by omega)]
    simp only [List.take_succ_cons, List.take_zero, List.drop_succ_cons, List.drop_zero]
    rw [ih n (by simp at hf; omega)]
    rfl

/-- Function `json.Marshal` writes a plain text between two double quotes, as it is. -/
theorem jsonMarshalString_plain (t : Bytes) (h : Plain t) :
    jsonMarshalString t = 34 :: (t ++ [34]) := by
  unfold jsonMarshalString appendString
  rw [appendStringLoop_plain t h _ (le_refl _)]

theorem checkValidLoop_inString (t : Bytes) : ∀ (s : Scanner), s.step = Step.stateInString →
    s.parseState = [] → s.err = none → s.endTop = false → (∀ c ∈ t, StrByte c) →
    checkValidLoop s (t ++ [34]) = .ok () := by
  induction t with
  | nil =>
    intro s h1 h2 h3 h4 _
    simp [checkValidLoop, Scanner.doStep, Scanner.goto, Scanner.eof, stateEndValue, stateEndTop,
      isSpace, h1, h2, h3, h4]
  | cons c t ih =>
    intro s h1 h2 h3 h4 hall
    have hc : StrByte c := hall c (List.mem_cons_self _ _)
    obtain ⟨c1, c2, c3⟩ := hc
    have hstep : Scanner.doStep { s with bytes := s.bytes + 1 } c
        = ({ s with bytes := s.bytes + 1 }, Op.scanContinue) := by
      simp only [Scanner.doStep, h1]
      rw [if_neg c2, if_neg c3, if_neg (by omega)]
    simp only [List.cons_append, checkValidLoop, hstep]
    rw [if_neg (by decide)]
    exact ih _ h1 h2 h3 h4 (fun x hx => hall x (List.mem_cons_of_mem _ hx))

/-- The scanner accepts a plain text between two double quotes. -/
theorem checkValid_quoted (t : Bytes) (h : ∀ c ∈ t, StrByte c) :
    checkValid (34 :: (t ++ [34])) = .ok () := by
  unfold checkValid
  have hstep : Scanner.doStep { Scanner.reset with bytes := Scanner.reset.bytes + 1 } 34
      = ({ Scanner.reset with bytes := 1, step := Step.stateInString }, Op.scanBeginLiteral) := by
    decide
  rw [checkValidLoop]
  simp only [hstep]
  rw [if_neg (by decide)]
  exact checkValidLoop_inString t _ rfl rfl rfl rfl h

theorem stringLitLen_quoted (t : Bytes) (h : ∀ c ∈ t, StrByte c) :
    stringLitLen (t ++ [34]) = t.length + 1 := by
  induction t with
  | nil => rfl
  | cons c t ih =>
    obtain ⟨c1, c2, c3⟩ := h c (List.mem_cons_self _ _)
    have := ih (fun x hx => h x (List.mem_cons_of_mem _ hx))
    simp only [List.cons_append, List.length_cons]
    unfold stringLitLen
    split
    · rename_i heq; simp at heq
    · rename_i heq; simp only [List.cons.injEq] at heq; omega
    · rename_i heq; simp only [List.cons.injEq] at heq; omega
    · rename_i heq
      simp only [List.cons.injEq] at heq
      obtain ⟨rfl, rfl⟩ := heq
      rw [if_neg c2, this]; omega

theorem unquoteScan_plain (t : Bytes) (h : Plain t) :
    ∀ fuel, t.length ≤ fuel → unquoteScan fuel t = t.length := by
  induction h with
  | nil => intro fuel _; cases fuel <;> rfl
  | ascii c t hsafe _ ih =>
    intro fuel hf
    obtain ⟨n, rfl⟩ : ∃ n, fuel = n + 1 := ⟨fuel - 1, by simp at hf; omega⟩
    have hc : 32 ≤ c ∧ c < 128 ∧ c ≠ 34 ∧ c ≠ 92 := by
      unfold htmlSafeSet at hsafe
      have := of_decide_eq_true hsafe
      omega
    rw [unquoteScan, if_neg (by omega), if_pos (by omega), ih n (by simp at hf; omega)]
    simp only [List.length_cons]; omega
  | micro t _ ih =>
    intro fuel hf
    obtain ⟨n, rfl⟩ : ∃ n, fuel = n + 1 := ⟨fuel - 1, by simp at hf; omega⟩
    rw [unquoteScan, if_neg (by omega), if_neg (by omega)]
    simp only [DecodeRune_micro]
    rw [if_neg (by simp [RuneError])]
    simp only [List.drop_succ_cons, List.drop_zero]
    rw [ih n (by simp at hf; omega)]
    simp only [List.length_cons]; omega

theorem unquoteBytes_plain (t : Bytes) (h : Plain t) :
    unquoteBytes (34 :: (t ++ [34])) = some t := by
  unfold unquoteBytes
  have h1 : ¬ ((34 :: (t ++ [34])).length < 2 ∨ (34 :: (t ++ [34])).head? ≠ some 34
      ∨ (34 :: (t ++ [34])).getLast? ≠ some 34) := by
    simp [List.getLast?_cons_cons]
    rw [← List.cons_append, List.getLast?_append]
    simp
  rw [if_neg h1]
  have h2 : List.take ((34 :: (t ++ [34])).length - 2) (List.drop 1 (34 :: (t ++ [34]))) = t := by
    simp
  simp only [h2]
  rw [if_pos (unquoteScan_plain t h _ (le_refl _))]

/-- Function `json.Unmarshal` of a plain text between two double quotes yields the text. -/
theorem jsonUnmarshalString_plain (t s0 : Bytes) (h : Plain t) :
    jsonUnmarshalString (34 :: (t ++ [34])) s0 = .ok t := by
  have hb := plain_strByte t h
  unfold jsonUnmarshalString
  rw [checkValid_quoted t hb]
  have hdw : List.dropWhile isSpace (34 :: (t ++ [34])) = 34 :: (t ++ [34]) := by
    rw [List.dropWhile_cons_of_neg (by decide)]
  simp only [hdw]
  rw [if_neg (by decide), if_neg (by decide), if_neg (by decide), if_neg (by decide),
    if_pos trivial, stringLitLen_quoted t hb]
  have ht : List.take (t.length + 1) (t ++ [34]) = t ++ [34] := by
    apply List.take_of_length_le; simp
  rw [ht, unquoteBytes_plain t h]

/-! ## The bound on the iterations of the loop of `ParseDuration` is never reached -/

theorem leadingIntLoop_length : ∀ (s : Bytes) (x v : Nat) (s1 : Bytes),
    leadingIntLoop x s = some (v, s1) → s1.length ≤ s.length := by
  intro s
  induction s with
  | nil =>
    intro x v s1 h
    simp only [leadingIntLoop, Option.some.injEq, Prod.mk.injEq] at h
    rw [← h.2]
  | cons c t ih =>
    intro x v s1 h
    rw [leadingIntLoop] at h
    split at h
    · simp only [Option.some.injEq, Prod.mk.injEq] at h
      rw [← h.2]
    · split at h
      · exact absurd h (by simp)
      · simp only [] at h
        split at h
        · exact absurd h (by simp)
        · have := ih _ _ _ h
          simp only [List.length_cons]
          omega

theorem leadingFractionLoop_length : ∀ (s : Bytes) (x : Nat) (sc : F64) (ov : Bool),
    (leadingFractionLoop x sc ov s).2.2.length ≤ s.length := by
  intro s
  induction s with
  | nil => intro x sc ov; simp [leadingFractionLoop]
  | cons c t ih =>
    intro x sc ov
    rw [leadingFractionLoop]
    simp only [List.length_cons]
    split
    · simp
    · split
      · have := ih x sc ov; omega
      · split
        · have := ih x sc true; omega
        · split
          · have := ih x sc true; omega
          · have := ih ((x * 10 + c - 48) % 2 ^ 64) (F64.mul sc (F64.ofNat 10)) false; omega

theorem fracPart_length (s1 : Bytes) : (fracPart s1).2.2.1.length ≤ s1.length := by
  unfold fracPart
  split
  · rename_i s2
    have := leadingFractionLoop_length s2 0 (F64.ofNat 1) false
    simp only [List.length_cons]
    unfold leadingFraction
    omega
  · exact le_refl _

theorem afterNumber_congr (next1 next2 : Nat → Bytes → Except TimeError Nat) (orig : Bytes)
    (d : Nat) (pre : Bool) (v : Nat) (fr : Nat × F64 × Bytes × Bool)
    (h : ∀ d1 s4, s4.length < fr.2.2.1.length → next1 d1 s4 = next2 d1 s4) :
    afterNumber next1 orig d pre v fr = afterNumber next2 orig d pre v fr := by
  have key : ∀ l : Bytes, unitLen l ≤ l.length := by
    intro l
    induction l with
    | nil => simp [unitLen]
    | cons c t ih =>
      simp only [unitLen, List.length_cons]
      split <;> omega
  by_cases hi : unitLen fr.2.2.1 = 0
  · unfold afterNumber
    simp only [hi, if_true]
  · have hnext : ∀ d1, next1 d1 (List.drop (unitLen fr.2.2.1) fr.2.2.1)
        = next2 d1 (List.drop (unitLen fr.2.2.1) fr.2.2.1) := by
      intro d1
      apply h
      have := key fr.2.2.1
      rw [List.length_drop]
      omega
    unfold afterNumber
    simp only [hnext]

/-- The result of the loop of `ParseDuration` does not depend on the bound on its
iterations, once the bound is at least the length of the text: the bound that
`ParseDuration` passes is never reached. -/
theorem parseLoop_fuel (orig : Bytes) : ∀ (fuel1 fuel2 : Nat) (s : Bytes) (d : Nat),
    s.length ≤ fuel1 → s.length ≤ fuel2 →
    parseLoop fuel1 orig d s = parseLoop fuel2 orig d s := by
  intro fuel1
  induction fuel1 with
  | zero =>
    intro fuel2 s d h1 _
    have : s = [] := List.length_eq_zero.mp (by omega)
    subst this
    rw [parseLoop_nil, parseLoop_nil]
  | succ n1 ih =>
    intro fuel2 s d h1 h2
    cases s with
    | nil => rw [parseLoop_nil, parseLoop_nil]
    | cons c t =>
      obtain ⟨n2, rfl⟩ : ∃ n2, fuel2 = n2 + 1 := ⟨fuel2 - 1, by simp at h2; omega⟩
      rw [parseLoop_succ, parseLoop_succ]
      split
      · rfl
      · cases hint : leadingInt (c :: t) with
        | none => rfl
        | some p =>
          obtain ⟨v, s1⟩ := p
          simp only []
          apply afterNumber_congr
          intro d1 s4 hlt
          have hl1 := leadingIntLoop_length _ _ _ _ hint
          have hl2 := fracPart_length s1
          simp only [List.length_cons] at h1 h2 hl1
          exact ih n2 s4 d1 (by omega) (by omega)

/-! ## The claims -/

/-- C1 (text round trip): for every `int64` value `v` and every prior receiver value,
`MarshalText v` returns no error and `UnmarshalText` of the returned bytes returns no
error and sets the receiver to exactly `v`. -/
theorem text_round_trip (v d0 : SDuration) (hv : IsInt64 v) :
    (MarshalText v).2 = none ∧ UnmarshalText d0 (MarshalText v).1 = (none, v) := by
  refine ⟨rfl, ?_⟩
  unfold UnmarshalText MarshalText Duration.String Duration
  simp only [ParseDuration_format v hv]

theorem text_round_trip_witness :
    IsInt64 (-9223372036854775808) ∧ (MarshalText (-9223372036854775808)).2 = none ∧
      UnmarshalText 7 (MarshalText (-9223372036854775808)).1 = (none, -9223372036854775808) :=
  ⟨by decide, text_round_trip (-9223372036854775808) 7 (by decide)⟩

/-- C2 (JSON round trip): for every `int64` value `v` and every prior receiver value,
`MarshalJSON v` returns no error and `UnmarshalJSON` of the returned bytes returns no
error and sets the receiver to exactly `v`. -/
theorem json_round_trip (v d0 : SDuration) (hv : IsInt64 v) :
    (MarshalJSON v).2 = none ∧ UnmarshalJSON d0 (MarshalJSON v).1 = (none, v) := by
  refine ⟨rfl, ?_⟩
  unfold UnmarshalJSON MarshalJSON Duration.String Duration
  simp only [jsonMarshalString_plain _ (plain_format v),
    jsonUnmarshalString_plain _ _ (plain_format v), ParseDuration_format v hv]

theorem json_round_trip_witness :
    IsInt64 9223372036854775807 ∧ (MarshalJSON 9223372036854775807).2 = none ∧
      UnmarshalJSON 7 (MarshalJSON 9223372036854775807).1 = (none, 9223372036854775807) :=
  ⟨by decide, json_round_trip 9223372036854775807 7 (by decide)⟩

/-- C3 (SQL round trip): for every `int64` value `v` and every prior receiver value,
`Value v` returns no error and `Scan` of the returned driver value returns no error
and sets the receiver to exactly `v`. -/
theorem sql_round_trip (v d0 : SDuration) (hv : IsInt64 v) :
    (Value v).2 = none ∧ Scan d0 (Value v).1 = (none, v) := by
  refine ⟨rfl, ?_⟩
  unfold Scan Value Duration.String Duration
  simp only [ParseDuration_format v hv]

theorem sql_round_trip_witness :
    IsInt64 (-1500) ∧ (Value (-1500)).2 = none ∧ Scan 7 (Value (-1500)).1 = (none, -1500) :=
  ⟨by decide, sql_round_trip (-1500) 7 (by decide)⟩

/-- C4, as stated, fails: with the prior receiver value 5, `UnmarshalText` of the
empty text, `UnmarshalJSON` of `42` and `Scan` of a `bool` each return an error and
leave the receiver at 5, not at 0. -/
theorem failed_decode_keeps_nonzero_receiver :
    ((UnmarshalText 5 []).1 ≠ none ∧ (UnmarshalText 5 []).2 = 5) ∧
    ((UnmarshalJSON 5 [52, 50]).1 ≠ none ∧ (UnmarshalJSON 5 [52, 50]).2 = 5) ∧
    ((Scan 5 (GoValue.other [98, 111, 111, 108])).1 ≠ none ∧
      (Scan 5 (GoValue.other [98, 111, 111, 108])).2 = 5) ∧
    (5 : SDuration) ≠ 0 := by
  decide

/-- C4, amended: when the prior receiver value is `SDuration(0)`, the receiver equals
`SDuration(0)` after every call of `UnmarshalText`, `UnmarshalJSON` or `Scan` that
returns an error. -/
theorem failed_decode_zero_receiver (text data : Bytes) (src : GoValue) :
    ((UnmarshalText 0 text).1 ≠ none → (UnmarshalText 0 text).2 = 0) ∧
    ((UnmarshalJSON 0 data).1 ≠ none → (UnmarshalJSON 0 data).2 = 0) ∧
    ((Scan 0 src).1 ≠ none → (Scan 0 src).2 = 0) := by
  refine ⟨?_, ?_, ?_⟩
  · unfold UnmarshalText
    cases ParseDuration text with
    | error e => intro _; rfl
    | ok d => intro h; exact absurd rfl h
  · unfold UnmarshalJSON
    cases jsonUnmarshalString data [] with
    | error e => intro _; rfl
    | ok s =>
      simp only []
      cases ParseDuration s with
      | error e => intro _; rfl
      | ok d => intro h; exact absurd rfl h
  · unfold Scan
    cases src with
    | nil => intro _; rfl
    | string v =>
      simp only []
      cases ParseDuration v with
      | error e => intro _; rfl
      | ok d => intro h; exact absurd rfl h
    | bytes v =>
      simp only []
      cases ParseDuration v with
      | error e => intro _; rfl
      | ok d => intro h; exact absurd rfl h
    | int64 v => intro h; exact absurd rfl h
    | float64 v => intro h; exact absurd rfl h
    | other n => intro _; rfl

theorem failed_decode_zero_receiver_witness :
    ((UnmarshalText 0 []).1 ≠ none ∧ (UnmarshalText 0 []).2 = 0) ∧
    ((UnmarshalJSON 0 [52, 50]).1 ≠ none ∧ (UnmarshalJSON 0 [52, 50]).2 = 0) ∧
    ((Scan 0 (GoValue.other [98, 111, 111, 108])).1 ≠ none ∧
      (Scan 0 (GoValue.other [98, 111, 111, 108])).2 = 0) :=
  ⟨⟨by decide, (failed_decode_zero_receiver [] [52, 50] (GoValue.other [98, 111, 111, 108])).1
      (by decide)⟩,
   ⟨by decide, (failed_decode_zero_receiver [] [52, 50] (GoValue.other [98, 111, 111, 108])).2.1
      (by decide)⟩,
   ⟨by decide, (failed_decode_zero_receiver [] [52, 50] (GoValue.other [98, 111, 111, 108])).2.2
      (by decide)⟩⟩

/-- C5 (the three encoders agree on one text and never fail): for every duration `v`,
`Value v` is the string of the bytes of `MarshalText v`, `MarshalJSON v` is a double
quote, the bytes of `MarshalText v` unchanged, and a double quote, and all three return
a nil error. -/
theorem encoders_agree (v : SDuration) :
    (MarshalText v).2 = none ∧
    Value v = (GoValue.string (MarshalText v).1, none) ∧
    MarshalJSON v = (34 :: ((MarshalText v).1 ++ [34]), none) := by
  refine ⟨rfl, rfl, ?_⟩
  unfold MarshalJSON MarshalText Duration.String Duration
  rw [jsonMarshalString_plain _ (plain_format v)]

/-- C6 (`Scan` of text agrees with `UnmarshalText`): for every text `s`, `Scan` of the
string `s` and `Scan` of the bytes `s` return no error exactly when `UnmarshalText s`
returns none, and leave the receiver as `UnmarshalText s` leaves it; when
`UnmarshalText s` returns an error, it is a parse error `cause` of `ParseDuration`, and
the two calls of `Scan` return errors whose messages contain `s` between quotes and end
with the message of `cause`, and whose `Unwrap` is `cause`. -/
theorem Scan_text_agrees_with_UnmarshalText (d0 : SDuration) (s : Bytes) :
    ((Scan d0 (GoValue.string s)).1 = none ↔ (UnmarshalText d0 s).1 = none) ∧
    ((Scan d0 (GoValue.bytes s)).1 = none ↔ (UnmarshalText d0 s).1 = none) ∧
    (Scan d0 (GoValue.string s)).2 = (UnmarshalText d0 s).2 ∧
    (Scan d0 (GoValue.bytes s)).2 = (UnmarshalText d0 s).2 ∧
    (∀ e, (UnmarshalText d0 s).1 = some e →
      ∃ cause err1 err2, e = Error.time cause ∧
        (Scan d0 (GoValue.string s)).1 = some err1 ∧
        (Scan d0 (GoValue.bytes s)).1 = some err2 ∧
        err1.msg? = some (ascii "failed to parse duration from string \x27" ++ s
          ++ ascii "\x27: " ++ cause.msg) ∧
        err2.msg? = some (ascii "failed to parse duration from bytes \x27" ++ s
          ++ ascii "\x27: " ++ cause.msg) ∧
        err1.Unwrap = some e ∧ err2.Unwrap = some e) := by
  unfold Scan UnmarshalText
  simp only []
  cases ParseDuration s with
  | error cause =>
    refine ⟨by simp, by simp, rfl, rfl, ?_⟩
    intro e he
    simp only [Option.some.injEq] at he
    exact ⟨cause, _, _, he.symm, rfl, rfl, rfl, rfl, by rw [← he]; rfl, by rw [← he]; rfl⟩
  | ok d =>
    refine ⟨by simp, by simp, rfl, rfl, ?_⟩
    intro e he
    exact absurd he (by simp)

theorem Scan_text_agrees_with_UnmarshalText_witness :
    (UnmarshalText 7 [52, 50]).1 = some (Error.time (errMissingUnit [52, 50])) ∧
    (Scan 7 (GoValue.string [52, 50])).2 = 7 ∧
    (∃ cause err1 err2, Error.time (errMissingUnit [52, 50]) = Error.time cause ∧
        (Scan 7 (GoValue.string [52, 50])).1 = some err1 ∧
        (Scan 7 (GoValue.bytes [52, 50])).1 = some err2 ∧
        err1.msg? = some (ascii "failed to parse duration from string \x27" ++ [52, 50]
          ++ ascii "\x27: " ++ cause.msg) ∧
        err2.msg? = some (ascii "failed to parse duration from bytes \x27" ++ [52, 50]
          ++ ascii "\x27: " ++ cause.msg) ∧
        err1.Unwrap = some (Error.time (errMissingUnit [52, 50])) ∧
        err2.Unwrap = some (Error.time (errMissingUnit [52, 50]))) :=
  ⟨by decide, by decide,
    (Scan_text_agrees_with_UnmarshalText 7 [52, 50]).2.2.2.2 _ (by decide)⟩

theorem ParseDuration_empty : ParseDuration [] = .error (errInvalid []) := by decide

/-- C8 (JSON type enforcement): for every input that is not a JSON string literal - it
is not valid JSON, or its first byte after the white space is not a double quote, as
for a number, a boolean, null, an array, an object or unquoted text - `UnmarshalJSON`
returns an error. -/
theorem UnmarshalJSON_rejects_non_string (d0 : SDuration) (data : Bytes)
    (h : ¬ IsJSONStringLiteral data) : (UnmarshalJSON d0 data).1 ≠ none := by
  unfold IsJSONStringLiteral at h
  unfold UnmarshalJSON jsonUnmarshalString
  cases hv : checkValid data with
  | error e => simp
  | ok u =>
    have hu : u = () := rfl
    subst hu
    simp only [hv, true_and] at h
    simp only []
    cases hd : data.dropWhile isSpace with
    | nil => simp
    | cons c rest =>
      rw [hd] at h
      simp only [List.head?_cons, Option.some.injEq] at h
      simp only []
      by_cases h1 : c = 91
      · simp [h1]
      · by_cases h2 : c = 123
        · simp [h2]
        · by_cases h3 : c = 110
          · simp [h3, ParseDuration_empty]
          · by_cases h4 : c = 116 ∨ c = 102
            · simp [h1, h2, h3, h4]
            · simp [h1, h2, h3, h4, h]

theorem UnmarshalJSON_rejects_non_string_witness :
    (¬ IsJSONStringLiteral [52, 50] ∧ (UnmarshalJSON 7 [52, 50]).1 ≠ none) ∧
    (¬ IsJSONStringLiteral [116, 114, 117, 101] ∧
      (UnmarshalJSON 7 [116, 114, 117, 101]).1 ≠ none) ∧
    (¬ IsJSONStringLiteral [110, 117, 108, 108] ∧
      (UnmarshalJSON 7 [110, 117, 108, 108]).1 ≠ none) ∧
    (¬ IsJSONStringLiteral [91, 93] ∧ (UnmarshalJSON 7 [91, 93]).1 ≠ none) ∧
    (¬ IsJSONStringLiteral [123, 125] ∧ (UnmarshalJSON 7 [123, 125]).1 ≠ none) ∧
    (¬ IsJSONStringLiteral [53, 115] ∧ (UnmarshalJSON 7 [53, 115]).1 ≠ none) :=
  ⟨⟨by decide, UnmarshalJSON_rejects_non_string 7 [52, 50] (by decide)⟩,
   ⟨by decide, UnmarshalJSON_rejects_non_string 7 [116, 114, 117, 101] (by decide)⟩,
   ⟨by decide, UnmarshalJSON_rejects_non_string 7 [110, 117, 108, 108] (by decide)⟩,
   ⟨by decide, UnmarshalJSON_rejects_non_string 7 [91, 93] (by decide)⟩,
   ⟨by decide, UnmarshalJSON_rejects_non_string 7 [123, 125] (by decide)⟩,
   ⟨by decide, UnmarshalJSON_rejects_non_string 7 [53, 115] (by decide)⟩⟩

/-- C9 (`Scan` rejects unsupported types): for every value whose dynamic type is none
of nil, `string`, `[]byte`, `int64` or `float64`, `Scan` returns an error whose message
is `cannot scan type`, the name of that type, and `into SDuration`; and for nil, every
`int64` and every `float64`, `Scan` returns no error. -/
theorem Scan_unsupported_type (d0 : SDuration) (typeName : Bytes) (n : Int) (f : F64) :
    (∃ err, (Scan d0 (GoValue.other typeName)).1 = some err ∧
      err.msg? = some (ascii "cannot scan type " ++ typeName ++ ascii " into SDuration")) ∧
    (Scan d0 GoValue.nil).1 = none ∧
    (Scan d0 (GoValue.int64 n)).1 = none ∧
    (Scan d0 (GoValue.float64 f)).1 = none :=
  ⟨⟨_, rfl, rfl⟩, rfl, rfl, rfl⟩

/-- C10 (`Scan` of null): for every prior receiver value, `Scan(nil)` returns no error
and sets the receiver to `SDuration(0)`. -/
theorem Scan_nil (d0 : SDuration) : Scan d0 GoValue.nil = (none, 0) := rfl

/-- C11 (`Scan` of an integer): for every `int64` value `n` and every prior receiver
value, `Scan(n)` returns no error and sets the receiver to exactly `n` nanoseconds,
with no scaling; `Scan(5000000000)` yields 5 seconds. -/
theorem Scan_int64 (d0 : SDuration) (n : Int) :
    Scan d0 (GoValue.int64 n) = (none, n) ∧
    Scan d0 (GoValue.int64 5000000000) = (none, 5 * (Second : Int)) := by
  refine ⟨rfl, ?_⟩
  rw [show (5 * (Second : Int)) = 5000000000 by decide]
  rfl

theorem rejected_by_all_decoders (d0 : SDuration) (t : Bytes)
    (hp : (ParseDuration t).isOk = false)
    (hj : jsonUnmarshalString (34 :: (t ++ [34])) [] = .ok t) :
    (UnmarshalText d0 t).1 ≠ none ∧ (UnmarshalJSON d0 (34 :: (t ++ [34]))).1 ≠ none ∧
      (Scan d0 (GoValue.string t)).1 ≠ none ∧ (Scan d0 (GoValue.bytes t)).1 ≠ none := by
  obtain ⟨e, he⟩ : ∃ e, ParseDuration t = .error e := by
    cases h : ParseDuration t with
    | ok d => rw [h] at hp; exact absurd hp (by simp [Except.isOk, Except.toBool])
    | error e => exact ⟨e, rfl⟩
  unfold UnmarshalText UnmarshalJSON Scan
  rw [hj]
  simp only [he]
  simp

/-- C13 (malformed text is rejected by every decoder that routes through text): for
each of the texts `""`, `"42"` and `"not a duration"`, `UnmarshalText`, `UnmarshalJSON`
of the text between double quotes, `Scan` of the string and `Scan` of the bytes return
an error, for every prior receiver value. -/
theorem malformed_text_rejected (d0 : SDuration) :
    ((UnmarshalText d0 []).1 ≠ none ∧ (UnmarshalJSON d0 [34, 34]).1 ≠ none ∧
      (Scan d0 (GoValue.string [])).1 ≠ none ∧ (Scan d0 (GoValue.bytes [])).1 ≠ none) ∧
    ((UnmarshalText d0 [52, 50]).1 ≠ none ∧ (UnmarshalJSON d0 [34, 52, 50, 34]).1 ≠ none ∧
      (Scan d0 (GoValue.string [52, 50])).1 ≠ none ∧
      (Scan d0 (GoValue.bytes [52, 50])).1 ≠ none) ∧
    ((UnmarshalText d0
        [110, 111, 116, 32, 97, 32, 100, 117, 114, 97, 116, 105, 111, 110]).1 ≠ none ∧
      (UnmarshalJSON d0
        [34, 110, 111, 116, 32, 97, 32, 100, 117, 114, 97, 116, 105, 111, 110, 34]).1 ≠ none ∧
      (Scan d0 (GoValue.string
        [110, 111, 116, 32, 97, 32, 100, 117, 114, 97, 116, 105, 111, 110])).1 ≠ none ∧
      (Scan d0 (GoValue.bytes
        [110, 111, 116, 32, 97, 32, 100, 117, 114, 97, 116, 105, 111, 110])).1 ≠ none) :=
  ⟨rejected_by_all_decoders d0 [] (by decide) (by decide),
   rejected_by_all_decoders d0 [52, 50] (by decide) (by decide),
   rejected_by_all_decoders d0
     [110, 111, 116, 32, 97, 32, 100, 117, 114, 97, 116, 105, 111, 110] (by decide) (by decide)⟩

/-- C17 (canonical zero): `MarshalText(SDuration(0))` returns exactly `0s`,
`Value(SDuration(0))` returns the string `0s`, and `MarshalJSON(SDuration(0))` returns
the four bytes of `0s` between double quotes; none returns an error. -/
theorem canonical_zero :
    MarshalText 0 = ([48, 115], none) ∧
    Value 0 = (GoValue.string [48, 115], none) ∧
    MarshalJSON 0 = ([34, 48, 115, 34], none) := by
  decide

/-- C20 (a failed decode does not touch the receiver): for every prior receiver value
`d0` and every input on which `UnmarshalText`, `UnmarshalJSON` or `Scan` returns an
error, the receiver still equals `d0` after the call. -/
theorem failed_decode_keeps_receiver (d0 : SDuration) (text data : Bytes) (src : GoValue) :
    ((UnmarshalText d0 text).1 ≠ none → (UnmarshalText d0 text).2 = d0) ∧
    ((UnmarshalJSON d0 data).1 ≠ none → (UnmarshalJSON d0 data).2 = d0) ∧
    ((Scan d0 src).1 ≠ none → (Scan d0 src).2 = d0) := by
  refine ⟨?_, ?_, ?_⟩
  · unfold UnmarshalText
    cases ParseDuration text with
    | error e => intro _; rfl
    | ok d => intro h; exact absurd rfl h
  · unfold UnmarshalJSON
    cases jsonUnmarshalString data [] with
    | error e => intro _; rfl
    | ok s =>
      simp only []
      cases ParseDuration s with
      | error e => intro _; rfl
      | ok d => intro h; exact absurd rfl h
  · unfold Scan
    cases src with
    | nil => intro h; exact absurd rfl h
    | string v =>
      simp only []
      cases ParseDuration v with
      | error e => intro _; rfl
      | ok d => intro h; exact absurd rfl h
    | bytes v =>
      simp only []
      cases ParseDuration v with
      | error e => intro _; rfl
      | ok d => intro h; exact absurd rfl h
    | int64 v => intro h; exact absurd rfl h
    | float64 v => intro h; exact absurd rfl h
    | other n => intro _; rfl

theorem failed_decode_keeps_receiver_witness :
    ((UnmarshalText 5 [52, 50]).1 ≠ none ∧ (UnmarshalText 5 [52, 50]).2 = 5) ∧
    ((UnmarshalJSON 5 [53, 115]).1 ≠ none ∧ (UnmarshalJSON 5 [53, 115]).2 = 5) ∧
    ((Scan 5 (GoValue.string [120])).1 ≠ none ∧ (Scan 5 (GoValue.string [120])).2 = 5) :=
  ⟨⟨by decide, (failed_decode_keeps_receiver 5 [52, 50] [53, 115] (GoValue.string [120])).1
      (by decide)⟩,
   ⟨by decide, (failed_decode_keeps_receiver 5 [52, 50] [53, 115] (GoValue.string [120])).2.1
      (by decide)⟩,
   ⟨by decide, (failed_decode_keeps_receiver 5 [52, 50] [53, 115] (GoValue.string [120])).2.2
      (by decide)⟩⟩

/-! ## The sign -/

theorem format_sign (v : Int) (hv : IsInt64 v) :
    (0 < v → format (-v) = 45 :: format v) ∧ (0 ≤ v → (format v).head? ≠ some 45) := by
  obtain ⟨h1, h2⟩ := hv
  constructor
  · intro hpos
    have hneg : IsInt64 (-v) := ⟨by omega, by omega⟩
    rw [format_eq (-v) hneg, format_eq v ⟨h1, h2⟩,
      if_neg (by omega), if_pos (by omega), if_neg (by omega), if_neg (by omega),
      Int.natAbs_neg]
  · intro hnn
    rw [format_eq v ⟨h1, h2⟩]
    by_cases h0 : v = 0
    · rw [if_pos h0]; decide
    · rw [if_neg h0, if_neg (by omega)]
      obtain ⟨⟨c, t, hct, hc1, hc2⟩, -, -⟩ :=
        parseLoop_magnitude [] v.natAbs (by omega) (by omega)
      rw [hct]
      simp only [List.head?_cons, ne_eq, Option.some.injEq]
      omega

/-- C16 (sign on encode): for every `int64` value `v > 0`, the text of `-v` is `-`
followed by the text of `v`, and for every `int64` value `v >= 0` the text of `v`
does not begin with `-`. -/
theorem sign_on_encode (v : SDuration) (hv : IsInt64 v) :
    (0 < v → (MarshalText (-v)).1 = 45 :: (MarshalText v).1) ∧
    (0 ≤ v → (MarshalText v).1.head? ≠ some 45) :=
  format_sign v hv

theorem sign_on_encode_witness :
    IsInt64 30000000000 ∧
    (MarshalText (-30000000000)).1 = 45 :: (MarshalText 30000000000).1 ∧
    (MarshalText (-30000000000)).1 = [45, 51, 48, 115] ∧
    (MarshalText 30000000000).1.head? ≠ some 45 :=
  ⟨by decide, (sign_on_encode 30000000000 (by decide)).1 (by decide), by decide,
    (sign_on_encode 30000000000 (by decide)).2 (by decide)⟩

theorem afterNumber_orig (next1 next2 : Nat → Bytes → Except TimeError Nat)
    (orig1 orig2 : Bytes) (d : Nat) (pre : Bool) (v : Nat) (fr : Nat × F64 × Bytes × Bool)
    (r : Nat) (hnext : ∀ d1 s4, next1 d1 s4 = .ok r → next2 d1 s4 = .ok r)
    (h : afterNumber next1 orig1 d pre v fr = .ok r) :
    afterNumber next2 orig2 d pre v fr = .ok r := by
  unfold afterNumber at h ⊢
  simp only [] at h ⊢
  by_cases c1 : (!pre && !fr.2.2.2) = true
  · rw [if_pos c1] at h; exact absurd h (by simp)
  · rw [if_neg c1] at h ⊢
    by_cases c2 : unitLen fr.2.2.1 = 0
    · rw [if_pos c2] at h; exact absurd h (by simp)
    · rw [if_neg c2] at h ⊢
      cases hu : unitMap (List.take (unitLen fr.2.2.1) fr.2.2.1) with
      | none => simp only [hu] at h; exact absurd h (by simp)
      | some unit =>
        simp only [hu] at h ⊢
        by_cases c3 : 2 ^ 63 / unit < v
        · rw [if_pos c3] at h; exact absurd h (by simp)
        · rw [if_neg c3] at h ⊢
          generalize (if 0 < fr.1 then
              (v * unit % 2 ^ 64 +
                F64.toUint64 (F64.mul (F64.ofNat fr.1) (F64.div (F64.ofNat unit) fr.2.1)))
                % 2 ^ 64
            else v * unit % 2 ^ 64) = v2 at h ⊢
          by_cases c4 : 0 < fr.1 ∧ 2 ^ 63 < v2
          · rw [if_pos c4] at h; exact absurd h (by simp)
          · rw [if_neg c4] at h ⊢
            by_cases c5 : 2 ^ 63 < (d + v2) % 2 ^ 64
            · rw [if_pos c5] at h; exact absurd h (by simp)
            · rw [if_neg c5] at h ⊢
              exact hnext _ _ h

/-- A result of the loop of `ParseDuration` does not depend on the text `orig`, which
is only used in the messages of the errors. -/
theorem parseLoop_orig (orig1 orig2 : Bytes) (r : Nat) : ∀ (fuel : Nat) (d : Nat) (s : Bytes),
    parseLoop fuel orig1 d s = .ok r → parseLoop fuel orig2 d s = .ok r := by
  intro fuel
  induction fuel with
  | zero =>
    intro d s h
    cases s with
    | nil => rw [parseLoop_nil] at h ⊢; exact h
    | cons c t => rw [parseLoop] at h; exact absurd h (by simp)
  | succ fuel ih =>
    intro d s h
    cases s with
    | nil => rw [parseLoop_nil] at h ⊢; exact h
    | cons c t =>
      rw [parseLoop_succ] at h ⊢
      by_cases c1 : ¬ (c = 46 ∨ (48 ≤ c ∧ c ≤ 57))
      · rw [if_pos c1] at h; exact absurd h (by simp)
      · rw [if_neg c1] at h ⊢
        cases hint : leadingInt (c :: t) with
        | none => simp only [hint] at h; exact absurd h (by simp)
        | some p =>
          obtain ⟨v, s1⟩ := p
          simp only [hint] at h ⊢
          exact afterNumber_orig _ _ orig1 orig2 d _ v _ r (fun d1 s4 => ih d1 s4) h

theorem ParseDuration_plus (s : Bytes) (d : Nat) (h1 : s ≠ [48]) (h2 : s ≠ [])
    (hd : d ≤ 2 ^ 63 - 1) (hp : parseLoop s.length (43 :: s) 0 s = .ok d) :
    ParseDuration (43 :: s) = .ok (toInt64 d) := by
  unfold ParseDuration
  simp only [or_true, if_true]
  rw [if_neg h1, if_neg h2, hp]
  simp only [show decide ((43 : Nat) = 45) = false by decide, Bool.false_eq_true, if_false]
  rw [if_neg (by omega)]

/-- A sign in front of a text without a sign: `-` negates the value that
`ParseDuration` returns and `+` leaves it. -/
theorem ParseDuration_sign (s : Bytes) (v : Int)
    (hplus : s.head? ≠ some 43) (hminus : s.head? ≠ some 45)
    (hpd : ParseDuration s = .ok v) :
    ParseDuration (45 :: s) = .ok (-v) ∧ ParseDuration (43 :: s) = .ok v := by
  cases s with
  | nil => rw [ParseDuration_empty] at hpd; exact absurd hpd (by simp)
  | cons c t =>
    simp only [List.head?_cons, ne_eq, Option.some.injEq] at hplus hminus
    by_cases h48 : c :: t = [48]
    · rw [h48] at hpd ⊢
      have hv : v = 0 := by
        have : ParseDuration [48] = .ok 0 := by decide
        rw [this] at hpd
        simp only [Except.ok.injEq] at hpd
        exact hpd.symm
      subst hv
      exact ⟨by decide, by decide⟩
    · unfold ParseDuration at hpd
      simp only [if_neg (show ¬ (c = 45 ∨ c = 43) by omega)] at hpd
      rw [if_neg h48, if_neg (by simp)] at hpd
      cases hl : parseLoop (c :: t).length (c :: t) 0 (c :: t) with
      | error e => rw [hl] at hpd; simp at hpd
      | ok d =>
        rw [hl] at hpd
        simp only [Bool.false_eq_true, if_false] at hpd
        by_cases hd : 2 ^ 63 - 1 < d
        · rw [if_pos hd] at hpd; simp at hpd
        · rw [if_neg hd] at hpd
          simp only [Except.ok.injEq] at hpd
          have hvd : v = (d : Int) := by
            rw [← hpd]; unfold toInt64; omega
          constructor
          · rw [ParseDuration_minus _ d h48 (by simp)
              (parseLoop_orig (c :: t) (45 :: c :: t) d _ _ _ hl)]
            have : toInt64 (-(toInt64 (d : Int))) = -v := by
              rw [hvd]; unfold toInt64; omega
            rw [this]
          · rw [ParseDuration_plus _ d h48 (by simp) (by omega)
              (parseLoop_orig (c :: t) (43 :: c :: t) d _ _ _ hl)]
            have : toInt64 (d : Int) = v := by
              rw [hvd]; unfold toInt64; omega
            rw [this]

/-- C15 (a leading sign applies to the whole decoded value): for every text `s` that
does not begin with `+` or `-` and that `UnmarshalText` decodes to `v`,
`UnmarshalText` of `-` followed by `s` returns no error and sets the receiver to `-v`,
and `UnmarshalText` of `+` followed by `s` returns no error and sets the receiver to
`v`. -/
theorem leading_sign (d0 : SDuration) (s : Bytes) (v : SDuration)
    (hplus : s.head? ≠ some 43) (hminus : s.head? ≠ some 45)
    (hs : UnmarshalText d0 s = (none, v)) :
    UnmarshalText d0 (45 :: s) = (none, -v) ∧ UnmarshalText d0 (43 :: s) = (none, v) := by
  have hpd : ParseDuration s = .ok v := by
    unfold UnmarshalText at hs
    cases h : ParseDuration s with
    | error e => rw [h] at hs; simp at hs
    | ok d =>
      rw [h] at hs
      simp only [Prod.mk.injEq, true_and] at hs
      rw [hs]
  have h := ParseDuration_sign s v hplus hminus hpd
  unfold UnmarshalText
  rw [h.1, h.2]
  exact ⟨rfl, rfl⟩

theorem leading_sign_witness :
    ([49, 104, 51, 48, 109] : Bytes).head? ≠ some 43 ∧
    ([49, 104, 51, 48, 109] : Bytes).head? ≠ some 45 ∧
    UnmarshalText 7 [49, 104, 51, 48, 109] = (none, 5400000000000) ∧
    UnmarshalText 7 [45, 49, 104, 51, 48, 109] = (none, -5400000000000) ∧
    UnmarshalText 7 [43, 49, 104, 51, 48, 109] = (none, 5400000000000) :=
  ⟨by decide, by decide, by decide,
    leading_sign 7 [49, 104, 51, 48, 109] 5400000000000 (by decide) (by decide) (by decide)⟩

/-! ## A number without a unit -/

theorem leadingIntLoop_mem : ∀ (s : Bytes) (x v : Nat) (s1 : Bytes),
    leadingIntLoop x s = some (v, s1) → ∀ c ∈ s1, c ∈ s := by
  intro s
  induction s with
  | nil =>
    intro x v s1 h
    simp only [leadingIntLoop, Option.some.injEq, Prod.mk.injEq] at h
    rw [← h.2]
    intro c hc
    exact hc
  | cons a t ih =>
    intro x v s1 h
    rw [leadingIntLoop] at h
    split at h
    · simp only [Option.some.injEq, Prod.mk.injEq] at h
      rw [← h.2]
      intro c hc
      exact hc
    · split at h
      · exact absurd h (by simp)
      · simp only [] at h
        split at h
        · exact absurd h (by simp)
        · intro c hc
          exact List.mem_cons_of_mem _ (ih _ _ _ h c hc)

theorem leadingFractionLoop_mem : ∀ (s : Bytes) (x : Nat) (sc : F64) (ov : Bool),
    ∀ c ∈ (leadingFractionLoop x sc ov s).2.2, c ∈ s := by
  intro s
  induction s with
  | nil => intro x sc ov c hc; simp [leadingFractionLoop] at hc
  | cons a t ih =>
    intro x sc ov c
    rw [leadingFractionLoop]
    split
    · intro hc; exact hc
    · split
      · intro hc; exact List.mem_cons_of_mem _ (ih _ _ _ c hc)
      · split
        · intro hc; exact List.mem_cons_of_mem _ (ih _ _ _ c hc)
        · simp only []
          split
          · intro hc; exact List.mem_cons_of_mem _ (ih _ _ _ c hc)
          · intro hc; exact List.mem_cons_of_mem _ (ih _ _ _ c hc)

theorem fracPart_mem (s1 : Bytes) : ∀ c ∈ (fracPart s1).2.2.1, c ∈ s1 := by
  unfold fracPart
  split
  · rename_i s2
    intro c hc
    exact List.mem_cons_of_mem _ (leadingFractionLoop_mem s2 0 (F64.ofNat 1) false c hc)
  · intro c hc; exact hc

theorem unitLen_number (s : Bytes) (h : ∀ c ∈ s, c = 46 ∨ (48 ≤ c ∧ c ≤ 57)) :
    unitLen s = 0 := by
  cases s with
  | nil => rfl
  | cons a t =>
    rw [unitLen, if_pos (h a (List.mem_cons_self _ _))]

theorem afterNumber_no_unit (next : Nat → Bytes → Except TimeError Nat) (orig : Bytes)
    (d : Nat) (pre : Bool) (v : Nat) (fr : Nat × F64 × Bytes × Bool)
    (h : unitLen fr.2.2.1 = 0) : ∃ e, afterNumber next orig d pre v fr = .error e := by
  unfold afterNumber
  simp only [h, if_true]
  split
  · exact ⟨_, rfl⟩
  · exact ⟨_, rfl⟩

/-- The loop of `ParseDuration` fails on a text of digits and decimal points. -/
theorem parseLoop_number (fuel : Nat) (orig : Bytes) (d c : Nat) (t : Bytes)
    (h : ∀ x ∈ c :: t, x = 46 ∨ (48 ≤ x ∧ x ≤ 57)) :
    ∃ e, parseLoop (fuel + 1) orig d (c :: t) = .error e := by
  rw [parseLoop_succ]
  split
  · exact ⟨_, rfl⟩
  · cases hint : leadingInt (c :: t) with
    | none => exact ⟨_, rfl⟩
    | some p =>
      obtain ⟨v, s1⟩ := p
      simp only []
      apply afterNumber_no_unit
      apply unitLen_number
      intro x hx
      exact h x (leadingIntLoop_mem _ _ _ _ hint x (fracPart_mem s1 x hx))

/-- Function `ParseDuration` fails on an optionally signed text of digits and decimal points,
unless the text after the sign is `0`. -/
theorem ParseDuration_number (sign s : Bytes) (hsign : sign = [] ∨ sign = [43] ∨ sign = [45])
    (hs : ∀ c ∈ s, c = 46 ∨ (48 ≤ c ∧ c ≤ 57)) (h0 : s ≠ [48]) :
    ∃ e, ParseDuration (sign ++ s) = .error e := by
  have key : ∀ (orig : Bytes) (neg : Bool),
      ∃ e, (if s = [48] then (.ok 0 : Except TimeError Int)
        else if s = [] then .error (errInvalid orig)
        else
          match parseLoop s.length orig 0 s with
          | .error e => .error e
          | .ok d =>
            if neg = true then .ok (toInt64 (-(toInt64 d)))
            else if 2 ^ 63 - 1 < d then .error (errInvalid orig)
            else .ok (toInt64 d)) = .error e := by
    intro orig neg
    rw [if_neg h0]
    cases s with
    | nil => exact ⟨_, rfl⟩
    | cons c t =>
      rw [if_neg (by simp)]
      obtain ⟨e, he⟩ := parseLoop_number t.length orig 0 c t hs
      simp only [List.length_cons, he]
      exact ⟨_, rfl⟩
  rcases hsign with rfl | rfl | rfl
  · cases s with
    | nil => exact ⟨_, ParseDuration_empty⟩
    | cons c t =>
      have hc := hs c (List.mem_cons_self _ _)
      have := key (c :: t) false
      unfold ParseDuration
      simp only [List.nil_append, if_neg (show ¬ (c = 45 ∨ c = 43) by omega)]
      exact this
  · have := key (43 :: s) false
    unfold ParseDuration
    simp only [List.singleton_append, or_true, if_true,
      show decide ((43 : Nat) = 45) = false by decide]
    exact this
  · have := key (45 :: s) true
    unfold ParseDuration
    simp only [List.singleton_append, true_or, if_true, decide_True]
    exact this

/-- C14, as stated, fails: `0`, `+0` and `-0` are numbers without a unit, and
`UnmarshalText` accepts each of them as the zero duration. -/
theorem unitless_zero_accepted :
    UnmarshalText 7 [48] = (none, 0) ∧ UnmarshalText 7 [43, 48] = (none, 0) ∧
    UnmarshalText 7 [45, 48] = (none, 0) := by
  decide

/-- C14, amended: for every text that is an optional sign `+` or `-` followed by
digits and decimal points only (the empty text and `42` are such texts), and whose
part after the sign is not the single digit `0`, `UnmarshalText` returns an error. -/
theorem unitless_number_rejected (d0 : SDuration) (sign s : Bytes)
    (hsign : sign = [] ∨ sign = [43] ∨ sign = [45])
    (hs : ∀ c ∈ s, c = 46 ∨ (48 ≤ c ∧ c ≤ 57)) (h0 : s ≠ [48]) :
    (UnmarshalText d0 (sign ++ s)).1 ≠ none := by
  obtain ⟨e, he⟩ := ParseDuration_number sign s hsign hs h0
  unfold UnmarshalText
  rw [he]
  simp

theorem unitless_number_rejected_witness :
    ((∀ c ∈ ([] : Bytes), c = 46 ∨ (48 ≤ c ∧ c ≤ 57)) ∧ (UnmarshalText 7 ([] ++ [])).1 ≠ none) ∧
    ((∀ c ∈ ([52, 50] : Bytes), c = 46 ∨ (48 ≤ c ∧ c ≤ 57)) ∧
      (UnmarshalText 7 ([] ++ [52, 50])).1 ≠ none) ∧
    ((∀ c ∈ ([49, 46, 53] : Bytes), c = 46 ∨ (48 ≤ c ∧ c ≤ 57)) ∧
      (UnmarshalText 7 ([45] ++ [49, 46, 53])).1 ≠ none) :=
  ⟨⟨by decide, unitless_number_rejected 7 [] [] (Or.inl rfl) (by decide) (by decide)⟩,
   ⟨by decide, unitless_number_rejected 7 [] [52, 50] (Or.inl rfl) (by decide) (by decide)⟩,
   ⟨by decide, unitless_number_rejected 7 [45] [49, 46, 53] (Or.inr (Or.inr rfl)) (by decide)
      (by decide)⟩⟩

/-! ## The text of whole seconds and of whole sub-second units -/

theorem digitChar_toNat : ∀ d, d < 10 → (Nat.digitChar d).toNat = d + 48 := by
  decide

theorem toDigitsCore_fmtIntLoop (f2 : Nat) : ∀ (f1 n : Nat) (ds : List Char),
    0 < n → n ≤ f1 → n < f2 →
    (Nat.toDigitsCore 10 f2 n ds).map Char.toNat = fmtIntLoop f1 n (ds.map Char.toNat) := by
  induction f2 with
  | zero => intro f1 n ds h0 h1 h2; omega
  | succ k ih =>
    intro f1 n ds h0 h1 h2
    obtain ⟨j, rfl⟩ : ∃ j, f1 = j + 1 := ⟨f1 - 1, by omega⟩
    rw [Nat.toDigitsCore, fmtIntLoop, if_pos h0]
    by_cases hz : n / 10 = 0
    · rw [if_pos hz, hz, fmtIntLoop_zero]
      simp only [List.map_cons, digitChar_toNat (n % 10) (by omega)]
    · rw [if_neg hz, ih j (n / 10) _ (by omega) (by omega) (by omega)]
      simp only [List.map_cons, digitChar_toNat (n % 10) (by omega)]

/-- The function `fmtInt` writes the decimal numeral. -/
theorem fmtInt_decimal (buf : Bytes) (n : Nat) : fmtInt buf n = decimal n ++ buf := by
  have happ : ∀ fuel v b, fmtIntLoop fuel v b = fmtIntLoop fuel v [] ++ b := by
    intro fuel
    induction fuel with
    | zero => intro v b; simp [fmtIntLoop]
    | succ fuel ih =>
      intro v b
      unfold fmtIntLoop
      split
      · rw [ih _ ((v % 10 + 48) :: b), ih _ [v % 10 + 48]]
        simp
      · simp
  unfold fmtInt decimal Nat.toDigits
  by_cases h0 : n = 0
  · subst h0
    rw [if_pos rfl]
    rfl
  · rw [if_neg h0, toDigitsCore_fmtIntLoop (n + 1) n n [] (by omega) (le_refl n) (by omega)]
    simp only [List.map_nil]
    exact happ n n buf

theorem fmtFracLoop_exact (n : Nat) : ∀ (v : Nat) (buf : Bytes), v % 10 ^ n = 0 →
    fmtFracLoop n false v buf = (buf, v / 10 ^ n, false) := by
  induction n with
  | zero => intro v buf _; simp [fmtFracLoop]
  | succ n ih =>
    intro v buf h
    have hd : v % 10 = 0 := by
      have : (10 : Nat) ∣ 10 ^ (n + 1) := dvd_pow_self 10 (by omega)
      exact Nat.eq_zero_of_dvd_of_lt (by
        have h1 : 10 ^ (n + 1) ∣ v := Nat.dvd_of_mod_eq_zero h
        have h2 : 10 ∣ v := Nat.dvd_trans this h1
        exact (Nat.dvd_mod_iff (dvd_refl 10)).mpr h2) (Nat.mod_lt _ (by omega))
    have hq : v / 10 % 10 ^ n = 0 := by
      have h1 : 10 ^ (n + 1) ∣ v := Nat.dvd_of_mod_eq_zero h
      obtain ⟨q, hq⟩ := h1
      rw [hq, pow_succ, Nat.mul_comm (10 ^ n) 10, Nat.mul_assoc,
        Nat.mul_div_cancel_left _ (by omega : 0 < 10)]
      exact Nat.mul_mod_right _ _
    unfold fmtFracLoop
    simp only [hd, ne_eq, not_true_eq_false, decide_False, Bool.or_self, Bool.false_eq_true,
      if_false]
    rw [ih _ _ hq, Nat.div_div_eq_div_mul, pow_succ, Nat.mul_comm]

/-- The function `fmtFrac` writes nothing for a multiple of `10^prec`. -/
theorem fmtFrac_exact (buf : Bytes) (v prec : Nat) (h : v % 10 ^ prec = 0) :
    fmtFrac buf v prec = (buf, v / 10 ^ prec) := by
  unfold fmtFrac
  rw [fmtFracLoop_exact prec v buf h]
  simp

/-- The text of a whole number of seconds. -/
theorem magnitude_whole_seconds (h m s : Nat) (hm : m < 60) (hs : s < 60)
    (hpos : 1 ≤ h * 3600 + m * 60 + s) :
    magnitude ((h * 3600 + m * 60 + s) * 1000000000) =
      if 1 ≤ h then decimal h ++ [104] ++ decimal m ++ [109] ++ decimal s ++ [115]
      else if 1 ≤ m then decimal m ++ [109] ++ decimal s ++ [115]
      else decimal s ++ [115] := by
  have hS : Second = 1000000000 := by decide
  have hp9 : (10 : Nat) ^ 9 = 1000000000 := by norm_num
  unfold magnitude
  rw [if_neg (by rw [hS]; omega)]
  have hmod : (h * 3600 + m * 60 + s) * 1000000000 % 10 ^ 9 = 0 := by
    rw [hp9]; exact Nat.mul_mod_left _ _
  simp only [fmtFrac_exact _ _ _ hmod]
  have hdiv : (h * 3600 + m * 60 + s) * 1000000000 / 10 ^ 9 = h * 3600 + m * 60 + s := by
    rw [hp9]; exact Nat.mul_div_cancel _ (by omega)
  rw [hdiv]
  have e1 : (h * 3600 + m * 60 + s) % 60 = s := by omega
  have e2 : (h * 3600 + m * 60 + s) / 60 = h * 60 + m := by omega
  have e3 : (h * 60 + m) % 60 = m := by omega
  have e4 : (h * 60 + m) / 60 = h := by omega
  rw [e1, e2, e3, e4]
  simp only [fmtInt_decimal]
  by_cases h1 : 1 ≤ h
  · rw [if_pos (by omega), if_pos (by omega), if_pos h1]
    simp
  · rw [if_neg h1]
    by_cases h2 : 1 ≤ m
    · rw [if_pos (by omega), if_neg (by omega), if_pos h2]
      simp
    · rw [if_neg (by omega), if_neg h2]

/-- C18 (whole-second formatting): for all naturals `h`, `m`, `s` with `m < 60`,
`s < 60`, at least one second in total, and a total inside `int64` nanoseconds, the
text of `h` hours, `m` minutes and `s` seconds is `{h}h{m}m{s}s` when `h >= 1`,
`{m}m{s}s` when `h = 0` and `m >= 1`, and `{s}s` when `h = 0` and `m = 0`. -/
theorem whole_second_formatting (h m s : Nat) (hm : m < 60) (hs : s < 60)
    (hpos : 1 ≤ h * 3600 + m * 60 + s)
    (hfit : IsInt64 ((h * Hour + m * Minute + s * Second : Nat) : Int)) :
    MarshalText ((h * Hour + m * Minute + s * Second : Nat) : Int) =
      (if 1 ≤ h then decimal h ++ [104] ++ decimal m ++ [109] ++ decimal s ++ [115]
        else if 1 ≤ m then decimal m ++ [109] ++ decimal s ++ [115]
        else decimal s ++ [115], none) := by
  have hS : Second = 1000000000 := by decide
  have hMin : Minute = 60000000000 := by decide
  have hHour : Hour = 3600000000000 := by decide
  have hT : h * Hour + m * Minute + s * Second = (h * 3600 + m * 60 + s) * 1000000000 := by
    rw [hS, hMin, hHour]; omega
  rw [hT] at hfit ⊢
  unfold MarshalText Duration.String Duration
  rw [format_eq _ hfit, if_neg (by omega), if_neg (by omega), Int.natAbs_ofNat,
    magnitude_whole_seconds h m s hm hs hpos]

theorem whole_second_formatting_witness :
    (30 < 60 ∧ 45 < 60 ∧ 1 ≤ 1 * 3600 + 30 * 60 + 45 ∧
      IsInt64 ((1 * Hour + 30 * Minute + 45 * Second : Nat) : Int)) ∧
    (MarshalText ((1 * Hour + 30 * Minute + 45 * Second : Nat) : Int)
      = ([49, 104, 51, 48, 109, 52, 53, 115], none) ∧
    MarshalText ((0 * Hour + 10 * Minute + 0 * Second : Nat) : Int)
      = ([49, 48, 109, 48, 115], none) ∧
    MarshalText ((2 * Hour + 0 * Minute + 0 * Second : Nat) : Int)
      = ([50, 104, 48, 109, 48, 115], none)) ∧
    (MarshalText ((1 * Hour + 30 * Minute + 45 * Second : Nat) : Int) =
      (if 1 ≤ 1 then decimal 1 ++ [104] ++ decimal 30 ++ [109] ++ decimal 45 ++ [115]
        else if 1 ≤ 30 then decimal 30 ++ [109] ++ decimal 45 ++ [115]
        else decimal 45 ++ [115], none)) :=
  ⟨by decide, by decide,
    whole_second_formatting 1 30 45 (by decide) (by decide) (by decide) (by decide)⟩

/-- The text of a whole number `k` of units, `1 <= k <= 999`, below the second. -/
theorem magnitude_sub_second (k : Nat) (h1 : 1 ≤ k) (h2 : k ≤ 999) :
    magnitude (k * Millisecond) = decimal k ++ [109, 115] ∧
    magnitude (k * Microsecond) = decimal k ++ [194, 181, 115] ∧
    magnitude (k * Nanosecond) = decimal k ++ [110, 115] := by
  have hS : Second = 1000000000 := by decide
  have hMs : Millisecond = 1000000 := by decide
  have hUs : Microsecond = 1000 := by decide
  have hNs : Nanosecond = 1 := by decide
  have hp6 : (10 : Nat) ^ 6 = 1000000 := by norm_num
  have hp3 : (10 : Nat) ^ 3 = 1000 := by norm_num
  refine ⟨?_, ?_, ?_⟩
  · unfold magnitude
    rw [if_pos (by rw [hS, hMs]; omega)]
    simp only [if_neg (show ¬ k * Millisecond < Microsecond by rw [hMs, hUs]; omega),
      if_neg (show ¬ k * Millisecond < Millisecond by rw [hMs]; omega)]
    have hmod : k * Millisecond % 10 ^ 6 = 0 := by
      rw [hp6, hMs]; exact Nat.mul_mod_left _ _
    have hdiv : k * Millisecond / 10 ^ 6 = k := by
      rw [hp6, hMs]; exact Nat.mul_div_cancel _ (by omega)
    rw [fmtFrac_exact _ _ _ hmod, hdiv, fmtInt_decimal]
  · unfold magnitude
    rw [if_pos (by rw [hS, hUs]; omega)]
    simp only [if_neg (show ¬ k * Microsecond < Microsecond by rw [hUs]; omega),
      if_pos (show k * Microsecond < Millisecond by rw [hMs, hUs]; omega)]
    have hmod : k * Microsecond % 10 ^ 3 = 0 := by
      rw [hp3, hUs]; exact Nat.mul_mod_left _ _
    have hdiv : k * Microsecond / 10 ^ 3 = k := by
      rw [hp3, hUs]; exact Nat.mul_div_cancel _ (by omega)
    rw [fmtFrac_exact _ _ _ hmod, hdiv, fmtInt_decimal]
  · unfold magnitude
    rw [if_pos (by rw [hS, hNs]; omega)]
    simp only [if_pos (show k * Nanosecond < Microsecond by rw [hNs, hUs]; omega)]
    have hmod : k * Nanosecond % 10 ^ 0 = 0 := by rw [pow_zero]; exact Nat.mod_one _
    have hdiv : k * Nanosecond / 10 ^ 0 = k := by rw [hNs]; simp
    rw [fmtFrac_exact _ _ _ hmod, hdiv, fmtInt_decimal]

theorem sub_second_round_trip (d0 : SDuration) (u : Nat) (text : Bytes) (h1 : 1 ≤ u)
    (h2 : u ≤ 999000000) (ht : magnitude u = text) :
    MarshalText ((u : Nat) : Int) = (text, none) ∧
    UnmarshalText d0 text = (none, ((u : Nat) : Int)) := by
  have hfit : IsInt64 ((u : Nat) : Int) := ⟨by omega, by omega⟩
  have hf : format ((u : Nat) : Int) = text := by
    rw [format_eq _ hfit, if_neg (by omega), if_neg (by omega), Int.natAbs_ofNat, ht]
  constructor
  · unfold MarshalText Duration.String Duration
    rw [hf]
  · unfold UnmarshalText
    rw [← hf, ParseDuration_format _ hfit]

/-- C19 (sub-second units are preserved): for every integer `k` with
`1 <= k <= 999`, the text of `k` milliseconds is `{k}ms`, the text of `k` microseconds
is `{k}µs` and the text of `k` nanoseconds is `{k}ns`, and `UnmarshalText` of each of
these texts returns no error and sets the receiver to the same duration. -/
theorem sub_second_units (d0 : SDuration) (k : Nat) (h1 : 1 ≤ k) (h2 : k ≤ 999) :
    (MarshalText ((k * Millisecond : Nat) : Int) = (decimal k ++ [109, 115], none) ∧
      UnmarshalText d0 (decimal k ++ [109, 115]) = (none, ((k * Millisecond : Nat) : Int))) ∧
    (MarshalText ((k * Microsecond : Nat) : Int) = (decimal k ++ [194, 181, 115], none) ∧
      UnmarshalText d0 (decimal k ++ [194, 181, 115])
        = (none, ((k * Microsecond : Nat) : Int))) ∧
    (MarshalText ((k * Nanosecond : Nat) : Int) = (decimal k ++ [110, 115], none) ∧
      UnmarshalText d0 (decimal k ++ [110, 115]) = (none, ((k * Nanosecond : Nat) : Int))) := by
  have hMs : Millisecond = 1000000 := by decide
  have hUs : Microsecond = 1000 := by decide
  have hNs : Nanosecond = 1 := by decide
  obtain ⟨m1, m2, m3⟩ := magnitude_sub_second k h1 h2
  exact ⟨sub_second_round_trip d0 _ _ (by rw [hMs]; omega) (by rw [hMs]; omega) m1,
    sub_second_round_trip d0 _ _ (by rw [hUs]; omega) (by rw [hUs]; omega) m2,
    sub_second_round_trip d0 _ _ (by rw [hNs]; omega) (by rw [hNs]; omega) m3⟩

theorem sub_second_units_witness :
    (1 ≤ 250 ∧ 250 ≤ 999) ∧
    (decimal 250 ++ [109, 115] = [50, 53, 48, 109, 115] ∧
      decimal 250 ++ [194, 181, 115] = [50, 53, 48, 194, 181, 115] ∧
      decimal 250 ++ [110, 115] = [50, 53, 48, 110, 115]) ∧
    ((MarshalText ((250 * Millisecond : Nat) : Int) = (decimal 250 ++ [109, 115], none) ∧
      UnmarshalText 7 (decimal 250 ++ [109, 115])
        = (none, ((250 * Millisecond : Nat) : Int))) ∧
    (MarshalText ((250 * Microsecond : Nat) : Int) = (decimal 250 ++ [194, 181, 115], none) ∧
      UnmarshalText 7 (decimal 250 ++ [194, 181, 115])
        = (none, ((250 * Microsecond : Nat) : Int))) ∧
    (MarshalText ((250 * Nanosecond : Nat) : Int) = (decimal 250 ++ [110, 115], none) ∧
      UnmarshalText 7 (decimal 250 ++ [110, 115])
        = (none, ((250 * Nanosecond : Nat) : Int)))) :=
  ⟨by decide, by decide, sub_second_units 7 250 (by decide) (by decide)⟩

/-! ## The conversion of a float64 to `int64` -/

theorem F64.toRat_numDen (m : Nat) (e : Int) :
    (m : ℚ) * (2 : ℚ) ^ e = ((F64.numDen m e).1 : ℚ) / ((F64.numDen m e).2 : ℚ) := by
  unfold F64.numDen
  rcases le_or_lt 0 e with he | he
  · obtain ⟨k, rfl⟩ := Int.eq_ofNat_of_zero_le he
    have h1 : ((k : ℕ) : ℤ).toNat = k := Int.toNat_natCast k
    have h2 : (-((k : ℕ) : ℤ)).toNat = 0 := by omega
    simp only [h1, h2, pow_zero, Nat.cast_one, div_one, Nat.cast_mul, Nat.cast_pow,
      Nat.cast_ofNat, zpow_natCast]
  · obtain ⟨k, rfl⟩ := Int.exists_eq_neg_ofNat (le_of_lt he)
    have h1 : (-((k : ℕ) : ℤ)).toNat = 0 := by omega
    have h2 : (-(-((k : ℕ) : ℤ))).toNat = k := by omega
    simp only [h1, h2, pow_zero, Nat.mul_one, Nat.cast_pow, Nat.cast_ofNat, zpow_neg,
      zpow_natCast, div_eq_mul_inv]

theorem F64.abs_toRat (neg : Bool) (m : Nat) (e : Int) :
    |F64.toRat (F64.fin neg m e)| = ((F64.numDen m e).1 : ℚ) / ((F64.numDen m e).2 : ℚ) := by
  have hnn : (0 : ℚ) ≤ (m : ℚ) * (2 : ℚ) ^ e := by positivity
  unfold F64.toRat
  cases neg
  · simp only [Bool.false_eq_true, if_false, one_mul, abs_of_nonneg hnn]
    exact F64.toRat_numDen m e
  · simp only [if_true, neg_mul, one_mul, abs_neg, abs_of_nonneg hnn]
    exact F64.toRat_numDen m e

/-- The bound `|f| < 2^63` on a finite float, without division. -/
theorem F64.abs_toRat_lt (neg : Bool) (m : Nat) (e : Int) :
    |F64.toRat (F64.fin neg m e)| < 2 ^ 63 ↔
      (F64.numDen m e).1 < 2 ^ 63 * (F64.numDen m e).2 := by
  have hpos : (0 : ℚ) < ((F64.numDen m e).2 : ℚ) := by
    exact_mod_cast F64.numDen_snd_pos m e
  rw [F64.abs_toRat, div_lt_iff₀ hpos]
  constructor
  · intro h; exact_mod_cast h
  · intro h; exact_mod_cast h

theorem F64.floor_abs_toRat (neg : Bool) (m : Nat) (e : Int) :
    ⌊|F64.toRat (F64.fin neg m e)|⌋ = (((F64.numDen m e).1 / (F64.numDen m e).2 : Nat) : Int) := by
  rw [F64.abs_toRat, Rat.floor_natCast_div_natCast]
  norm_cast

/-- The conversion of a finite float below `2^63` in absolute value to `int64` is the
truncation toward zero of its exact value. -/
theorem F64.toInt64_truncate (neg : Bool) (m : Nat) (e : Int)
    (h : |F64.toRat (F64.fin neg m e)| < 2 ^ 63) :
    F64.toInt64 (F64.fin neg m e) = truncate (F64.toRat (F64.fin neg m e)) := by
  have hfl := F64.floor_abs_toRat neg m e
  have hlt : ⌊|F64.toRat (F64.fin neg m e)|⌋ < 2 ^ 63 := by
    rw [Int.floor_lt]; exact_mod_cast h
  have hnn : (0 : ℚ) ≤ (m : ℚ) * (2 : ℚ) ^ e := by positivity
  generalize hq : (m : ℚ) * (2 : ℚ) ^ e = q at hnn
  have habs : |F64.toRat (F64.fin neg m e)| = q := by
    simp only [F64.toRat, hq]
    cases neg
    · simp only [Bool.false_eq_true, if_false, one_mul, abs_of_nonneg hnn]
    · simp only [if_true, neg_mul, one_mul, abs_neg, abs_of_nonneg hnn]
  rw [habs] at hfl hlt
  have hfl0 : (0 : Int) ≤ ⌊q⌋ := Int.floor_nonneg.mpr hnn
  generalize ht : ((F64.numDen m e).1 / (F64.numDen m e).2 : Nat) = t at hfl
  unfold F64.toInt64 truncate F64.toRat
  simp only [ht, hq]
  cases neg
  · simp only [Bool.false_eq_true, if_false, one_mul, if_pos hnn]
    rw [if_pos (by omega)]
    exact hfl.symm
  · simp only [if_true, neg_mul, one_mul]
    rw [if_pos (by omega)]
    by_cases h0 : 0 ≤ -q
    · rw [if_pos h0]
      have hq0 : q = 0 := le_antisymm (by linarith) hnn
      subst hq0
      simp only [Int.floor_zero] at hfl
      simp only [neg_zero, Int.floor_zero]
      omega
    · rw [if_neg h0, Int.ceil_neg, hfl]

/-- C12 (`Scan` of a floating-point value truncates): for every finite `float64`
value `f` with `|f| < 2^63` and every prior receiver value, `Scan(f)` returns no error
and sets the receiver to the integer obtained by truncating the exact value of `f`
toward zero. -/
theorem Scan_float64_truncates (d0 : SDuration) (neg : Bool) (m : Nat) (e : Int)
    (h : |F64.toRat (F64.fin neg m e)| < 2 ^ 63) :
    Scan d0 (GoValue.float64 (F64.fin neg m e))
      = (none, truncate (F64.toRat (F64.fin neg m e))) := by
  unfold Scan
  simp only []
  rw [F64.toInt64_truncate neg m e h]

theorem Scan_float64_truncates_witness :
    (|F64.toRat (F64.fin false 8556839292003942 (-52))| < 2 ^ 63 ∧
      Scan 7 (GoValue.float64 (F64.fin false 8556839292003942 (-52)))
        = (none, truncate (F64.toRat (F64.fin false 8556839292003942 (-52)))) ∧
      Scan 7 (GoValue.float64 (F64.fin false 8556839292003942 (-52))) = (none, 1)) ∧
    (|F64.toRat (F64.fin true 8556839292003942 (-52))| < 2 ^ 63 ∧
      Scan 7 (GoValue.float64 (F64.fin true 8556839292003942 (-52)))
        = (none, truncate (F64.toRat (F64.fin true 8556839292003942 (-52)))) ∧
      Scan 7 (GoValue.float64 (F64.fin true 8556839292003942 (-52))) = (none, -1)) ∧
    (|F64.toRat (F64.ofNat 5000000000)| < 2 ^ 63 ∧
      Scan 7 (GoValue.float64 (F64.ofNat 5000000000)) = (none, 5 * (Second : Int))) :=
  ⟨⟨(F64.abs_toRat_lt false 8556839292003942 (-52)).mpr (by decide),
    Scan_float64_truncates 7 false 8556839292003942 (-52)
      ((F64.abs_toRat_lt false 8556839292003942 (-52)).mpr (by decide)), by decide⟩,
   ⟨(F64.abs_toRat_lt true 8556839292003942 (-52)).mpr (by decide),
    Scan_float64_truncates 7 true 8556839292003942 (-52)
      ((F64.abs_toRat_lt true 8556839292003942 (-52)).mpr (by decide)), by decide⟩,
   ⟨by
      rw [show F64.ofNat 5000000000 = F64.fin false 5242880000000000 (-20) by decide]
      exact (F64.abs_toRat_lt false 5242880000000000 (-20)).mpr (by decide),
    by decide⟩⟩

/-! ## Lemmas on UTF-8 -/

theorem EncodeRune_natCast (r : Nat) (h : r < 4294967296) :
    EncodeRune (r : Int) =
      if r ≤ 127 then [r]
      else if r ≤ 2047 then [192 + r / 64, 128 + r % 64]
      else
        let i := if 1114111 < r ∨ (55296 ≤ r ∧ r ≤ 57343) then RuneError else r
        if i ≤ 65535 then [224 + i / 4096, 128 + (i / 64) % 64, 128 + i % 64]
        else [240 + i / 262144, 128 + (i / 4096) % 64, 128 + (i / 64) % 64, 128 + i % 64] := by
  unfold EncodeRune
  have : ((r : Int) % 2 ^ 32).toNat = r := by omega
  simp only [this]

theorem runeAt_two (c : Nat) (rest : Bytes) (hc : 194 ≤ c ∧ c ≤ 223)
    (hf : first c = some (2, 128, 191)) : RuneAt (c :: rest) := by
  cases rest with
  | nil => left; simp [DecodeRune, hf]
  | cons s1 rest1 =>
    by_cases h1 : s1 < 128 ∨ 191 < s1
    · left; simp [DecodeRune, hf, h1]
    · right
      refine ⟨[c, s1], rest1, (c % 32) * 64 + s1 % 64, rfl, by simp, by simp, ?_, ?_, ?_⟩
      · intro x hx
        simp only [List.mem_cons, List.mem_singleton, List.not_mem_nil, or_false] at hx
        rcases hx with rfl | rfl <;> omega
      · intro tail1
        simp [DecodeRune, hf, h1]
      · rw [EncodeRune_natCast _ (by omega), if_neg (by omega), if_pos (by omega)]
        congr 1
        · omega
        · congr 1; omega

theorem runeAt_three (c lo hi : Nat) (rest : Bytes) (hc : 224 ≤ c ∧ c ≤ 239)
    (hf : first c = some (3, lo, hi)) (hlo : 128 ≤ lo) (hhi : hi ≤ 191)
    (h224 : c = 224 → 160 ≤ lo) (h237 : c = 237 → hi ≤ 159) : RuneAt (c :: rest) := by
  cases rest with
  | nil => left; simp [DecodeRune, hf]
  | cons s1 rest1 =>
    cases rest1 with
    | nil => left; simp [DecodeRune, hf]
    | cons s2 rest2 =>
      by_cases h1 : s1 < lo ∨ hi < s1
      · left; simp [DecodeRune, hf, h1]
      · by_cases h2 : s2 < 128 ∨ 191 < s2
        · left; simp [DecodeRune, hf, h1, h2]
        · right
          refine ⟨[c, s1, s2], rest2, (c % 16) * 4096 + (s1 % 64) * 64 + s2 % 64, rfl,
            by simp, by simp, ?_, ?_, ?_⟩
          · intro x hx
            simp only [List.mem_cons, List.mem_singleton, List.not_mem_nil, or_false] at hx
            rcases hx with rfl | rfl | rfl <;> omega
          · intro tail1
            simp [DecodeRune, hf, h1, h2]
          · have h224' := h224
            have h237' := h237
            have hr1 : ¬ ((c % 16) * 4096 + (s1 % 64) * 64 + s2 % 64 ≤ 127) := by omega
            have hr2 : ¬ ((c % 16) * 4096 + (s1 % 64) * 64 + s2 % 64 ≤ 2047) := by omega
            have hr3 : ¬ (1114111 < (c % 16) * 4096 + (s1 % 64) * 64 + s2 % 64 ∨
                (55296 ≤ (c % 16) * 4096 + (s1 % 64) * 64 + s2 % 64 ∧
                  (c % 16) * 4096 + (s1 % 64) * 64 + s2 % 64 ≤ 57343)) := by omega
            rw [EncodeRune_natCast _ (by omega), if_neg hr1, if_neg hr2]
            simp only [if_neg hr3]
            rw [if_pos (by omega)]
            congr 1
            · omega
            · congr 1
              · omega
              · congr 1; omega

theorem runeAt_four (c lo hi : Nat) (rest : Bytes) (hc : 240 ≤ c ∧ c ≤ 244)
    (hf : first c = some (4, lo, hi)) (hlo : 128 ≤ lo) (hhi : hi ≤ 191)
    (h240 : c = 240 → 144 ≤ lo) (h244 : c = 244 → hi ≤ 143) : RuneAt (c :: rest) := by
  cases rest with
  | nil => left; simp [DecodeRune, hf]
  | cons s1 rest1 =>
    cases rest1 with
    | nil => left; simp [DecodeRune, hf]
    | cons s2 rest2 =>
      cases rest2 with
      | nil => left; simp [DecodeRune, hf]
      | cons s3 rest3 =>
        by_cases h1 : s1 < lo ∨ hi < s1
        · left; simp [DecodeRune, hf, h1]
        · by_cases h2 : s2 < 128 ∨ 191 < s2
          · left; simp [DecodeRune, hf, h1, h2]
          · by_cases h3 : s3 < 128 ∨ 191 < s3
            · left; simp [DecodeRune, hf, h1, h2, h3]
            · right
              refine ⟨[c, s1, s2, s3], rest3,
                (c % 8) * 262144 + (s1 % 64) * 4096 + (s2 % 64) * 64 + s3 % 64, rfl,
                by simp, by simp, ?_, ?_, ?_⟩
              · intro x hx
                simp only [List.mem_cons, List.mem_singleton, List.not_mem_nil, or_false] at hx
                rcases hx with rfl | rfl | rfl | rfl <;> omega
              · intro tail1
                simp [DecodeRune, hf, h1, h2, h3]
              · have hr1 : ¬ ((c % 8) * 262144 + (s1 % 64) * 4096 + (s2 % 64) * 64 + s3 % 64
                    ≤ 127) := by omega
                have hr2 : ¬ ((c % 8) * 262144 + (s1 % 64) * 4096 + (s2 % 64) * 64 + s3 % 64
                    ≤ 2047) := by omega
                have hr3 : ¬ (1114111 < (c % 8) * 262144 + (s1 % 64) * 4096 + (s2 % 64) * 64
                      + s3 % 64 ∨
                    (55296 ≤ (c % 8) * 262144 + (s1 % 64) * 4096 + (s2 % 64) * 64 + s3 % 64 ∧
                      (c % 8) * 262144 + (s1 % 64) * 4096 + (s2 % 64) * 64 + s3 % 64
                        ≤ 57343)) := by omega
                rw [EncodeRune_natCast _ (by omega), if_neg hr1, if_neg hr2]
                simp only [if_neg hr3]
                rw [if_neg (by omega)]
                congr 1
                · omega
                · congr 1
                  · omega
                  · congr 1
                    · omega
                    · congr 1; omega

/-- The outcome of `DecodeRune` at every byte that is not ASCII. -/
theorem runeAt (c : Nat) (rest : Bytes) (hc : 128 ≤ c) : RuneAt (c :: rest) := by
  by_cases h1 : c < 194
  · left
    have hf : first c = none := by simp [first, h1]
    simp only [DecodeRune, hf]
    rw [if_neg (by omega)]
  · by_cases h2 : c ≤ 223
    · exact runeAt_two c rest ⟨by omega, h2⟩ (by simp [first, h1, h2])
    · by_cases h3 : c ≤ 239
      · by_cases e224 : c = 224
        · exact runeAt_three c 160 191 rest ⟨by omega, h3⟩ (by subst e224; decide) (by omega)
            (by omega) (by omega) (by omega)
        · by_cases e237 : c = 237
          · exact runeAt_three c 128 159 rest ⟨by omega, h3⟩ (by subst e237; decide) (by omega)
              (by omega) (by omega) (by omega)
          · have hf : first c = some (3, 128, 191) := by
              unfold first
              rw [if_neg h1, if_neg h2, if_neg e224]
              by_cases h236 : c ≤ 236
              · rw [if_pos h236]
              · rw [if_neg h236, if_neg e237, if_pos h3]
            exact runeAt_three c 128 191 rest ⟨by omega, h3⟩ hf (by omega) (by omega)
              (by omega) (by omega)
      · by_cases h4 : c ≤ 244
        · by_cases e240 : c = 240
          · exact runeAt_four c 144 191 rest ⟨by omega, h4⟩ (by subst e240; decide) (by omega)
              (by omega) (by omega) (by omega)
          · by_cases e244 : c = 244
            · exact runeAt_four c 128 143 rest ⟨by omega, h4⟩ (by subst e244; decide)
                (by omega) (by omega) (by omega) (by omega)
            · have hf : first c = some (4, 128, 191) := by
                unfold first
                rw [if_neg h1, if_neg h2, if_neg (by omega), if_neg (by omega),
                  if_neg (by omega), if_neg h3, if_neg e240, if_pos (by omega)]
              exact runeAt_four c 128 191 rest ⟨by omega, h4⟩ hf (by omega) (by omega)
                (by omega) (by omega)
        · left
          have hf : first c = none := by
            unfold first
            rw [if_neg h1, if_neg h2, if_neg (by omega), if_neg (by omega), if_neg (by omega),
              if_neg h3, if_neg (by omega), if_neg (by omega), if_neg (by omega)]
          simp only [DecodeRune, hf]
          rw [if_neg (by omega)]

theorem first_size (c sz lo hi : Nat) (h : first c = some (sz, lo, hi)) : 2 ≤ sz ∧ sz ≤ 4 := by
  unfold first at h
  split_ifs at h <;> simp only [Option.some.injEq, Prod.mk.injEq] at h <;> omega

theorem DecodeRune_take (s : Bytes) : DecodeRune (s.take 4) = DecodeRune s := by
  match s with
  | [] => rfl
  | [_] => rfl
  | [_, _] => rfl
  | [_, _, _] => rfl
  | [_, _, _, _] => rfl
  | s0 :: s1 :: s2 :: s3 :: s4 :: rest =>
    simp only [List.take_succ_cons, List.take_zero, DecodeRune]
    cases hf : first s0 with
    | none => rfl
    | some v =>
      obtain ⟨sz, lo, hi⟩ := v
      have := first_size s0 sz lo hi hf
      have ha : ¬ ([s0, s1, s2, s3].length < sz) := by simp; omega
      have hb : ¬ ((s0 :: s1 :: s2 :: s3 :: s4 :: rest).length < sz) := by simp; omega
      simp only [if_neg ha, if_neg hb]

theorem EncodeRune_RuneError : EncodeRune (RuneError : Nat) = [239, 191, 189] := by decide

theorem EncodeRune_ascii (c : Nat) (h : c < 128) : EncodeRune (c : Int) = [c] := by
  rw [EncodeRune_natCast c (by omega), if_pos (by omega)]

theorem hexVal_hex (n : Nat) (h : n < 16) : hexVal (hex n) = some n := by
  unfold hex hexVal
  by_cases h1 : n < 10
  · rw [if_pos h1, if_pos (by omega)]; congr 1; omega
  · rw [if_neg h1, if_neg (by omega), if_pos (by omega)]; congr 1; omega

theorem EncodeRune_replacement : EncodeRune 65533 = [239, 191, 189] := by decide

theorem hex4_some (a b c d v : Nat) (h : hex4 a b c d = some v) :
    ∃ x y z w, hexVal a = some x ∧ hexVal b = some y ∧ hexVal c = some z ∧
      hexVal d = some w ∧ v = ((x * 16 + y) * 16 + z) * 16 + w := by
  unfold hex4 at h
  cases ha : hexVal a <;> cases hb : hexVal b <;> cases hc : hexVal c <;>
    cases hd : hexVal d <;> simp only [ha, hb, hc, hd] at h <;>
    first
    | exact ⟨_, _, _, _, rfl, rfl, rfl, rfl, (Option.some.inj h).symm⟩
    | exact absurd h (by simp)

theorem hex4_hex (a b c d x y z w : Nat) (ha : hexVal a = some x) (hb : hexVal b = some y)
    (hc : hexVal c = some z) (hd : hexVal d = some w) :
    hex4 a b c d = some (((x * 16 + y) * 16 + z) * 16 + w) := by
  simp only [hex4, ha, hb, hc, hd]

theorem getu4_hex4 (a b c d v : Nat) (rest : Bytes) (h : hex4 a b c d = some v) :
    getu4 (92 :: 117 :: a :: b :: c :: d :: rest) = (v : Int) := by
  obtain ⟨x, y, z, w, ha, hb, hc, hd, rfl⟩ := hex4_some a b c d v h
  simp only [getu4, ha, hb, hc, hd]

theorem getu4_cases (s : Bytes) :
    getu4 s = -1 ∨
    ∃ a b c d v rest, s = 92 :: 117 :: a :: b :: c :: d :: rest ∧ hex4 a b c d = some v ∧
      getu4 s = (v : Int) := by
  unfold getu4
  split
  · rename_i a b c d rest
    cases h4 : hex4 a b c d with
    | none =>
      left
      unfold hex4 at h4
      cases ha : hexVal a <;> cases hb : hexVal b <;> cases hc : hexVal c <;>
        cases hd : hexVal d <;> simp only [ha, hb, hc, hd] at h4 <;>
        first
        | rfl
        | exact absurd h4 (by simp)
    | some v =>
      right
      obtain ⟨x, y, z, w, ha, hb, hc, hd, rfl⟩ := hex4_some a b c d v h4
      exact ⟨a, b, c, d, _, rest, rfl, h4, by simp only [ha, hb, hc, hd]⟩
  · left; rfl

theorem unquoteLoop_step (fuel c : Nat) (rest : Bytes) :
    unquoteLoop (fuel + 1) (c :: rest) =
    if c = 92 then
      match rest with
      | [] => none
      | e :: rest1 =>
        if e = 34 ∨ e = 92 ∨ e = 47 ∨ e = 39 then (unquoteLoop fuel rest1).map (e :: ·)
        else if e = 98 then (unquoteLoop fuel rest1).map (8 :: ·)
        else if e = 102 then (unquoteLoop fuel rest1).map (12 :: ·)
        else if e = 110 then (unquoteLoop fuel rest1).map (10 :: ·)
        else if e = 114 then (unquoteLoop fuel rest1).map (13 :: ·)
        else if e = 116 then (unquoteLoop fuel rest1).map (9 :: ·)
        else if e = 117 then
          let rr := getu4 (c :: rest)
          if rr < 0 then none
          else
            let after := (c :: rest).drop 6
            if IsSurrogate rr then
              let dec := utf16DecodeRune rr (getu4 after)
              if dec ≠ 65533 then
                (unquoteLoop fuel (after.drop 6)).map (EncodeRune dec ++ ·)
              else
                (unquoteLoop fuel after).map (EncodeRune 65533 ++ ·)
            else (unquoteLoop fuel after).map (EncodeRune rr ++ ·)
        else none
    else if c = 34 ∨ c < 32 then none
    else if c < 128 then (unquoteLoop fuel rest).map (c :: ·)
    else
      let r := DecodeRune (c :: rest)
      (unquoteLoop fuel ((c :: rest).drop r.2)).map (EncodeRune r.1 ++ ·) := by
  rfl

/-- The second loop of `unquoteBytes` writes the text of a literal body. -/
theorem unquoteLoop_encodes (b t : Bytes) (h : Encodes b t) :
    ∀ fuel, b.length ≤ fuel → unquoteLoop fuel b = some t := by
  induction h with
  | nil => intro fuel _; cases fuel <;> rfl
  | plain c b t hc _ ih =>
    intro fuel hf
    obtain ⟨n, rfl⟩ : ∃ n, fuel = n + 1 := ⟨fuel - 1, by simp at hf; omega⟩
    rw [unquoteLoop_step, if_neg (by omega), if_neg (by omega), if_pos (by omega),
      ih n (by simp at hf; omega)]
    rfl
  | esc e v b t he _ ih =>
    intro fuel hf
    obtain ⟨n, rfl⟩ : ∃ n, fuel = n + 1 := ⟨fuel - 1, by simp at hf; omega⟩
    have hn := ih n (by simp at hf; omega)
    rw [unquoteLoop_step, if_pos rfl]
    simp only []
    rcases he with ⟨rfl, rfl⟩ | ⟨rfl, rfl⟩ | ⟨rfl, rfl⟩ | ⟨rfl, rfl⟩ | ⟨rfl, rfl⟩ | ⟨rfl, rfl⟩ |
      ⟨rfl, rfl⟩ | ⟨rfl, rfl⟩ <;> simp [hn]
  | escU x1 x2 x3 x4 v b t h hs _ ih =>
    intro fuel hf
    obtain ⟨n, rfl⟩ : ∃ n, fuel = n + 1 := ⟨fuel - 1, by simp at hf; omega⟩
    have hn := ih n (by simp at hf; omega)
    rw [unquoteLoop_step, if_pos rfl]
    simp only []
    rw [if_pos trivial, getu4_hex4 x1 x2 x3 x4 v b h, if_neg (by omega)]
    have hsur : IsSurrogate (v : Int) = false := by
      unfold IsSurrogate
      apply decide_eq_false
      omega
    simp only [hsur, List.drop_succ_cons, List.drop_zero, hn]
    rfl
  | escPair x1 x2 x3 x4 y1 y2 y3 y4 v w b t hv hw hhi hlo _ ih =>
    intro fuel hf
    obtain ⟨n, rfl⟩ : ∃ n, fuel = n + 1 := ⟨fuel - 1, by simp at hf; omega⟩
    have hn := ih n (by simp at hf; omega)
    rw [unquoteLoop_step, if_pos rfl]
    simp only []
    rw [if_pos trivial, getu4_hex4 x1 x2 x3 x4 v _ hv, if_neg (by omega)]
    have hsur : IsSurrogate (v : Int) = true := by
      unfold IsSurrogate
      apply decide_eq_true
      omega
    have hdec : utf16DecodeRune (v : Int) (w : Int)
        = (((v - 55296) * 1024 + (w - 56320) + 65536 : Nat) : Int) := by
      unfold utf16DecodeRune
      rw [if_pos (by omega)]
      omega
    have hne : (((v - 55296) * 1024 + (w - 56320) + 65536 : Nat) : Int) ≠ 65533 := by omega
    simp only [hsur, List.drop_succ_cons, List.drop_zero, getu4_hex4 y1 y2 y3 y4 w b hw, hdec,
      if_true]
    rw [if_pos hne, hn]
    rfl
  | escLone x1 x2 x3 x4 v b t h hs hnp _ ih =>
    intro fuel hf
    obtain ⟨n, rfl⟩ : ∃ n, fuel = n + 1 := ⟨fuel - 1, by simp at hf; omega⟩
    have hn := ih n (by simp at hf; omega)
    rw [unquoteLoop_step, if_pos rfl]
    simp only []
    rw [if_pos trivial, getu4_hex4 x1 x2 x3 x4 v b h, if_neg (by omega)]
    have hsur : IsSurrogate (v : Int) = true := by
      unfold IsSurrogate
      apply decide_eq_true
      omega
    have hdec : utf16DecodeRune (v : Int) (getu4 b) = 65533 := by
      unfold utf16DecodeRune
      rw [if_neg]
      rintro ⟨_, a2, a3, a4⟩
      rcases getu4_cases b with hm | ⟨y1, y2, y3, y4, w, rest, hb, hw, hg⟩
      · rw [hm] at a3; omega
      · rw [hg] at a3 a4
        exact hnp (by omega) y1 y2 y3 y4 w rest hb hw ⟨by omega, by omega⟩
    simp only [hsur, List.drop_succ_cons, List.drop_zero, hdec, if_true]
    rw [if_neg (by simp), hn, EncodeRune_replacement]
    rfl
  | rune p r b t hlen hp hd he _ ih =>
    intro fuel hf
    obtain ⟨n, rfl⟩ : ∃ n, fuel = n + 1 := ⟨fuel - 1, by simp at hf; omega⟩
    have hn := ih n (by simp at hf; omega)
    obtain ⟨c, p1, rfl⟩ : ∃ c p1, p = c :: p1 := by
      cases p with
      | nil => simp at hlen
      | cons c p1 => exact ⟨c, p1, rfl⟩
    have hc : 128 ≤ c := hp c (List.mem_cons_self _ _)
    have hd1 := hd b
    simp only [List.cons_append] at hd1 ⊢
    rw [unquoteLoop_step, if_neg (by omega), if_neg (by omega), if_neg (by omega)]
    simp only [hd1]
    have hdrop : List.drop (c :: p1).length (c :: (p1 ++ b)) = b := by
      rw [← List.cons_append, List.drop_left]
    rw [hdrop, hn, he]
    rfl
  | bad c b t hc hd _ ih =>
    intro fuel hf
    obtain ⟨n, rfl⟩ : ∃ n, fuel = n + 1 := ⟨fuel - 1, by simp at hf; omega⟩
    have hn := ih n (by simp at hf; omega)
    rw [unquoteLoop_step, if_neg (by omega), if_neg (by omega), if_neg (by omega)]
    simp only [hd, List.drop_succ_cons, List.drop_zero, hn, EncodeRune_RuneError]
    rfl

/-! ## The body of a JSON string literal -/

theorem unquoteScan_step (fuel c : Nat) (rest : Bytes) :
    unquoteScan (fuel + 1) (c :: rest) =
    if c = 92 ∨ c = 34 ∨ c < 32 then 0
    else if c < 128 then 1 + unquoteScan fuel rest
    else
      let r := DecodeRune (c :: rest)
      if r.1 = RuneError ∧ r.2 = 1 then 0
      else r.2 + unquoteScan fuel ((c :: rest).drop r.2) := by
  rfl

theorem unquoteLoop_nil (fuel : Nat) : unquoteLoop fuel [] = some [] := by
  cases fuel <;> rfl

/-- The two loops of `unquoteBytes` together write the text of a literal body: the
first loop stops at some position of the body and the second one goes on from there. -/
theorem unquote_encodes (b t : Bytes) (h : Encodes b t) :
    ∀ fuel fuel2, b.length ≤ fuel → b.length ≤ fuel2 →
      (unquoteLoop fuel2 (b.drop (unquoteScan fuel b))).map (b.take (unquoteScan fuel b) ++ ·)
        = some t := by
  induction h with
  | nil =>
    intro fuel fuel2 _ _
    cases fuel <;> cases fuel2 <;> rfl
  | plain c b t hc _ ih =>
    intro fuel fuel2 hf hf2
    obtain ⟨n, rfl⟩ : ∃ n, fuel = n + 1 := ⟨fuel - 1, by simp at hf; omega⟩
    have hn := ih n fuel2 (by simp at hf; omega) (by simp at hf2; omega)
    rw [unquoteScan_step, if_neg (by omega), if_pos (by omega), Nat.add_comm 1,
      List.drop_succ_cons, List.take_succ_cons]
    cases hu : unquoteLoop fuel2 (List.drop (unquoteScan n b) b) with
    | none => rw [hu] at hn; simp at hn
    | some t1 =>
      rw [hu] at hn
      simp only [Option.map_some', Option.some.injEq] at hn ⊢
      rw [← hn]; rfl
  | esc e v b t he hb _ =>
    intro fuel fuel2 hf hf2
    obtain ⟨n, rfl⟩ : ∃ n, fuel = n + 1 := ⟨fuel - 1, by simp at hf; omega⟩
    rw [unquoteScan_step, if_pos (Or.inl rfl)]
    simp only [List.drop_zero, List.take_zero, List.nil_append]
    rw [unquoteLoop_encodes _ _ (Encodes.esc e v b t he hb) fuel2 hf2]
    rfl
  | escU x1 x2 x3 x4 v b t h hs hb _ =>
    intro fuel fuel2 hf hf2
    obtain ⟨n, rfl⟩ : ∃ n, fuel = n + 1 := ⟨fuel - 1, by simp at hf; omega⟩
    rw [unquoteScan_step, if_pos (Or.inl rfl)]
    simp only [List.drop_zero, List.take_zero, List.nil_append]
    rw [unquoteLoop_encodes _ _ (Encodes.escU x1 x2 x3 x4 v b t h hs hb) fuel2 hf2]
    rfl
  | escPair x1 x2 x3 x4 y1 y2 y3 y4 v w b t hv hw hhi hlo hb _ =>
    intro fuel fuel2 hf hf2
    obtain ⟨n, rfl⟩ : ∃ n, fuel = n + 1 := ⟨fuel - 1, by simp at hf; omega⟩
    rw [unquoteScan_step, if_pos (Or.inl rfl)]
    simp only [List.drop_zero, List.take_zero, List.nil_append]
    rw [unquoteLoop_encodes _ _
      (Encodes.escPair x1 x2 x3 x4 y1 y2 y3 y4 v w b t hv hw hhi hlo hb) fuel2 hf2]
    rfl
  | escLone x1 x2 x3 x4 v b t h hs hnp hb _ =>
    intro fuel fuel2 hf hf2
    obtain ⟨n, rfl⟩ : ∃ n, fuel = n + 1 := ⟨fuel - 1, by simp at hf; omega⟩
    rw [unquoteScan_step, if_pos (Or.inl rfl)]
    simp only [List.drop_zero, List.take_zero, List.nil_append]
    rw [unquoteLoop_encodes _ _ (Encodes.escLone x1 x2 x3 x4 v b t h hs hnp hb) fuel2 hf2]
    rfl
  | rune p r b t hlen hp hd he _ ih =>
    intro fuel fuel2 hf hf2
    obtain ⟨n, rfl⟩ : ∃ n, fuel = n + 1 := ⟨fuel - 1, by simp at hf; omega⟩
    have hn := ih n fuel2 (by simp at hf; omega) (by simp at hf2; omega)
    obtain ⟨c, p1, rfl⟩ : ∃ c p1, p = c :: p1 := by
      cases p with
      | nil => simp at hlen
      | cons c p1 => exact ⟨c, p1, rfl⟩
    have hc : 128 ≤ c := hp c (List.mem_cons_self _ _)
    have hd1 := hd b
    have hdrop : List.drop (c :: p1).length (c :: (p1 ++ b)) = b := by
      rw [← List.cons_append, List.drop_left]
    have hscan : unquoteScan (n + 1) (c :: (p1 ++ b)) = (c :: p1).length + unquoteScan n b := by
      rw [unquoteScan_step, if_neg (by omega), if_neg (by omega)]
      simp only [List.cons_append] at hd1
      simp only [hd1]
      rw [if_neg (by simp only [List.length_cons] at hlen ⊢; omega), hdrop]
    simp only [List.cons_append] at hscan ⊢
    rw [hscan, ← List.cons_append, List.drop_append, List.take_append]
    cases hu : unquoteLoop fuel2 (List.drop (unquoteScan n b) b) with
    | none => rw [hu] at hn; simp at hn
    | some t1 =>
      rw [hu] at hn
      simp only [Option.map_some', Option.some.injEq] at hn ⊢
      rw [← hn, List.append_assoc]
      rfl
  | bad c b t hc hd hb _ =>
    intro fuel fuel2 hf hf2
    obtain ⟨n, rfl⟩ : ∃ n, fuel = n + 1 := ⟨fuel - 1, by simp at hf; omega⟩
    rw [unquoteScan_step, if_neg (by omega), if_neg (by omega)]
    simp only [hd]
    rw [if_pos ⟨trivial, trivial⟩]
    simp only [List.drop_zero, List.take_zero, List.nil_append]
    rw [unquoteLoop_encodes _ _ (Encodes.bad c b t hc hd hb) fuel2 hf2]
    rfl

/-- Function `unquoteBytes` returns the text of a literal body between two double
quotes. -/
theorem unquoteBytes_encodes (b t : Bytes) (h : Encodes b t) :
    unquoteBytes (34 :: (b ++ [34])) = some t := by
  unfold unquoteBytes
  have h1 : ¬ ((34 :: (b ++ [34])).length < 2 ∨ (34 :: (b ++ [34])).head? ≠ some 34
      ∨ (34 :: (b ++ [34])).getLast? ≠ some 34) := by
    simp [List.getLast?_cons_cons]
    rw [← List.cons_append, List.getLast?_append]
    simp
  rw [if_neg h1]
  have h2 : List.take ((34 :: (b ++ [34])).length - 2) (List.drop 1 (34 :: (b ++ [34]))) = b := by
    simp
  simp only [h2]
  have hu := unquote_encodes b t h b.length b.length (le_refl _) (le_refl _)
  by_cases hr : unquoteScan b.length b = b.length
  · rw [if_pos hr]
    rw [hr] at hu
    simp only [List.drop_length, List.take_length] at hu
    rw [unquoteLoop_nil] at hu
    simpa using hu
  · rw [if_neg hr]
    exact hu

theorem checkValidLoop_step (st st1 : Scanner) (op : Op) (c : Nat) (rest : Bytes)
    (h : Scanner.doStep { st with bytes := st.bytes + 1 } c = (st1, op))
    (hop : op ≠ Op.scanError) : checkValidLoop st (c :: rest) = checkValidLoop st1 rest := by
  rw [checkValidLoop]
  simp only [h]
  rw [if_neg hop]

theorem checkValidLoop_strByte (c : Nat) (rest : Bytes) (n : Nat) (h : StrByte c) :
    checkValidLoop ⟨Step.stateInString, false, [], none, n⟩ (c :: rest)
      = checkValidLoop ⟨Step.stateInString, false, [], none, n + 1⟩ rest := by
  obtain ⟨c1, c2, c3⟩ := h
  apply checkValidLoop_step _ _ Op.scanContinue
  · simp only [Scanner.doStep]
    rw [if_neg c2, if_neg c3, if_neg (by omega)]
  · decide

theorem checkValidLoop_strBytes (p : Bytes) : ∀ (rest : Bytes) (n : Nat),
    (∀ c ∈ p, StrByte c) →
    checkValidLoop ⟨Step.stateInString, false, [], none, n⟩ (p ++ rest)
      = checkValidLoop ⟨Step.stateInString, false, [], none, n + p.length⟩ rest := by
  induction p with
  | nil => intro rest n _; rfl
  | cons c p ih =>
    intro rest n h
    rw [List.cons_append, checkValidLoop_strByte c _ n (h c (List.mem_cons_self _ _)),
      ih rest (n + 1) (fun x hx => h x (List.mem_cons_of_mem _ hx))]
    simp only [List.length_cons]
    rw [show n + 1 + p.length = n + (p.length + 1) by omega]

theorem checkValidLoop_esc (e : Nat) (rest : Bytes) (n : Nat)
    (h : e = 98 ∨ e = 102 ∨ e = 110 ∨ e = 114 ∨ e = 116 ∨ e = 92 ∨ e = 47 ∨ e = 34) :
    checkValidLoop ⟨Step.stateInString, false, [], none, n⟩ (92 :: e :: rest)
      = checkValidLoop ⟨Step.stateInString, false, [], none, n + 2⟩ rest := by
  rw [checkValidLoop_step ⟨Step.stateInString, false, [], none, n⟩
    ⟨Step.stateInStringEsc, false, [], none, n + 1⟩ Op.scanContinue 92 _ rfl (by decide)]
  apply checkValidLoop_step _ _ Op.scanContinue
  · simp only [Scanner.doStep]
    rw [if_pos h]
    rfl
  · decide

theorem isHexDigit_of_hexVal (x v : Nat) (h : hexVal x = some v) : isHexDigit x = true := by
  unfold hexVal at h
  unfold isHexDigit
  apply decide_eq_true
  split_ifs at h with h1 h2 h3
  · exact Or.inl h1
  · exact Or.inr (Or.inl h2)
  · exact Or.inr (Or.inr h3)

theorem checkValidLoop_hex (x : Nat) (rest : Bytes) (n : Nat) (st next : Step)
    (hx : isHexDigit x = true)
    (hst : ∀ s : Scanner, s.step = st → Scanner.doStep s x = stateHex s x next) :
    checkValidLoop ⟨st, false, [], none, n⟩ (x :: rest)
      = checkValidLoop ⟨next, false, [], none, n + 1⟩ rest := by
  apply checkValidLoop_step _ _ Op.scanContinue
  · rw [hst _ rfl]
    unfold stateHex
    rw [if_pos hx]
    rfl
  · decide

theorem checkValidLoop_escU (x1 x2 x3 x4 v : Nat) (rest : Bytes) (n : Nat)
    (h : hex4 x1 x2 x3 x4 = some v) :
    checkValidLoop ⟨Step.stateInString, false, [], none, n⟩
        (92 :: 117 :: x1 :: x2 :: x3 :: x4 :: rest)
      = checkValidLoop ⟨Step.stateInString, false, [], none, n + 6⟩ rest := by
  obtain ⟨_, _, _, _, e1, e2, e3, e4, _⟩ := hex4_some x1 x2 x3 x4 v h
  have h1 := isHexDigit_of_hexVal _ _ e1
  have h2 := isHexDigit_of_hexVal _ _ e2
  have h3 := isHexDigit_of_hexVal _ _ e3
  have h4 := isHexDigit_of_hexVal _ _ e4
  rw [checkValidLoop_step ⟨Step.stateInString, false, [], none, n⟩
    ⟨Step.stateInStringEsc, false, [], none, n + 1⟩ Op.scanContinue 92 _ rfl (by decide)]
  rw [checkValidLoop_step ⟨Step.stateInStringEsc, false, [], none, n + 1⟩
    ⟨Step.stateInStringEscU, false, [], none, n + 2⟩ Op.scanContinue 117 _ rfl (by decide)]
  rw [checkValidLoop_hex x1 _ _ Step.stateInStringEscU Step.stateInStringEscU1 h1
      (fun s hs => by simp only [Scanner.doStep, hs]),
    checkValidLoop_hex x2 _ _ Step.stateInStringEscU1 Step.stateInStringEscU12 h2
      (fun s hs => by simp only [Scanner.doStep, hs]),
    checkValidLoop_hex x3 _ _ Step.stateInStringEscU12 Step.stateInStringEscU123 h3
      (fun s hs => by simp only [Scanner.doStep, hs]),
    checkValidLoop_hex x4 _ _ Step.stateInStringEscU123 Step.stateInString h4
      (fun s hs => by simp only [Scanner.doStep, hs])]

/-- The scanner reads a literal body and is still inside the string after it. -/
theorem checkValidLoop_encodes (b t : Bytes) (h : Encodes b t) :
    ∀ (rest : Bytes) (n : Nat),
    checkValidLoop ⟨Step.stateInString, false, [], none, n⟩ (b ++ rest)
      = checkValidLoop ⟨Step.stateInString, false, [], none, n + b.length⟩ rest := by
  induction h with
  | nil => intro rest n; rfl
  | plain c b t hc _ ih =>
    intro rest n
    rw [List.cons_append, checkValidLoop_strByte c _ n ⟨by omega, by omega, by omega⟩, ih]
    simp only [List.length_cons]
    rw [show n + 1 + b.length = n + (b.length + 1) by omega]
  | esc e v b t he _ ih =>
    intro rest n
    have he1 : e = 98 ∨ e = 102 ∨ e = 110 ∨ e = 114 ∨ e = 116 ∨ e = 92 ∨ e = 47 ∨ e = 34 := by
      omega
    rw [List.cons_append, List.cons_append, checkValidLoop_esc e _ n he1, ih]
    simp only [List.length_cons]
    rw [show n + 2 + b.length = n + (b.length + 1 + 1) by omega]
  | escU x1 x2 x3 x4 v b t h _ _ ih =>
    intro rest n
    simp only [List.cons_append]
    rw [checkValidLoop_escU x1 x2 x3 x4 v _ n h, ih]
    simp only [List.length_cons]
    rw [show n + 6 + b.length = n + (b.length + 1 + 1 + 1 + 1 + 1 + 1) by omega]
  | escPair x1 x2 x3 x4 y1 y2 y3 y4 v w b t hv hw _ _ _ ih =>
    intro rest n
    simp only [List.cons_append]
    rw [checkValidLoop_escU x1 x2 x3 x4 v _ n hv, checkValidLoop_escU y1 y2 y3 y4 w _ _ hw, ih]
    simp only [List.length_cons]
    rw [show n + 6 + 6 + b.length
      = n + (b.length + 1 + 1 + 1 + 1 + 1 + 1 + 1 + 1 + 1 + 1 + 1 + 1) by omega]
  | escLone x1 x2 x3 x4 v b t h _ _ _ ih =>
    intro rest n
    simp only [List.cons_append]
    rw [checkValidLoop_escU x1 x2 x3 x4 v _ n h, ih]
    simp only [List.length_cons]
    rw [show n + 6 + b.length = n + (b.length + 1 + 1 + 1 + 1 + 1 + 1) by omega]
  | rune p r b t _ hp _ _ _ ih =>
    intro rest n
    rw [List.append_assoc, checkValidLoop_strBytes p _ n
      (fun c hc => ⟨by have := hp c hc; omega, by have := hp c hc; omega,
        by have := hp c hc; omega⟩), ih]
    simp only [List.length_append]
    rw [show n + p.length + b.length = n + (p.length + b.length) by omega]
  | bad c b t hc _ _ ih =>
    intro rest n
    rw [List.cons_append, checkValidLoop_strByte c _ n ⟨by omega, by omega, by omega⟩, ih]
    simp only [List.length_cons]
    rw [show n + 1 + b.length = n + (b.length + 1) by omega]

theorem checkValidLoop_close (n : Nat) :
    checkValidLoop ⟨Step.stateInString, false, [], none, n⟩ [34] = .ok () := by
  rfl

/-- The scanner accepts a literal body between two double quotes. -/
theorem checkValid_encodes (b t : Bytes) (h : Encodes b t) :
    checkValid (34 :: (b ++ [34])) = .ok () := by
  unfold checkValid
  rw [checkValidLoop_step Scanner.reset ⟨Step.stateInString, false, [], none, 1⟩
    Op.scanBeginLiteral 34 _ (by decide) (by decide), checkValidLoop_encodes b t h]
  exact checkValidLoop_close _

theorem stringLitLen_quote (rest : Bytes) : stringLitLen (34 :: rest) = 1 := by
  rfl

theorem stringLitLen_esc (e : Nat) (rest : Bytes) :
    stringLitLen (92 :: e :: rest) = 2 + stringLitLen rest := by
  conv_lhs => unfold stringLitLen

theorem stringLitLen_strByte (c : Nat) (rest : Bytes) (h : StrByte c) :
    stringLitLen (c :: rest) = 1 + stringLitLen rest := by
  obtain ⟨_, c2, c3⟩ := h
  conv_lhs => unfold stringLitLen
  split
  · rename_i heq; simp at heq
  · rename_i heq; simp only [List.cons.injEq] at heq; omega
  · rename_i heq; simp only [List.cons.injEq] at heq; omega
  · rename_i heq
    simp only [List.cons.injEq] at heq
    obtain ⟨rfl, rfl⟩ := heq
    rw [if_neg c2]

theorem stringLitLen_escU (x1 x2 x3 x4 v : Nat) (rest : Bytes)
    (h : hex4 x1 x2 x3 x4 = some v) :
    stringLitLen (92 :: 117 :: x1 :: x2 :: x3 :: x4 :: rest) = 6 + stringLitLen rest := by
  have hx (x v : Nat) (hv : hexVal x = some v) : StrByte x := by
    have := of_decide_eq_true (isHexDigit_of_hexVal x v hv)
    unfold StrByte; omega
  obtain ⟨_, _, _, _, h1, h2, h3, h4, _⟩ := hex4_some x1 x2 x3 x4 v h
  rw [stringLitLen_esc, stringLitLen_strByte x1 _ (hx _ _ h1),
    stringLitLen_strByte x2 _ (hx _ _ h2), stringLitLen_strByte x3 _ (hx _ _ h3),
    stringLitLen_strByte x4 _ (hx _ _ h4)]
  omega

theorem stringLitLen_strBytes (p : Bytes) : ∀ (rest : Bytes), (∀ c ∈ p, StrByte c) →
    stringLitLen (p ++ rest) = p.length + stringLitLen rest := by
  induction p with
  | nil => intro rest _; simp
  | cons c p ih =>
    intro rest h
    rw [List.cons_append, stringLitLen_strByte c _ (h c (List.mem_cons_self _ _)),
      ih rest (fun x hx => h x (List.mem_cons_of_mem _ hx))]
    simp only [List.length_cons]; omega

/-- The end of a string literal is found right after a literal body. -/
theorem stringLitLen_encodes (b t : Bytes) (h : Encodes b t) (rest : Bytes) :
    stringLitLen (b ++ 34 :: rest) = b.length + 1 := by
  induction h with
  | nil => exact stringLitLen_quote rest
  | plain c b t hc _ ih =>
    rw [List.cons_append, stringLitLen_strByte c _ ⟨by omega, by omega, by omega⟩, ih]
    simp only [List.length_cons]; omega
  | esc e v b t he _ ih =>
    rw [List.cons_append, List.cons_append, stringLitLen_esc, ih]
    simp only [List.length_cons]; omega
  | escU x1 x2 x3 x4 v b t h _ _ ih =>
    simp only [List.cons_append]
    rw [stringLitLen_escU x1 x2 x3 x4 v _ h, ih]
    simp only [List.length_cons]; omega
  | escPair x1 x2 x3 x4 y1 y2 y3 y4 v w b t hv hw _ _ _ ih =>
    simp only [List.cons_append]
    rw [stringLitLen_escU x1 x2 x3 x4 v _ hv, stringLitLen_escU y1 y2 y3 y4 w _ hw, ih]
    simp only [List.length_cons]; omega
  | escLone x1 x2 x3 x4 v b t h _ _ _ ih =>
    simp only [List.cons_append]
    rw [stringLitLen_escU x1 x2 x3 x4 v _ h, ih]
    simp only [List.length_cons]; omega
  | rune p r b t _ hp _ _ _ ih =>
    rw [List.append_assoc, stringLitLen_strBytes p _
      (fun c hc => ⟨by have := hp c hc; omega, by have := hp c hc; omega,
        by have := hp c hc; omega⟩), ih]
    simp only [List.length_append]; omega
  | bad c b t hc _ _ ih =>
    rw [List.cons_append, stringLitLen_strByte c _ ⟨by omega, by omega, by omega⟩, ih]
    simp only [List.length_cons]; omega

/-- Function `json.Unmarshal` of a literal body between two double quotes yields its
text. -/
theorem jsonUnmarshalString_encodes (b t s0 : Bytes) (h : Encodes b t) :
    jsonUnmarshalString (34 :: (b ++ [34])) s0 = .ok t := by
  unfold jsonUnmarshalString
  rw [checkValid_encodes b t h]
  have hdw : List.dropWhile isSpace (34 :: (b ++ [34])) = 34 :: (b ++ [34]) := by
    rw [List.dropWhile_cons_of_neg (by decide)]
  simp only [hdw]
  rw [if_neg (by decide), if_neg (by decide), if_neg (by decide), if_neg (by decide),
    if_pos trivial, stringLitLen_encodes b t h []]
  have ht : List.take (b.length + 1) (b ++ [34]) = b ++ [34] := by
    apply List.take_of_length_le; simp
  rw [ht, unquoteBytes_encodes b t h]

/-! ## The literal that `json.Marshal` writes -/

theorem toValidLoop_step (fuel c : Nat) (rest : Bytes) :
    toValidLoop (fuel + 1) (c :: rest) =
    if c < 128 then c :: toValidLoop fuel rest
    else
      if (DecodeRune (c :: rest)).1 = RuneError ∧ (DecodeRune (c :: rest)).2 = 1 then
        [239, 191, 189] ++ toValidLoop fuel rest
      else (c :: rest).take (DecodeRune (c :: rest)).2
        ++ toValidLoop fuel ((c :: rest).drop (DecodeRune (c :: rest)).2) := by
  rfl

theorem appendStringLoop_step (fuel b : Nat) (rest : Bytes) :
    appendStringLoop (fuel + 1) (b :: rest) =
    if b < 128 then
      if htmlSafeSet b then b :: appendStringLoop fuel rest
      else
        (if b = 92 ∨ b = 34 then [92, b]
          else if b = 8 then [92, 98]
          else if b = 12 then [92, 102]
          else if b = 10 then [92, 110]
          else if b = 13 then [92, 114]
          else if b = 9 then [92, 116]
          else [92, 117, 48, 48, hex (b / 16), hex (b % 16)]) ++ appendStringLoop fuel rest
    else
      if (DecodeRune (b :: rest)).1 = RuneError ∧ (DecodeRune (b :: rest)).2 = 1 then
        [92, 117, 102, 102, 102, 100] ++ appendStringLoop fuel rest
      else if (DecodeRune (b :: rest)).1 = 8232 ∨ (DecodeRune (b :: rest)).1 = 8233 then
        [92, 117, 50, 48, 50] ++ [hex ((DecodeRune (b :: rest)).1 % 16)]
          ++ appendStringLoop fuel ((b :: rest).drop (DecodeRune (b :: rest)).2)
      else (b :: rest).take (DecodeRune (b :: rest)).2
        ++ appendStringLoop fuel ((b :: rest).drop (DecodeRune (b :: rest)).2) := by
  rw [appendStringLoop]
  simp only [DecodeRune_take]
  rfl

/-- The literal body that `appendString` writes for a text stands for the text with
its invalid bytes replaced by U+FFFD. -/
theorem encodes_appendStringLoop : ∀ (fuel : Nat) (s : Bytes), s.length ≤ fuel →
    Encodes (appendStringLoop fuel s) (toValidLoop fuel s) := by
  intro fuel
  induction fuel with
  | zero =>
    intro s hs
    cases s with
    | nil => exact Encodes.nil
    | cons c t => simp at hs
  | succ n ih =>
    intro s hs
    cases s with
    | nil => exact Encodes.nil
    | cons b rest =>
      have hrest : rest.length ≤ n := by simp at hs; omega
      rw [appendStringLoop_step, toValidLoop_step]
      by_cases hb : b < 128
      · rw [if_pos hb, if_pos hb]
        by_cases hsafe : htmlSafeSet b = true
        · rw [if_pos hsafe]
          have hsafe1 := hsafe
          unfold htmlSafeSet at hsafe1
          have := of_decide_eq_true hsafe1
          exact Encodes.plain b _ _ (by omega) (ih rest hrest)
        · rw [if_neg hsafe]
          by_cases h1 : b = 92 ∨ b = 34
          · rw [if_pos h1]
            rcases h1 with rfl | rfl
            · exact Encodes.esc 92 92 _ _ (Or.inr (Or.inl ⟨rfl, rfl⟩)) (ih rest hrest)
            · exact Encodes.esc 34 34 _ _ (Or.inl ⟨rfl, rfl⟩) (ih rest hrest)
          · rw [if_neg h1]
            by_cases h2 : b = 8
            · rw [if_pos h2, h2]
              exact Encodes.esc 98 8 _ _ (Or.inr (Or.inr (Or.inr (Or.inl ⟨rfl, rfl⟩)))) (ih rest hrest)
            · rw [if_neg h2]
              by_cases h3 : b = 12
              · rw [if_pos h3, h3]
                exact Encodes.esc 102 12 _ _ (Or.inr (Or.inr (Or.inr (Or.inr (Or.inl ⟨rfl, rfl⟩))))) (ih rest hrest)
              · rw [if_neg h3]
                by_cases h4 : b = 10
                · rw [if_pos h4, h4]
                  exact Encodes.esc 110 10 _ _ (Or.inr (Or.inr (Or.inr (Or.inr (Or.inr (Or.inl ⟨rfl, rfl⟩)))))) (ih rest hrest)
                · rw [if_neg h4]
                  by_cases h5 : b = 13
                  · rw [if_pos h5, h5]
                    exact Encodes.esc 114 13 _ _ (Or.inr (Or.inr (Or.inr (Or.inr (Or.inr (Or.inr (Or.inl ⟨rfl, rfl⟩))))))) (ih rest hrest)
                  · rw [if_neg h5]
                    by_cases h6 : b = 9
                    · rw [if_pos h6, h6]
                      exact Encodes.esc 116 9 _ _ (Or.inr (Or.inr (Or.inr (Or.inr (Or.inr (Or.inr (Or.inr (⟨rfl, rfl⟩)))))))) (ih rest hrest)
                    · rw [if_neg h6]
                      have h4 : hex4 48 48 (hex (b / 16)) (hex (b % 16)) = some b := by
                        rw [hex4_hex 48 48 _ _ 0 0 (b / 16) (b % 16) (by decide) (by decide)
                          (hexVal_hex _ (by omega)) (hexVal_hex _ (by omega))]
                        congr 1
                        omega
                      have key := Encodes.escU 48 48 (hex (b / 16)) (hex (b % 16)) b
                        (appendStringLoop n rest) (toValidLoop n rest) h4 (by omega)
                        (ih rest hrest)
                      rw [EncodeRune_ascii b hb] at key
                      exact key
      · rw [if_neg hb, if_neg hb]
        rcases runeAt b rest (by omega) with hbad | ⟨p, tail, r, hs1, hlen, _, hp, hd, he⟩
        · rw [if_pos (by rw [hbad]; exact ⟨rfl, rfl⟩), if_pos (by rw [hbad]; exact ⟨rfl, rfl⟩)]
          have key := Encodes.escU 102 102 102 100 RuneError (appendStringLoop n rest)
            (toValidLoop n rest) (by decide) (by decide) (ih rest hrest)
          rw [EncodeRune_RuneError] at key
          exact key
        · have htail : tail.length ≤ n := by
            have := congrArg List.length hs1
            simp only [List.length_cons, List.length_append] at this
            omega
          have hne : ¬ (r = RuneError ∧ p.length = 1) := by omega
          rw [hs1, hd tail]
          simp only [if_neg hne, List.take_left, List.drop_left]
          by_cases h8 : r = 8232 ∨ r = 8233
          · rw [if_pos h8]
            have h4 : hex4 50 48 50 (hex (r % 16)) = some r := by
              rw [hex4_hex 50 48 50 _ 2 0 2 (r % 16) (by decide) (by decide) (by decide)
                (hexVal_hex _ (by omega))]
              congr 1
              omega
            have key := Encodes.escU 50 48 50 (hex (r % 16)) r
              (appendStringLoop n tail) (toValidLoop n tail) h4 (by omega) (ih tail htail)
            rw [he] at key
            exact key
          · rw [if_neg h8]
            exact Encodes.rune p r _ _ hlen hp hd he (ih tail htail)

/-- The text that `json.Unmarshal` reads back from the literal that `json.Marshal`
writes for `s` is `s` with its invalid bytes replaced by U+FFFD. -/
theorem jsonUnmarshalString_marshal (s s0 : Bytes) :
    jsonUnmarshalString (jsonMarshalString s) s0 = .ok (toValidUTF8 s) := by
  unfold jsonMarshalString appendString toValidUTF8
  exact jsonUnmarshalString_encodes _ _ s0 (encodes_appendStringLoop _ s (le_refl _))

/-- A text without control characters, double quotes and backslashes is the body of a
literal that stands for the text with its invalid bytes replaced by U+FFFD. -/
theorem encodes_raw : ∀ (fuel : Nat) (s : Bytes), s.length ≤ fuel → (∀ c ∈ s, StrByte c) →
    Encodes s (toValidLoop fuel s) := by
  intro fuel
  induction fuel with
  | zero =>
    intro s hs _
    cases s with
    | nil => exact Encodes.nil
    | cons c t => simp at hs
  | succ n ih =>
    intro s hs hall
    cases s with
    | nil => exact Encodes.nil
    | cons b rest =>
      have hrest : rest.length ≤ n := by simp at hs; omega
      obtain ⟨b1, b2, b3⟩ := hall b (List.mem_cons_self _ _)
      have hallr : ∀ c ∈ rest, StrByte c := fun x hx => hall x (List.mem_cons_of_mem _ hx)
      rw [toValidLoop_step]
      by_cases hb : b < 128
      · rw [if_pos hb]
        exact Encodes.plain b _ _ (by omega) (ih rest hrest hallr)
      · rw [if_neg hb]
        rcases runeAt b rest (by omega) with hbad | ⟨p, tail, r, hs1, hlen, _, hp, hd, he⟩
        · rw [if_pos (by rw [hbad]; exact ⟨rfl, rfl⟩)]
          exact Encodes.bad b _ _ (by omega) hbad (ih rest hrest hallr)
        · have htail : tail.length ≤ n := by
            have := congrArg List.length hs1
            simp only [List.length_cons, List.length_append] at this
            omega
          have hallt : ∀ c ∈ tail, StrByte c := by
            intro c hc
            exact hall c (by rw [hs1]; exact List.mem_append_right _ hc)
          have hne : ¬ (r = RuneError ∧ p.length = 1) := by omega
          rw [hs1, hd tail]
          simp only [if_neg hne, List.take_left, List.drop_left]
          exact Encodes.rune p r _ _ hlen hp hd he (ih tail htail hallt)

/-- The text that `json.Unmarshal` reads from a text without control characters, double
quotes and backslashes put between two double quotes. -/
theorem jsonUnmarshalString_raw (s s0 : Bytes) (h : ∀ c ∈ s, StrByte c) :
    jsonUnmarshalString (34 :: (s ++ [34])) s0 = .ok (toValidUTF8 s) :=
  jsonUnmarshalString_encodes _ _ s0 (encodes_raw _ s (le_refl _) h)

/-! ## Valid UTF-8 and the texts that `ParseDuration` accepts -/

theorem validLoop_step (fuel c : Nat) (rest : Bytes) :
    validLoop (fuel + 1) (c :: rest) =
    if c < 128 then validLoop fuel rest
    else
      if (DecodeRune (c :: rest)).1 = RuneError ∧ (DecodeRune (c :: rest)).2 = 1 then false
      else validLoop fuel ((c :: rest).drop (DecodeRune (c :: rest)).2) := by
  rfl

/-- A valid UTF-8 text is left as it is. -/
theorem toValidLoop_valid : ∀ (fuel : Nat) (s : Bytes), validLoop fuel s = true →
    toValidLoop fuel s = s := by
  intro fuel
  induction fuel with
  | zero =>
    intro s h
    cases s with
    | nil => rfl
    | cons c t => exact absurd h (by simp [validLoop])
  | succ n ih =>
    intro s h
    cases s with
    | nil => rfl
    | cons c rest =>
      rw [validLoop_step] at h
      rw [toValidLoop_step]
      by_cases hc : c < 128
      · rw [if_pos hc] at h ⊢
        rw [ih rest h]
      · rw [if_neg hc] at h ⊢
        by_cases hbad : (DecodeRune (c :: rest)).1 = RuneError ∧ (DecodeRune (c :: rest)).2 = 1
        · rw [if_pos hbad] at h; exact absurd h (by simp)
        · rw [if_neg hbad] at h ⊢
          rw [ih _ h, List.take_append_drop]

/-- The text that replaces a text that is not valid UTF-8 holds the byte `0xEF` of
U+FFFD. -/
theorem toValidLoop_invalid : ∀ (fuel : Nat) (s : Bytes), s.length ≤ fuel →
    validLoop fuel s = false → 239 ∈ toValidLoop fuel s := by
  intro fuel
  induction fuel with
  | zero =>
    intro s hs h
    cases s with
    | nil => exact absurd h (by simp [validLoop])
    | cons c t => simp at hs
  | succ n ih =>
    intro s hs h
    cases s with
    | nil => exact absurd h (by simp [validLoop])
    | cons c rest =>
      have hrest : rest.length ≤ n := by simp at hs; omega
      rw [validLoop_step] at h
      rw [toValidLoop_step]
      by_cases hc : c < 128
      · rw [if_pos hc] at h ⊢
        exact List.mem_cons_of_mem _ (ih rest hrest h)
      · rw [if_neg hc] at h ⊢
        by_cases hbad : (DecodeRune (c :: rest)).1 = RuneError ∧ (DecodeRune (c :: rest)).2 = 1
        · rw [if_pos hbad]
          exact List.mem_append_left _ (by simp)
        · rw [if_neg hbad] at h ⊢
          apply List.mem_append_right
          apply ih _ _ h
          rw [List.length_drop]
          simp only [List.length_cons]
          rcases runeAt c rest (by omega) with hb1 | ⟨p, tail, r, hs1, hlen, _, _, hd, _⟩
          · exact absurd (by rw [hb1]; exact ⟨rfl, rfl⟩) hbad
          · have hsz : 2 ≤ (DecodeRune (c :: rest)).2 := by
              rw [hs1, hd tail]
              exact hlen
            omega

theorem DecodeRune_mu (rest : Bytes) : DecodeRune (206 :: 188 :: rest) = (956, 2) := by
  simp [DecodeRune, first]

theorem unitText_not_mem (t : Bytes) (h : UnitText t) : 239 ∉ t := by
  induction h with
  | nil => simp
  | ascii c t hc _ ih =>
    intro hm
    rcases List.mem_cons.mp hm with h1 | h1
    · omega
    · exact ih h1
  | micro t _ ih =>
    intro hm
    simp only [List.mem_cons] at hm
    rcases hm with h1 | h1 | h1
    · omega
    · omega
    · exact ih h1
  | mu t _ ih =>
    intro hm
    simp only [List.mem_cons] at hm
    rcases hm with h1 | h1 | h1
    · omega
    · omega
    · exact ih h1

theorem unitText_valid (t : Bytes) (h : UnitText t) :
    ∀ fuel, t.length ≤ fuel → validLoop fuel t = true := by
  induction h with
  | nil => intro fuel _; cases fuel <;> rfl
  | ascii c t hc _ ih =>
    intro fuel hf
    obtain ⟨n, rfl⟩ : ∃ n, fuel = n + 1 := ⟨fuel - 1, by simp at hf; omega⟩
    rw [validLoop_step, if_pos hc]
    exact ih n (by simp at hf; omega)
  | micro t _ ih =>
    intro fuel hf
    obtain ⟨n, rfl⟩ : ∃ n, fuel = n + 1 := ⟨fuel - 1, by simp at hf; omega⟩
    rw [validLoop_step, if_neg (by omega), DecodeRune_micro, if_neg (by simp)]
    exact ih n (by simp at hf; omega)
  | mu t _ ih =>
    intro fuel hf
    obtain ⟨n, rfl⟩ : ∃ n, fuel = n + 1 := ⟨fuel - 1, by simp at hf; omega⟩
    rw [validLoop_step, if_neg (by omega), DecodeRune_mu, if_neg (by simp)]
    exact ih n (by simp at hf; omega)

theorem unitText_append (a b : Bytes) (ha : UnitText a) (hb : UnitText b) :
    UnitText (a ++ b) := by
  induction ha with
  | nil => exact hb
  | ascii c t hc _ ih => exact UnitText.ascii c _ hc ih
  | micro t _ ih => exact UnitText.micro _ ih
  | mu t _ ih => exact UnitText.mu _ ih

theorem unitText_unit (u : Bytes) (unit : Nat) (h : unitMap u = some unit) : UnitText u := by
  have a (c : Nat) (hc : c < 128) (t : Bytes) (ht : UnitText t) : UnitText (c :: t) :=
    UnitText.ascii c t hc ht
  unfold unitMap at h
  split_ifs at h with h1 h2 h3 h4 h5 h6 h7 h8
  · subst h1; exact a _ (by decide) _ (a _ (by decide) _ UnitText.nil)
  · subst h2; exact a _ (by decide) _ (a _ (by decide) _ UnitText.nil)
  · subst h3; exact UnitText.micro _ (a _ (by decide) _ UnitText.nil)
  · subst h4; exact UnitText.mu _ (a _ (by decide) _ UnitText.nil)
  · subst h5; exact a _ (by decide) _ (a _ (by decide) _ UnitText.nil)
  · subst h6; exact a _ (by decide) _ UnitText.nil
  · subst h7; exact a _ (by decide) _ UnitText.nil
  · subst h8; exact a _ (by decide) _ UnitText.nil

theorem leadingIntLoop_unitText : ∀ (s : Bytes) (x v : Nat) (s1 : Bytes),
    leadingIntLoop x s = some (v, s1) → UnitText s1 → UnitText s := by
  intro s
  induction s with
  | nil =>
    intro x v s1 h ht
    simp only [leadingIntLoop, Option.some.injEq, Prod.mk.injEq] at h
    rw [h.2]; exact ht
  | cons a t ih =>
    intro x v s1 h ht
    rw [leadingIntLoop] at h
    split at h
    · simp only [Option.some.injEq, Prod.mk.injEq] at h
      rw [h.2]; exact ht
    · rename_i hdig
      split at h
      · exact absurd h (by simp)
      · simp only [] at h
        split at h
        · exact absurd h (by simp)
        · exact UnitText.ascii a t (by omega) (ih _ _ _ h ht)

theorem leadingFractionLoop_unitText : ∀ (s : Bytes) (x : Nat) (sc : F64) (ov : Bool),
    UnitText (leadingFractionLoop x sc ov s).2.2 → UnitText s := by
  intro s
  induction s with
  | nil => intro x sc ov _; exact UnitText.nil
  | cons a t ih =>
    intro x sc ov
    rw [leadingFractionLoop]
    split
    · intro hc; exact hc
    · rename_i hdig
      split
      · intro hc; exact UnitText.ascii a t (by omega) (ih _ _ _ hc)
      · split
        · intro hc; exact UnitText.ascii a t (by omega) (ih _ _ _ hc)
        · simp only []
          split
          · intro hc; exact UnitText.ascii a t (by omega) (ih _ _ _ hc)
          · intro hc; exact UnitText.ascii a t (by omega) (ih _ _ _ hc)

theorem fracPart_unitText (s1 : Bytes) (h : UnitText (fracPart s1).2.2.1) : UnitText s1 := by
  unfold fracPart at h
  split at h
  · rename_i s2
    exact UnitText.ascii 46 s2 (by decide)
      (leadingFractionLoop_unitText s2 0 (F64.ofNat 1) false h)
  · exact h

theorem afterNumber_unitText (next : Nat → Bytes → Except TimeError Nat)
    (orig : Bytes) (d : Nat) (pre : Bool) (v : Nat) (fr : Nat × F64 × Bytes × Bool)
    (r : Nat) (hnext : ∀ d1 s4, next d1 s4 = .ok r → UnitText s4)
    (h : afterNumber next orig d pre v fr = .ok r) : UnitText fr.2.2.1 := by
  unfold afterNumber at h
  simp only [] at h
  by_cases c1 : (!pre && !fr.2.2.2) = true
  · rw [if_pos c1] at h; exact absurd h (by simp)
  · rw [if_neg c1] at h
    by_cases c2 : unitLen fr.2.2.1 = 0
    · rw [if_pos c2] at h; exact absurd h (by simp)
    · rw [if_neg c2] at h
      cases hu : unitMap (List.take (unitLen fr.2.2.1) fr.2.2.1) with
      | none => simp only [hu] at h; exact absurd h (by simp)
      | some unit =>
        simp only [hu] at h
        by_cases c3 : 2 ^ 63 / unit < v
        · rw [if_pos c3] at h; exact absurd h (by simp)
        · rw [if_neg c3] at h
          generalize (if 0 < fr.1 then
              (v * unit % 2 ^ 64 +
                F64.toUint64 (F64.mul (F64.ofNat fr.1) (F64.div (F64.ofNat unit) fr.2.1)))
                % 2 ^ 64
            else v * unit % 2 ^ 64) = v2 at h
          by_cases c4 : 0 < fr.1 ∧ 2 ^ 63 < v2
          · rw [if_pos c4] at h; exact absurd h (by simp)
          · rw [if_neg c4] at h
            by_cases c5 : 2 ^ 63 < (d + v2) % 2 ^ 64
            · rw [if_pos c5] at h; exact absurd h (by simp)
            · rw [if_neg c5] at h
              have h4 := hnext _ _ h
              have := unitText_append _ _ (unitText_unit _ _ hu) h4
              rw [List.take_append_drop] at this
              exact this

/-- A text that the loop of `ParseDuration` accepts is made of ASCII bytes and of the
two-byte sequences of U+00B5 and U+03BC. -/
theorem parseLoop_unitText (orig : Bytes) (r : Nat) : ∀ (fuel : Nat) (d : Nat) (s : Bytes),
    parseLoop fuel orig d s = .ok r → UnitText s := by
  intro fuel
  induction fuel with
  | zero =>
    intro d s h
    cases s with
    | nil => exact UnitText.nil
    | cons c t => rw [parseLoop] at h; exact absurd h (by simp)
  | succ fuel ih =>
    intro d s h
    cases s with
    | nil => exact UnitText.nil
    | cons c t =>
      rw [parseLoop_succ] at h
      by_cases c1 : ¬ (c = 46 ∨ (48 ≤ c ∧ c ≤ 57))
      · rw [if_pos c1] at h; exact absurd h (by simp)
      · rw [if_neg c1] at h
        cases hint : leadingInt (c :: t) with
        | none => simp only [hint] at h; exact absurd h (by simp)
        | some p =>
          obtain ⟨v, s1⟩ := p
          simp only [hint] at h
          have h3 := afterNumber_unitText _ orig d _ v _ r (fun d1 s4 => ih d1 s4) h
          exact leadingIntLoop_unitText _ _ _ _ hint (fracPart_unitText _ h3)

/-- A text that `ParseDuration` accepts is made of ASCII bytes and of the two-byte
sequences of U+00B5 and U+03BC. -/
theorem ParseDuration_unitText (s : Bytes) (v : Int) (h : ParseDuration s = .ok v) :
    UnitText s := by
  have key : ∀ t : Bytes, (t = [48] ∨ ∃ d, parseLoop t.length s 0 t = .ok d) → UnitText t := by
    intro t ht
    rcases ht with rfl | ⟨d, hd⟩
    · exact UnitText.ascii 48 [] (by decide) UnitText.nil
    · exact parseLoop_unitText s d _ 0 t hd
  unfold ParseDuration at h
  simp only [] at h
  cases s with
  | nil => exact UnitText.nil
  | cons c t =>
    simp only [] at h
    by_cases hsign : c = 45 ∨ c = 43
    · simp only [if_pos hsign] at h
      apply UnitText.ascii c t (by omega)
      apply key
      by_cases h1 : t = [48]
      · exact Or.inl h1
      · right
        rw [if_neg h1] at h
        by_cases h2 : t = []
        · rw [if_pos h2] at h; exact absurd h (by simp)
        · rw [if_neg h2] at h
          cases hp : parseLoop t.length (c :: t) 0 t with
          | error e => rw [hp] at h; exact absurd h (by simp)
          | ok d => exact ⟨d, rfl⟩
    · simp only [if_neg hsign] at h
      apply key
      by_cases h1 : c :: t = [48]
      · exact Or.inl h1
      · right
        rw [if_neg h1] at h
        rw [if_neg (by simp)] at h
        cases hp : parseLoop (c :: t).length (c :: t) 0 (c :: t) with
        | error e => rw [hp] at h; exact absurd h (by simp)
        | ok d => exact ⟨d, rfl⟩

/-! ## Every string literal that the scanner accepts has a text -/

theorem checkValidLoop_scanError (st st1 : Scanner) (c : Nat) (rest : Bytes)
    (h : Scanner.doStep { st with bytes := st.bytes + 1 } c = (st1, Op.scanError)) :
    checkValidLoop st (c :: rest) ≠ .ok () := by
  rw [checkValidLoop]
  simp [h]

theorem checkValidLoop_stateError (l : Bytes) (st : Scanner) (h1 : st.step = Step.stateError)
    (h2 : st.err.isSome = true) : checkValidLoop st l ≠ .ok () := by
  cases l with
  | nil =>
    rw [checkValidLoop]
    simp only [Scanner.eof, h2, if_true]
    simp
  | cons c rest =>
    apply checkValidLoop_scanError st { st with bytes := st.bytes + 1 }
    simp only [Scanner.doStep, h1]

theorem checkValidLoop_afterEnd (l : Bytes) : ∀ (n : Nat) (top : Bool),
    (∃ x ∈ l, isSpace x = false) →
    checkValidLoop ⟨if top then Step.stateEndTop else Step.stateEndValue, top, [], none, n⟩ l
      ≠ .ok () := by
  induction l with
  | nil => intro n top ⟨x, hx, _⟩; simp at hx
  | cons c rest ih =>
    intro n top hex
    by_cases hc : isSpace c = true
    · have hrest : ∃ x ∈ rest, isSpace x = false := by
        obtain ⟨x, hx, hxs⟩ := hex
        rcases List.mem_cons.mp hx with rfl | hx1
        · rw [hc] at hxs; exact absurd hxs (by simp)
        · exact ⟨x, hx1, hxs⟩
      have hstep : Scanner.doStep
          ⟨if top then Step.stateEndTop else Step.stateEndValue, top, [], none, n + 1⟩ c
          = (⟨Step.stateEndTop, true, [], none, n + 1⟩, Op.scanEnd) := by
        cases top <;> simp [Scanner.doStep, stateEndValue, stateEndTop, hc]
      rw [checkValidLoop_step
        ⟨if top then Step.stateEndTop else Step.stateEndValue, top, [], none, n⟩ _ _ c rest
        hstep (by decide)]
      exact ih (n + 1) true hrest
    · have hstep : ∃ e, Scanner.doStep
          ⟨if top then Step.stateEndTop else Step.stateEndValue, top, [], none, n + 1⟩ c
          = (⟨Step.stateError, true, [], some e, n + 1⟩, Op.scanEnd) := by
        cases top <;> simp [Scanner.doStep, stateEndValue, stateEndTop, hc, Scanner.error]
      obtain ⟨e, he⟩ := hstep
      rw [checkValidLoop_step
        ⟨if top then Step.stateEndTop else Step.stateEndValue, top, [], none, n⟩ _ _ c rest
        he (by decide)]
      exact checkValidLoop_stateError rest _ rfl rfl

theorem checkValidLoop_inString_nil (n : Nat) :
    checkValidLoop ⟨Step.stateInString, false, [], none, n⟩ [] ≠ .ok () := by
  rw [checkValidLoop]
  simp [Scanner.eof, Scanner.doStep]

theorem checkValidLoop_hex_inv (x : Nat) (rest : Bytes) (n : Nat) (st next : Step)
    (hst : ∀ s : Scanner, s.step = st → Scanner.doStep s x = stateHex s x next)
    (h : checkValidLoop ⟨st, false, [], none, n⟩ (x :: rest) = .ok ()) :
    isHexDigit x = true ∧ checkValidLoop ⟨next, false, [], none, n + 1⟩ rest = .ok () := by
  by_cases hx : isHexDigit x = true
  · rw [checkValidLoop_hex x rest n st next hx hst] at h
    exact ⟨hx, h⟩
  · exfalso
    have hstep : Scanner.doStep ⟨st, false, [], none, n + 1⟩ x
        = ((Scanner.error ⟨st, false, [], none, n + 1⟩ x
            (ascii "in \\u hexadecimal character escape")).1, Op.scanError) := by
      rw [hst _ rfl]
      unfold stateHex
      rw [if_neg hx]
      rfl
    exact checkValidLoop_scanError ⟨st, false, [], none, n⟩ _ x rest hstep h

theorem checkValidLoop_hex_nil (n : Nat) (st next : Step)
    (hst : ∀ s : Scanner, s.step = st → Scanner.doStep s 32 = stateHex s 32 next) :
    checkValidLoop ⟨st, false, [], none, n⟩ [] ≠ .ok () := by
  rw [checkValidLoop]
  simp [Scanner.eof, hst, stateHex, isHexDigit, Scanner.error]

theorem peel_quote (r : Bytes) (x : Nat) (l : Bytes) (h : r ++ [34] = x :: l) (hx : x ≠ 34) :
    ∃ r1, r = x :: r1 ∧ l = r1 ++ [34] := by
  cases r with
  | nil =>
    simp only [List.nil_append, List.cons.injEq] at h
    exact absurd h.1.symm hx
  | cons a r1 =>
    simp only [List.cons_append, List.cons.injEq] at h
    exact ⟨r1, by rw [h.1], h.2.symm⟩

theorem hexVal_of_isHexDigit (x : Nat) (h : isHexDigit x = true) : ∃ v, hexVal x = some v := by
  have := of_decide_eq_true h
  unfold hexVal
  by_cases h1 : 48 ≤ x ∧ x ≤ 57
  · exact ⟨_, if_pos h1⟩
  · rw [if_neg h1]
    by_cases h2 : 97 ≤ x ∧ x ≤ 102
    · exact ⟨_, if_pos h2⟩
    · rw [if_neg h2]
      exact ⟨_, if_pos (by omega)⟩

/-- The scanner in the state after `\\u` accepts only four hexadecimal digits. -/
theorem checkValidLoop_escU_inv (r : Bytes) (n : Nat)
    (h : checkValidLoop ⟨Step.stateInStringEscU, false, [], none, n⟩ (r ++ [34]) = .ok ()) :
    ∃ x1 x2 x3 x4 v r1, r = x1 :: x2 :: x3 :: x4 :: r1 ∧ hex4 x1 x2 x3 x4 = some v ∧
      checkValidLoop ⟨Step.stateInString, false, [], none, n + 4⟩ (r1 ++ [34]) = .ok () := by
  have notq (x : Nat) (hx : isHexDigit x = true) : x ≠ 34 := by
    intro e; subst e; exact absurd hx (by decide)
  obtain ⟨x1, l1, e1⟩ : ∃ x l, r ++ [34] = x :: l := by
    cases r with
    | nil => exact ⟨_, _, rfl⟩
    | cons a t => exact ⟨_, _, rfl⟩
  rw [e1] at h
  obtain ⟨d1, h⟩ := checkValidLoop_hex_inv x1 l1 n _ Step.stateInStringEscU1
    (fun s hs => by simp only [Scanner.doStep, hs]) h
  obtain ⟨r1, rfl, rfl⟩ := peel_quote r x1 l1 e1 (notq _ d1)
  obtain ⟨x2, l2, e2⟩ : ∃ x l, r1 ++ [34] = x :: l := by
    cases r1 with
    | nil => exact ⟨_, _, rfl⟩
    | cons a t => exact ⟨_, _, rfl⟩
  rw [e2] at h
  obtain ⟨d2, h⟩ := checkValidLoop_hex_inv x2 l2 _ _ Step.stateInStringEscU12
    (fun s hs => by simp only [Scanner.doStep, hs]) h
  obtain ⟨r2, rfl, rfl⟩ := peel_quote r1 x2 l2 e2 (notq _ d2)
  obtain ⟨x3, l3, e3⟩ : ∃ x l, r2 ++ [34] = x :: l := by
    cases r2 with
    | nil => exact ⟨_, _, rfl⟩
    | cons a t => exact ⟨_, _, rfl⟩
  rw [e3] at h
  obtain ⟨d3, h⟩ := checkValidLoop_hex_inv x3 l3 _ _ Step.stateInStringEscU123
    (fun s hs => by simp only [Scanner.doStep, hs]) h
  obtain ⟨r3, rfl, rfl⟩ := peel_quote r2 x3 l3 e3 (notq _ d3)
  obtain ⟨x4, l4, e4⟩ : ∃ x l, r3 ++ [34] = x :: l := by
    cases r3 with
    | nil => exact ⟨_, _, rfl⟩
    | cons a t => exact ⟨_, _, rfl⟩
  rw [e4] at h
  obtain ⟨d4, h⟩ := checkValidLoop_hex_inv x4 l4 _ _ Step.stateInString
    (fun s hs => by simp only [Scanner.doStep, hs]) h
  obtain ⟨r4, rfl, rfl⟩ := peel_quote r3 x4 l4 e4 (notq _ d4)
  obtain ⟨v1, hv1⟩ := hexVal_of_isHexDigit _ d1
  obtain ⟨v2, hv2⟩ := hexVal_of_isHexDigit _ d2
  obtain ⟨v3, hv3⟩ := hexVal_of_isHexDigit _ d3
  obtain ⟨v4, hv4⟩ := hexVal_of_isHexDigit _ d4
  exact ⟨x1, x2, x3, x4, _, r4, rfl, hex4_hex _ _ _ _ _ _ _ _ hv1 hv2 hv3 hv4, h⟩

/-- Every literal body that the scanner accepts stands for a text. -/
theorem encodes_of_checkValidLoop : ∀ (k : Nat) (b : Bytes) (n : Nat), b.length ≤ k →
    checkValidLoop ⟨Step.stateInString, false, [], none, n⟩ (b ++ [34]) = .ok () →
    ∃ t, Encodes b t := by
  intro k
  induction k with
  | zero =>
    intro b n hk _
    have : b = [] := List.length_eq_zero.mp (by omega)
    subst this
    exact ⟨[], Encodes.nil⟩
  | succ k ih =>
    intro b n hk h
    cases b with
    | nil => exact ⟨[], Encodes.nil⟩
    | cons c rest =>
      have hrest : rest.length ≤ k := by simp at hk; omega
      rw [List.cons_append] at h
      by_cases hq : c = 34
      · exfalso
        subst hq
        rw [checkValidLoop_step ⟨Step.stateInString, false, [], none, n⟩
          ⟨Step.stateEndValue, false, [], none, n + 1⟩ Op.scanContinue 34 _ rfl (by decide)] at h
        exact checkValidLoop_afterEnd (rest ++ [34]) (n + 1) false
          ⟨34, by simp, by decide⟩ h
      · by_cases hbs : c = 92
        · subst hbs
          rw [checkValidLoop_step ⟨Step.stateInString, false, [], none, n⟩
            ⟨Step.stateInStringEsc, false, [], none, n + 1⟩ Op.scanContinue 92 _ rfl
            (by decide)] at h
          cases rest with
          | nil =>
            exfalso
            rw [List.nil_append, checkValidLoop_step ⟨Step.stateInStringEsc, false, [], none, n + 1⟩
              ⟨Step.stateInString, false, [], none, n + 2⟩ Op.scanContinue 34 _ rfl
              (by decide)] at h
            exact checkValidLoop_inString_nil _ h
          | cons e rest1 =>
            have hrest1 : rest1.length ≤ k := by simp at hrest; omega
            rw [List.cons_append] at h
            by_cases he : e = 98 ∨ e = 102 ∨ e = 110 ∨ e = 114 ∨ e = 116 ∨ e = 92 ∨ e = 47 ∨
                e = 34
            · have hstep : Scanner.doStep ⟨Step.stateInStringEsc, false, [], none, n + 1 + 1⟩ e
                  = (⟨Step.stateInString, false, [], none, n + 2⟩, Op.scanContinue) := by
                simp only [Scanner.doStep]
                rw [if_pos he]
                rfl
              rw [checkValidLoop_step ⟨Step.stateInStringEsc, false, [], none, n + 1⟩ _ _ e _
                hstep (by decide)] at h
              obtain ⟨t, ht⟩ := ih rest1 _ hrest1 h
              rcases he with rfl | rfl | rfl | rfl | rfl | rfl | rfl | rfl
              · exact ⟨_, Encodes.esc 98 8 _ _ (by decide) ht⟩
              · exact ⟨_, Encodes.esc 102 12 _ _ (by decide) ht⟩
              · exact ⟨_, Encodes.esc 110 10 _ _ (by decide) ht⟩
              · exact ⟨_, Encodes.esc 114 13 _ _ (by decide) ht⟩
              · exact ⟨_, Encodes.esc 116 9 _ _ (by decide) ht⟩
              · exact ⟨_, Encodes.esc 92 92 _ _ (by decide) ht⟩
              · exact ⟨_, Encodes.esc 47 47 _ _ (by decide) ht⟩
              · exact ⟨_, Encodes.esc 34 34 _ _ (by decide) ht⟩
            · by_cases hu : e = 117
              · subst hu
                rw [checkValidLoop_step ⟨Step.stateInStringEsc, false, [], none, n + 1⟩
                  ⟨Step.stateInStringEscU, false, [], none, n + 2⟩ Op.scanContinue 117 _ rfl
                  (by decide)] at h
                obtain ⟨x1, x2, x3, x4, v, r1, rfl, hv, h⟩ := checkValidLoop_escU_inv rest1 _ h
                have hr1 : r1.length ≤ k := by simp at hrest1; omega
                obtain ⟨t1, ht1⟩ := ih r1 _ hr1 h
                by_cases hs : 55296 ≤ v ∧ v < 57344
                · by_cases hp : v < 56320 ∧ ∃ y1 y2 y3 y4 w r2,
                      r1 = 92 :: 117 :: y1 :: y2 :: y3 :: y4 :: r2 ∧
                      hex4 y1 y2 y3 y4 = some w ∧ 56320 ≤ w ∧ w < 57344
                  · obtain ⟨hlt, y1, y2, y3, y4, w, r2, rfl, hw, hlo⟩ := hp
                    have hr2 : r2.length ≤ k := by simp at hr1; omega
                    simp only [List.cons_append] at h
                    rw [checkValidLoop_escU y1 y2 y3 y4 w _ _ hw] at h
                    obtain ⟨t2, ht2⟩ := ih r2 _ hr2 h
                    exact ⟨_, Encodes.escPair x1 x2 x3 x4 y1 y2 y3 y4 v w r2 t2 hv hw
                      ⟨hs.1, hlt⟩ hlo ht2⟩
                  · exact ⟨_, Encodes.escLone x1 x2 x3 x4 v r1 t1 hv hs
                      (fun hlt y1 y2 y3 y4 w r2 hb hw hlo =>
                        hp ⟨hlt, y1, y2, y3, y4, w, r2, hb, hw, hlo⟩) ht1⟩
                · exact ⟨_, Encodes.escU x1 x2 x3 x4 v r1 t1 hv hs ht1⟩
              · exfalso
                have hstep : Scanner.doStep ⟨Step.stateInStringEsc, false, [], none, n + 1 + 1⟩ e
                    = ((Scanner.error ⟨Step.stateInStringEsc, false, [], none, n + 1 + 1⟩ e
                        (ascii "in string escape code")).1, Op.scanError) := by
                  simp only [Scanner.doStep]
                  rw [if_neg he, if_neg hu]
                  rfl
                exact checkValidLoop_scanError ⟨Step.stateInStringEsc, false, [], none, n + 1⟩
                  _ e _ hstep h
        · by_cases hctl : c < 32
          · exfalso
            have hstep : Scanner.doStep ⟨Step.stateInString, false, [], none, n + 1⟩ c
                = ((Scanner.error ⟨Step.stateInString, false, [], none, n + 1⟩ c
                    (ascii "in string literal")).1, Op.scanError) := by
              simp only [Scanner.doStep]
              rw [if_neg hq, if_neg hbs, if_pos hctl]
              rfl
            exact checkValidLoop_scanError ⟨Step.stateInString, false, [], none, n⟩ _ c _
              hstep h
          · have hsb : StrByte c := ⟨by omega, hq, hbs⟩
            by_cases hc : c < 128
            · rw [checkValidLoop_strByte c _ n hsb] at h
              obtain ⟨t, ht⟩ := ih rest _ hrest h
              exact ⟨_, Encodes.plain c rest t ⟨by omega, hc, hq, hbs⟩ ht⟩
            · rcases runeAt c rest (by omega) with hbad | ⟨p, tail, r, hs1, hlen, _, hp, hd, he⟩
              · rw [checkValidLoop_strByte c _ n hsb] at h
                obtain ⟨t, ht⟩ := ih rest _ hrest h
                exact ⟨_, Encodes.bad c rest t (by omega) hbad ht⟩
              · have htail : tail.length ≤ k := by
                  have := congrArg List.length hs1
                  simp only [List.length_cons, List.length_append] at this
                  omega
                rw [← List.cons_append, hs1, List.append_assoc, checkValidLoop_strBytes p _ n
                  (fun x hx => ⟨by have := hp x hx; omega, by have := hp x hx; omega,
                    by have := hp x hx; omega⟩)] at h
                obtain ⟨t, ht⟩ := ih tail _ htail h
                rw [hs1]
                exact ⟨_, Encodes.rune p r tail t hlen hp hd he ht⟩

/-- Every string literal that the scanner accepts stands for a text. -/
theorem encodes_of_checkValid (b : Bytes) (h : checkValid (34 :: (b ++ [34])) = .ok ()) :
    ∃ t, Encodes b t := by
  unfold checkValid at h
  rw [checkValidLoop_step Scanner.reset ⟨Step.stateInString, false, [], none, 1⟩
    Op.scanBeginLiteral 34 _ (by decide) (by decide)] at h
  exact encodes_of_checkValidLoop b.length b 1 (le_refl _) h

/-- A literal body stands for one text only. -/
theorem encodes_unique (b t1 t2 : Bytes) (h1 : Encodes b t1) (h2 : Encodes b t2) : t1 = t2 := by
  have a := jsonUnmarshalString_encodes b t1 [] h1
  have c := jsonUnmarshalString_encodes b t2 [] h2
  rw [a] at c
  exact Except.ok.inj c

/-! ## White space around a string literal -/

theorem checkValidLoop_leading (ws : Bytes) : ∀ (n : Nat) (l : Bytes),
    (∀ c ∈ ws, isSpace c = true) →
    checkValidLoop ⟨Step.stateBeginValue, false, [], none, n⟩ (ws ++ l)
      = checkValidLoop ⟨Step.stateBeginValue, false, [], none, n + ws.length⟩ l := by
  induction ws with
  | nil => intro n l _; rfl
  | cons c ws ih =>
    intro n l h
    have hc : isSpace c = true := h c (List.mem_cons_self _ _)
    have hstep : Scanner.doStep ⟨Step.stateBeginValue, false, [], none, n + 1⟩ c
        = (⟨Step.stateBeginValue, false, [], none, n + 1⟩, Op.scanSkipSpace) := by
      simp only [Scanner.doStep, stateBeginValue]
      rw [if_pos hc]
    rw [List.cons_append, checkValidLoop_step ⟨Step.stateBeginValue, false, [], none, n⟩ _ _ c _
      hstep (by decide), ih (n + 1) l (fun x hx => h x (List.mem_cons_of_mem _ hx))]
    simp only [List.length_cons]
    rw [show n + 1 + ws.length = n + (ws.length + 1) by omega]

theorem checkValidLoop_trailing (ws : Bytes) : ∀ (n : Nat) (top : Bool),
    (∀ c ∈ ws, isSpace c = true) →
    checkValidLoop ⟨if top then Step.stateEndTop else Step.stateEndValue, top, [], none, n⟩ ws
      = .ok () := by
  induction ws with
  | nil => intro n top _; cases top <;> rfl
  | cons c ws ih =>
    intro n top h
    have hc : isSpace c = true := h c (List.mem_cons_self _ _)
    have hstep : Scanner.doStep
        ⟨if top then Step.stateEndTop else Step.stateEndValue, top, [], none, n + 1⟩ c
        = (⟨Step.stateEndTop, true, [], none, n + 1⟩, Op.scanEnd) := by
      cases top <;> simp [Scanner.doStep, stateEndValue, stateEndTop, hc]
    rw [checkValidLoop_step
      ⟨if top then Step.stateEndTop else Step.stateEndValue, top, [], none, n⟩ _ _ c ws
      hstep (by decide)]
    exact ih (n + 1) true (fun x hx => h x (List.mem_cons_of_mem _ hx))

/-- The scanner accepts a literal body between two double quotes, with white space
before and after. -/
theorem checkValid_encodes_space (b t ws1 ws2 : Bytes) (h : Encodes b t)
    (h1 : ∀ c ∈ ws1, isSpace c = true) (h2 : ∀ c ∈ ws2, isSpace c = true) :
    checkValid (ws1 ++ 34 :: (b ++ 34 :: ws2)) = .ok () := by
  unfold checkValid
  rw [show Scanner.reset = ⟨Step.stateBeginValue, false, [], none, 0⟩ from rfl,
    checkValidLoop_leading ws1 0 _ h1,
    checkValidLoop_step ⟨Step.stateBeginValue, false, [], none, 0 + ws1.length⟩
      ⟨Step.stateInString, false, [], none, 0 + ws1.length + 1⟩ Op.scanBeginLiteral 34 _ rfl
      (by decide),
    checkValidLoop_encodes b t h,
    checkValidLoop_step ⟨Step.stateInString, false, [], none, 0 + ws1.length + 1 + b.length⟩
      ⟨Step.stateEndValue, false, [], none, 0 + ws1.length + 1 + b.length + 1⟩ Op.scanContinue
      34 _ rfl (by decide)]
  exact checkValidLoop_trailing ws2 _ false h2

theorem dropWhile_isSpace (ws l : Bytes) (h : ∀ c ∈ ws, isSpace c = true) :
    List.dropWhile isSpace (ws ++ 34 :: l) = 34 :: l := by
  induction ws with
  | nil => rw [List.nil_append, List.dropWhile_cons_of_neg (by decide)]
  | cons c ws ih =>
    rw [List.cons_append, List.dropWhile_cons_of_pos (h c (List.mem_cons_self _ _))]
    exact ih (fun x hx => h x (List.mem_cons_of_mem _ hx))

/-- Function `json.Unmarshal` of a literal body between two double quotes, with white
space before and after, yields its text. -/
theorem jsonUnmarshalString_encodes_space (b t s0 ws1 ws2 : Bytes) (h : Encodes b t)
    (h1 : ∀ c ∈ ws1, isSpace c = true) (h2 : ∀ c ∈ ws2, isSpace c = true) :
    jsonUnmarshalString (ws1 ++ 34 :: (b ++ 34 :: ws2)) s0 = .ok t := by
  unfold jsonUnmarshalString
  rw [checkValid_encodes_space b t ws1 ws2 h h1 h2]
  simp only [dropWhile_isSpace ws1 _ h1]
  rw [if_neg (by decide), if_neg (by decide), if_neg (by decide), if_neg (by decide),
    if_pos trivial, stringLitLen_encodes b t h ws2]
  have ht : List.take (b.length + 1) (b ++ 34 :: ws2) = b ++ [34] := by
    rw [show b ++ 34 :: ws2 = (b ++ [34]) ++ ws2 by simp,
      show b.length + 1 = (b ++ [34]).length by simp, List.take_left]
  rw [ht, unquoteBytes_encodes b t h]

/-! ## `UnmarshalJSON` of a string literal and `UnmarshalText` -/

theorem UnmarshalJSON_of_string (d0 : SDuration) (data t : Bytes)
    (h : jsonUnmarshalString data [] = .ok t) : UnmarshalJSON d0 data = UnmarshalText d0 t := by
  unfold UnmarshalJSON UnmarshalText
  rw [h]

theorem UnmarshalText_fails (d0 : SDuration) (t : Bytes) (h : ∀ v, ParseDuration t ≠ .ok v) :
    (UnmarshalText d0 t).1 ≠ none ∧ (UnmarshalText d0 t).2 = d0 := by
  unfold UnmarshalText
  cases hp : ParseDuration t with
  | error e => exact ⟨by simp, rfl⟩
  | ok v => exact absurd hp (h v)

theorem toValidUTF8_valid (s : Bytes) (h : validUTF8 s = true) : toValidUTF8 s = s :=
  toValidLoop_valid _ s h

/-- A text that is not valid UTF-8 is refused by `ParseDuration`, and so is the text
that replaces it. -/
theorem ParseDuration_invalid (s : Bytes) (h : validUTF8 s = false) :
    (∀ v, ParseDuration s ≠ .ok v) ∧ (∀ v, ParseDuration (toValidUTF8 s) ≠ .ok v) := by
  constructor
  · intro v hv
    have := unitText_valid s (ParseDuration_unitText s v hv) s.length (le_refl _)
    unfold validUTF8 at h
    rw [this] at h
    exact absurd h (by simp)
  · intro v hv
    exact unitText_not_mem _ (ParseDuration_unitText _ v hv)
      (toValidLoop_invalid _ s (le_refl _) h)

/-- C7, as stated, fails for a text that is not valid UTF-8: for the one-byte text
`0xFF`, `UnmarshalText` returns the parse error of that text, while `UnmarshalJSON` -
of the byte between two double quotes and of the literal that `json.Marshal` writes
for it - returns the parse error of the text U+FFFD, which `encoding/json` puts in the
place of the byte.  Both calls fail and leave the receiver as it was. -/
theorem UnmarshalJSON_replaces_invalid_UTF8 :
    UnmarshalText 7 [255] = (some (Error.time (errInvalid [255])), 7) ∧
    UnmarshalJSON 7 [34, 255, 34] = (some (Error.time (errInvalid [239, 191, 189])), 7) ∧
    jsonMarshalString [255] = [34, 92, 117, 102, 102, 102, 100, 34] ∧
    UnmarshalJSON 7 (jsonMarshalString [255])
      = (some (Error.time (errInvalid [239, 191, 189])), 7) ∧
    UnmarshalJSON 7 [34, 255, 34] ≠ UnmarshalText 7 [255] ∧
    UnmarshalJSON 7 (jsonMarshalString [255]) ≠ UnmarshalText 7 [255] := by
  decide

/-- C7, amended (`UnmarshalJSON` of a JSON string agrees with `UnmarshalText`): for
every prior receiver value `d0` and every text `s`,
(1) `UnmarshalJSON` of any literal body `b` that stands for `s` (`Encodes b s`: plain
bytes, escapes, UTF-8 sequences), put between two double quotes, returns what
`UnmarshalText s` returns - the same nil or the same parse error, and the same
receiver;
(2) the same holds with white space before and after the literal;
(3) every body `b` that, between two double quotes, is valid JSON stands for exactly
one text `t`, and `UnmarshalJSON` of that literal returns what `UnmarshalText t`
returns;
(4) `UnmarshalJSON` of the literal that `json.Marshal` writes for `s` returns what
`UnmarshalText` returns for `s` with its invalid bytes replaced by U+FFFD;
(5) when `s` is valid UTF-8 (the empty text included) nothing is replaced, and
`UnmarshalJSON` of that literal returns what `UnmarshalText s` returns;
(6) for every `s`, valid or not, `UnmarshalJSON` of that literal succeeds exactly when
`UnmarshalText s` succeeds, and the receivers after the two calls are equal;
(7) when `s` is not valid UTF-8, `UnmarshalText s` and `UnmarshalJSON` of that literal
both return an error and leave the receiver at `d0`;
(8) when `s` has no control character, double quote or backslash, `UnmarshalJSON` of
`s` between two double quotes returns what `UnmarshalText` returns for `s` with its
invalid bytes replaced by U+FFFD. -/
theorem UnmarshalJSON_agrees_with_UnmarshalText (d0 : SDuration) (s : Bytes) :
    (∀ b, Encodes b s → UnmarshalJSON d0 (34 :: (b ++ [34])) = UnmarshalText d0 s) ∧
    (∀ b ws1 ws2, Encodes b s → (∀ c ∈ ws1, isSpace c = true) →
      (∀ c ∈ ws2, isSpace c = true) →
      UnmarshalJSON d0 (ws1 ++ 34 :: (b ++ 34 :: ws2)) = UnmarshalText d0 s) ∧
    (∀ b, checkValid (34 :: (b ++ [34])) = .ok () →
      ∃ t, Encodes b t ∧ (∀ t1, Encodes b t1 → t1 = t) ∧
        UnmarshalJSON d0 (34 :: (b ++ [34])) = UnmarshalText d0 t) ∧
    UnmarshalJSON d0 (jsonMarshalString s) = UnmarshalText d0 (toValidUTF8 s) ∧
    (validUTF8 s = true →
      toValidUTF8 s = s ∧ UnmarshalJSON d0 (jsonMarshalString s) = UnmarshalText d0 s) ∧
    (((UnmarshalJSON d0 (jsonMarshalString s)).1 = none ↔ (UnmarshalText d0 s).1 = none) ∧
      (UnmarshalJSON d0 (jsonMarshalString s)).2 = (UnmarshalText d0 s).2) ∧
    (validUTF8 s = false →
      ((UnmarshalText d0 s).1 ≠ none ∧ (UnmarshalText d0 s).2 = d0) ∧
      ((UnmarshalJSON d0 (jsonMarshalString s)).1 ≠ none ∧
        (UnmarshalJSON d0 (jsonMarshalString s)).2 = d0)) ∧
    ((∀ c ∈ s, StrByte c) →
      UnmarshalJSON d0 (34 :: (s ++ [34])) = UnmarshalText d0 (toValidUTF8 s)) := by
  have h4 : UnmarshalJSON d0 (jsonMarshalString s) = UnmarshalText d0 (toValidUTF8 s) :=
    UnmarshalJSON_of_string d0 _ _ (jsonUnmarshalString_marshal s [])
  have h7 : validUTF8 s = false →
      ((UnmarshalText d0 s).1 ≠ none ∧ (UnmarshalText d0 s).2 = d0) ∧
      ((UnmarshalJSON d0 (jsonMarshalString s)).1 ≠ none ∧
        (UnmarshalJSON d0 (jsonMarshalString s)).2 = d0) := by
    intro hv
    obtain ⟨f1, f2⟩ := ParseDuration_invalid s hv
    rw [h4]
    exact ⟨UnmarshalText_fails d0 s f1, UnmarshalText_fails d0 (toValidUTF8 s) f2⟩
  refine ⟨?_, ?_, ?_, h4, ?_, ?_, h7, ?_⟩
  · intro b hb
    exact UnmarshalJSON_of_string d0 _ _ (jsonUnmarshalString_encodes b s [] hb)
  · intro b ws1 ws2 hb h1 h2
    exact UnmarshalJSON_of_string d0 _ _
      (jsonUnmarshalString_encodes_space b s [] ws1 ws2 hb h1 h2)
  · intro b hb
    obtain ⟨t, ht⟩ := encodes_of_checkValid b hb
    exact ⟨t, ht, fun t1 ht1 => encodes_unique b t1 t ht1 ht,
      UnmarshalJSON_of_string d0 _ _ (jsonUnmarshalString_encodes b t [] ht)⟩
  · intro hv
    have := toValidUTF8_valid s hv
    exact ⟨this, by rw [h4, this]⟩
  · cases hv : validUTF8 s with
    | true => rw [h4, toValidUTF8_valid s hv]; exact ⟨Iff.rfl, rfl⟩
    | false =>
      obtain ⟨⟨a1, a2⟩, ⟨b1, b2⟩⟩ := h7 hv
      exact ⟨⟨fun h => absurd h b1, fun h => absurd h a1⟩, by rw [a2, b2]⟩
  · intro hs
    exact UnmarshalJSON_of_string d0 _ _ (jsonUnmarshalString_raw s [] hs)

theorem UnmarshalJSON_agrees_with_UnmarshalText_witness :
    (Encodes [53, 92, 117, 48, 48, 55, 51] [53, 115] ∧
      UnmarshalJSON 7 [34, 53, 92, 117, 48, 48, 55, 51, 34] = UnmarshalText 7 [53, 115] ∧
      UnmarshalText 7 [53, 115] = (none, 5000000000)) ∧
    (Encodes [97, 92, 34, 98] [97, 34, 98] ∧
      UnmarshalJSON 7 [34, 97, 92, 34, 98, 34] = UnmarshalText 7 [97, 34, 98] ∧
      UnmarshalText 7 [97, 34, 98] = (some (Error.time (errInvalid [97, 34, 98])), 7)) ∧
    (Encodes [92, 117, 100, 56, 51, 100, 92, 117, 100, 101, 48, 48] [240, 159, 152, 128] ∧
      UnmarshalJSON 7 [34, 92, 117, 100, 56, 51, 100, 92, 117, 100, 101, 48, 48, 34]
        = UnmarshalText 7 [240, 159, 152, 128]) ∧
    (Encodes [92, 117, 100, 56, 51, 100, 115] [239, 191, 189, 115] ∧
      UnmarshalJSON 7 [34, 92, 117, 100, 56, 51, 100, 115, 34]
        = UnmarshalText 7 [239, 191, 189, 115]) ∧
    (Encodes [] [] ∧ (∀ c ∈ [32, 9], isSpace c = true) ∧ (∀ c ∈ [10], isSpace c = true) ∧
      UnmarshalJSON 7 [32, 9, 34, 34, 10] = UnmarshalText 7 [] ∧
      UnmarshalText 7 [] = (some (Error.time (errInvalid [])), 7)) ∧
    (checkValid [34, 53, 92, 117, 48, 48, 98, 53, 115, 34] = .ok () ∧
      ∃ t, Encodes [53, 92, 117, 48, 48, 98, 53, 115] t ∧
        (∀ t1, Encodes [53, 92, 117, 48, 48, 98, 53, 115] t1 → t1 = t) ∧
        UnmarshalJSON 7 [34, 53, 92, 117, 48, 48, 98, 53, 115, 34] = UnmarshalText 7 t) ∧
    (validUTF8 [] = true ∧ jsonMarshalString [] = [34, 34] ∧
      UnmarshalJSON 7 [34, 34] = UnmarshalText 7 []) ∧
    (validUTF8 [53, 38, 115] = true ∧
      jsonMarshalString [53, 38, 115] = [34, 53, 92, 117, 48, 48, 50, 54, 115, 34] ∧
      UnmarshalJSON 7 [34, 53, 92, 117, 48, 48, 50, 54, 115, 34]
        = UnmarshalText 7 [53, 38, 115]) ∧
    (validUTF8 [53, 255] = false ∧
      ((UnmarshalText 7 [53, 255]).1 ≠ none ∧ (UnmarshalText 7 [53, 255]).2 = 7) ∧
      ((UnmarshalJSON 7 (jsonMarshalString [53, 255])).1 ≠ none ∧
        (UnmarshalJSON 7 (jsonMarshalString [53, 255])).2 = 7)) ∧
    ((∀ c ∈ [53, 206, 188, 115], StrByte c) ∧ toValidUTF8 [53, 206, 188, 115]
        = [53, 206, 188, 115] ∧
      UnmarshalJSON 7 [34, 53, 206, 188, 115, 34] = UnmarshalText 7 [53, 206, 188, 115] ∧
      UnmarshalText 7 [53, 206, 188, 115] = (none, 5000)) :=
  ⟨⟨Encodes.plain 53 _ _ (by decide)
      (Encodes.escU 48 48 55 51 115 [] [] (by decide) (by decide) Encodes.nil),
    (UnmarshalJSON_agrees_with_UnmarshalText 7 [53, 115]).1 [53, 92, 117, 48, 48, 55, 51]
      (Encodes.plain 53 _ _ (by decide)
        (Encodes.escU 48 48 55 51 115 [] [] (by decide) (by decide) Encodes.nil)),
    by decide⟩,
   ⟨Encodes.plain 97 _ _ (by decide)
      (Encodes.esc 34 34 _ _ (Or.inl ⟨rfl, rfl⟩) (Encodes.plain 98 _ _ (by decide) Encodes.nil)),
    (UnmarshalJSON_agrees_with_UnmarshalText 7 [97, 34, 98]).1 [97, 92, 34, 98]
      (Encodes.plain 97 _ _ (by decide)
        (Encodes.esc 34 34 _ _ (Or.inl ⟨rfl, rfl⟩)
          (Encodes.plain 98 _ _ (by decide) Encodes.nil))),
    by decide⟩,
   ⟨Encodes.escPair 100 56 51 100 100 101 48 48 55357 56832 [] [] (by decide) (by decide)
      (by decide) (by decide) Encodes.nil,
    (UnmarshalJSON_agrees_with_UnmarshalText 7 [240, 159, 152, 128]).1
      [92, 117, 100, 56, 51, 100, 92, 117, 100, 101, 48, 48]
      (Encodes.escPair 100 56 51 100 100 101 48 48 55357 56832 [] [] (by decide) (by decide)
        (by decide) (by decide) Encodes.nil)⟩,
   ⟨Encodes.escLone 100 56 51 100 55357 [115] [115] (by decide) (by decide)
      (fun _ _ _ _ _ _ _ hb => by simp at hb)
      (Encodes.plain 115 _ _ (by decide) Encodes.nil),
    (UnmarshalJSON_agrees_with_UnmarshalText 7 [239, 191, 189, 115]).1
      [92, 117, 100, 56, 51, 100, 115]
      (Encodes.escLone 100 56 51 100 55357 [115] [115] (by decide) (by decide)
        (fun _ _ _ _ _ _ _ hb => by simp at hb)
        (Encodes.plain 115 _ _ (by decide) Encodes.nil))⟩,
   ⟨Encodes.nil, by decide, by decide,
    (UnmarshalJSON_agrees_with_UnmarshalText 7 []).2.1 [] [32, 9] [10] Encodes.nil (by decide)
      (by decide),
    by decide⟩,
   ⟨by decide,
    (UnmarshalJSON_agrees_with_UnmarshalText 7 []).2.2.1 [53, 92, 117, 48, 48, 98, 53, 115]
      (by decide)⟩,
   ⟨by decide, by decide,
    ((UnmarshalJSON_agrees_with_UnmarshalText 7 []).2.2.2.2.1 (by decide)).2⟩,
   ⟨by decide, by decide,
    ((UnmarshalJSON_agrees_with_UnmarshalText 7 [53, 38, 115]).2.2.2.2.1 (by decide)).2⟩,
   ⟨by decide,
    (UnmarshalJSON_agrees_with_UnmarshalText 7 [53, 255]).2.2.2.2.2.2.1 (by decide)⟩,
   ⟨by simp [StrByte], by decide,
    (UnmarshalJSON_agrees_with_UnmarshalText 7 [53, 206, 188, 115]).2.2.2.2.2.2.2
      (by simp [StrByte]),
    by decide⟩⟩

end SDurationModel
